import Mathlib

/-!
# A shallow embedding of the JSONPath engine `jsonpath.go`

The Go package compiles a path string into a list of steps (`Compile`), runs the
steps against a decoded JSON value (`Compiled.Lookup`), and has a second engine
that deletes or masks the fields the last step selects (`LookupAndOperate`).

Modelling conventions.

* A decoded JSON value is the tree `JVal`.  Numbers are integers (`%v` prints them
  in decimal); floating-point values are outside the embedding.
* A Go `map[string]interface{}` is the list of its entries in the order in which a
  `for k, v := range m` loop yields them.  Go leaves that order unspecified, so every
  statement about "order" is relative to this entry order.  Keys of a Go map are
  unique; `m[key]` is `lookupKey`, `delete(m, key)` is `deleteKey` and
  `m[key] = v` is `setKey`.
* A Go `string` is a Lean `String` (a valid sequence of code points).  Byte slicing
  that can cut a multi-byte character in two leaves the replacement character
  `U+FFFD` in the place of the orphaned bytes.
* A function returning `(value, error)` returns `Except Err value`.  A run-time panic
  (a failed type assertion, `reflect.TypeOf(nil).Kind()`, an index out of range) is the
  distinguished value `Err.panic`; it is never swallowed where the Go code ignores an
  `error`.
* Functions that mutate their argument in place return the new state of that
  argument together with the optional error: the state is returned on failure too,
  because the Go code does not roll back.
* Go standard-library functions whose behaviour is not written in this package
  (`strconv.ParseFloat`, `go/types.Eval`, `regexp`, `%v` on composite values) are the
  fields of the parameter `GoLib`.
-/

namespace JsonPath

/-! ## Data model -/

/-- A decoded JSON value (`interface{}` holding `nil`, `bool`, a number, `string`,
`[]interface{}` or `map[string]interface{}`). -/
inductive JVal where
  | null
  | bool (b : Bool)
  | num (n : Int)
  | str (s : String)
  | arr (xs : List JVal)
  | obj (m : List (String × JVal))

/-- The entries of a mapping. -/
abbrev JMap := List (String × JVal)

mutual
/-- Decision procedure for equality of JSON values. -/
def JVal.decEq : (a b : JVal) → Decidable (a = b)
  | .null, .null => isTrue rfl
  | .bool a, .bool b =>
    if h : a = b then isTrue (by rw [h]) else isFalse (by intro h2; cases h2; exact h rfl)
  | .num a, .num b =>
    if h : a = b then isTrue (by rw [h]) else isFalse (by intro h2; cases h2; exact h rfl)
  | .str a, .str b =>
    if h : a = b then isTrue (by rw [h]) else isFalse (by intro h2; cases h2; exact h rfl)
  | .arr a, .arr b =>
    match JVal.decEqL a b with
    | isTrue h => isTrue (by rw [h])
    | isFalse h => isFalse (by intro h2; cases h2; exact h rfl)
  | .obj a, .obj b =>
    match JVal.decEqM a b with
    | isTrue h => isTrue (by rw [h])
    | isFalse h => isFalse (by intro h2; cases h2; exact h rfl)
  | .null, .bool _ | .null, .num _ | .null, .str _ | .null, .arr _ | .null, .obj _ =>
    isFalse (by intro h; cases h)
  | .bool _, .null | .bool _, .num _ | .bool _, .str _ | .bool _, .arr _ | .bool _, .obj _ =>
    isFalse (by intro h; cases h)
  | .num _, .null | .num _, .bool _ | .num _, .str _ | .num _, .arr _ | .num _, .obj _ =>
    isFalse (by intro h; cases h)
  | .str _, .null | .str _, .bool _ | .str _, .num _ | .str _, .arr _ | .str _, .obj _ =>
    isFalse (by intro h; cases h)
  | .arr _, .null | .arr _, .bool _ | .arr _, .num _ | .arr _, .str _ | .arr _, .obj _ =>
    isFalse (by intro h; cases h)
  | .obj _, .null | .obj _, .bool _ | .obj _, .num _ | .obj _, .str _ | .obj _, .arr _ =>
    isFalse (by intro h; cases h)
/-- Decision procedure for equality of sequences. -/
def JVal.decEqL : (a b : List JVal) → Decidable (a = b)
  | [], [] => isTrue rfl
  | [], _ :: _ => isFalse (by intro h; cases h)
  | _ :: _, [] => isFalse (by intro h; cases h)
  | x :: xs, y :: ys =>
    match JVal.decEq x y, JVal.decEqL xs ys with
    | isTrue h1, isTrue h2 => isTrue (by rw [h1, h2])
    | isFalse h1, _ => isFalse (by intro h; cases h; exact h1 rfl)
    | _, isFalse h2 => isFalse (by intro h; cases h; exact h2 rfl)
/-- Decision procedure for equality of entry lists. -/
def JVal.decEqM : (a b : List (String × JVal)) → Decidable (a = b)
  | [], [] => isTrue rfl
  | [], _ :: _ => isFalse (by intro h; cases h)
  | _ :: _, [] => isFalse (by intro h; cases h)
  | (k, x) :: xs, (l, y) :: ys =>
    if hk : k = l then
      match JVal.decEq x y, JVal.decEqM xs ys with
      | isTrue h1, isTrue h2 => isTrue (by rw [hk, h1, h2])
      | isFalse h1, _ => isFalse (by intro h; cases h; exact h1 rfl)
      | _, isFalse h2 => isFalse (by intro h; cases h; exact h2 rfl)
    else isFalse (by intro h; cases h; exact hk rfl)
end

instance : DecidableEq JVal := JVal.decEq

deriving instance DecidableEq for Except

/-- Errors returned by the package; `panic` marks a run-time panic, which is not an
error value in Go. -/
inductive Err where
  | nullObject
  | keyNotFound (key : String)
  | notMapOrSlice
  | notSlice
  | notMap
  | keyIsNil
  | keyNotSlice (key : String)
  | notSliceOrMap
  | indexOutOfRange (len idx : Int)
  | fromOutOfRange (len frm : Int)
  | toOutOfRange (len tov : Int)
  | emptyIndex
  | rangeArgs
  | rangeArgs21
  | unsupportedExpr
  | multipleIndex
  | shouldStart
  | frontOfPath
  | tailTooShort
  | oneRange
  | atoi (s : String)
  | filterType
  | invalidChar
  | notImplemented
  | opInNoin
  | opCmp
  | evalFailed
  | evalNotBool
  | emptyRule
  | regexShape
  | regexCompile
  | nilPat
  | regexOnNonString
  | notDesensitization
  | funcNotFound (name : String)
  | carNumber
  | phoneNumber
  | startPos
  | panic
  deriving DecidableEq

/-- The operator of a step (the Go field `op`, a string with these six values). -/
inductive Op where
  | root | key | idx | range | filter | scan
  deriving DecidableEq

/-- The dynamically typed field `args` of a step: `nil`, `[]int`,
`[2]interface{}` (each bound `nil` or an `int`) or a `string`. -/
inductive Args where
  | none
  | idx (l : List Int)
  | range (frm tov : Option Int)
  | filter (s : String)
  deriving DecidableEq

/-- One step of a compiled path. -/
structure Step where
  op : Op
  key : String
  args : Args
  deriving DecidableEq

/-- A compiled path: the path string and its steps. -/
structure Compiled where
  path : String
  steps : List Step
  deriving DecidableEq

/-- The argument `mode` of the mutation engine.  The source compares it with the two
constants `conf.DataFieldControl` and `conf.DataDesensitizationControl` of a package
that is not part of the repository; `other` is any string equal to neither. -/
inductive Mode where
  | fieldControl
  | desensitization
  | other
  deriving DecidableEq

/-- Result of `go/types.Eval` on an expression: an error, a result that is not a
constant value, or the rendering `Value.String()` of the constant. -/
inductive EvalRes where
  | failed
  | notValue
  | value (rendering : String)
  deriving DecidableEq

/-- The Go standard-library functions the package calls and does not define. -/
structure GoLib where
  /-- Whether `strconv.ParseFloat(s, 64)` returns no error. -/
  parseFloatOk : String → Bool
  /-- Evaluation of an expression by `types.Eval`. -/
  typesEval : String → EvalRes
  /-- What `%v` prints for a sequence or a mapping. -/
  sprintComposite : JVal → String
  /-- Whether `regexp.Compile` accepts the pattern. -/
  regexpCompiles : String → Bool
  /-- Result of `MatchString` for a pattern that compiles. -/
  regexpMatch : String → String → Bool

/-! ## Go built-ins on maps and strings -/

/-- Map read `m[key]`: the value and whether the key exists. -/
def lookupKey (key : String) : JMap → Option JVal
  | [] => none
  | (k, v) :: rest => if k = key then some v else lookupKey key rest

/-- Map removal `delete(m, key)`. -/
def deleteKey (key : String) : JMap → JMap
  | [] => []
  | (k, v) :: rest => if k = key then deleteKey key rest else (k, v) :: deleteKey key rest

/-- Map write `m[key] = v`: overwrite the entry, or add one. -/
def setKey (key : String) (v : JVal) : JMap → JMap
  | [] => [(key, v)]
  | (k, w) :: rest => if k = key then (k, v) :: rest else (k, w) :: setKey key v rest

/-- Prefix test of `strings.HasPrefix` on code points. -/
def startsWith : List Char → List Char → Bool
  | _, [] => true
  | [], _ :: _ => false
  | c :: cs, p :: ps => c = p && startsWith cs ps

/-- Suffix test of `strings.HasSuffix`. -/
def endsWith (s suf : List Char) : Bool :=
  startsWith s.reverse suf.reverse

/-- Drop leading blanks. -/
def trimLeft : List Char → List Char
  | [] => []
  | c :: cs => if c = ' ' then trimLeft cs else c :: cs

/-- Cut both ends of blanks, `strings.Trim(s, " ")`. -/
def trimSpaces (s : List Char) : List Char :=
  (trimLeft (trimLeft s).reverse).reverse

/-- Split at every occurrence of a one-character separator, `strings.Split`;
`cur` is the piece being read. -/
def splitAux (sep : Char) : List Char → List Char → List (List Char)
  | [], cur => [cur]
  | c :: cs, cur => if c = sep then cur :: splitAux sep cs [] else splitAux sep cs (cur ++ [c])

/-- Pieces of `s` between separators, `strings.Split(s, sep)`. -/
def splitOnChar (sep : Char) (s : List Char) : List (List Char) :=
  splitAux sep s []

/-- Length in bytes of the UTF-8 encoding, Go's `len` of a string. -/
def byteLen (s : List Char) : Nat :=
  (s.map fun c => c.utf8Size).sum

/-- Byte slice `s[:len(s)-1]`: the last byte is cut off; a multi-byte last character
leaves orphaned bytes, written `U+FFFD`. -/
def dropLastByte (s : List Char) : List Char :=
  match s.getLast? with
  | none => []
  | some c => if c.utf8Size = 1 then s.dropLast else s.dropLast ++ [Char.ofNat 65533]

/-- Byte slice `s[1:]`, with the same convention as `dropLastByte`. -/
def dropFirstByte : List Char → List Char
  | [] => []
  | c :: cs => if c.utf8Size = 1 then cs else Char.ofNat 65533 :: cs

/-- Whether every character is a decimal digit. -/
def allDigits (s : List Char) : Bool :=
  s.all fun c => decide ('0' ≤ c ∧ c ≤ '9')

/-- Value of a string of decimal digits. -/
def digitsValue (s : List Char) : Nat :=
  s.foldl (fun a c => a * 10 + (c.toNat - 48)) 0

/-- Modelled from the documentation of `strconv.Atoi`: an optional sign followed by at
least one decimal digit, the value within the 64-bit `int`. -/
def atoi (s : List Char) : Option Int :=
  let neg := s.head? = some '-'
  let ds := if s.head? = some '-' ∨ s.head? = some '+' then s.tail else s
  if ds = [] ∨ allDigits ds = false then none
  else
    let v : Int := if neg then -(digitsValue ds : Int) else (digitsValue ds : Int)
    if -9223372036854775808 ≤ v ∧ v ≤ 9223372036854775807 then some v else none

/-- Two's-complement wrap of a 64-bit `int` addition result. -/
def wrap64 (x : Int) : Int :=
  (x + 9223372036854775808) % 18446744073709551616 - 9223372036854775808

/-- The values a Go `int` can hold. -/
def IsInt64 (x : Int) : Prop :=
  -9223372036854775808 ≤ x ∧ x ≤ 9223372036854775807

instance (x : Int) : Decidable (IsInt64 x) := by
  unfold IsInt64; infer_instance

/-! ## Tokenizer and step compiler -/

/-- Body of the `for idx, x := range query` loop of `tokenize`; `first` is
`idx == 0`, `tokens` and `token` are the loop variables. -/
def tokenizeLoop : List Char → Bool → List (List Char) → List Char →
    Except Err (List (List Char) × List Char)
  | [], _, tokens, token => .ok (tokens, token)
  | x :: rest, first, tokens, token0 =>
    let token := token0 ++ [x]
    if first then
      if token = ['$'] ∨ token = ['@'] then tokenizeLoop rest false (tokens ++ [token]) []
      else .error .shouldStart
    else if token = ['.'] then tokenizeLoop rest false tokens token
    else if token = ['.', '.'] then
      tokenizeLoop rest false
        (if tokens.getLast? ≠ some ['*'] then tokens ++ [['*']] else tokens) ['.']
    else if token.contains '[' then
      if x = ']' ∧ endsWith token [Char.ofNat 92, ']'] = false then
        tokenizeLoop rest false
          (tokens ++ [if token.head? = some '.' then token.tail else token]) []
      else tokenizeLoop rest false tokens token
    else if x = '.' then
      tokenizeLoop rest false
        (tokens ++ [if token.head? = some '.' then token.tail.dropLast else token.dropLast])
        ['.']
    else tokenizeLoop rest false tokens token

/-- Split a path string into raw tokens. -/
def tokenize (query : String) : Except Err (List (List Char)) :=
  match tokenizeLoop query.data true [] [] with
  | .error e => .error e
  | .ok (tokens, token) =>
    if token.length > 0 then
      let token1 := if token.head? = some '.' then token.tail else token
      if token1 ≠ ['*'] then .ok (tokens ++ [token1])
      else if tokens.getLast? ≠ some ['*'] then .ok (tokens ++ [token1])
      else .ok tokens
    else .ok tokens

/-- Parse the pieces of an index list, `strconv.Atoi(strings.Trim(x, " "))` on each,
stopping at the first failure. -/
def parseIdxList : List (List Char) → Except Err (List Int)
  | [] => .ok []
  | x :: rest =>
    match atoi (trimSpaces x) with
    | none => .error (.atoi (String.mk (trimSpaces x)))
    | some i =>
      match parseIdxList rest with
      | .error e => .error e
      | .ok is => .ok (i :: is)

/-- Turn one raw token into operator, key and arguments. -/
def parse_token (token : List Char) : Except Err (Op × String × Args) :=
  if token = ['$'] then .ok (.root, "$", .none)
  else if token.contains '[' = false then .ok (.key, String.mk token, .none)
  else
    let key := token.takeWhile (fun c => c ≠ '[')
    let tail0 := token.dropWhile (fun c => c ≠ '[')
    if byteLen tail0 < 3 then .error .tailTooShort
    else
      let tail := dropLastByte tail0.tail
      if tail.contains '?' then
        if startsWith tail ['?', '('] && endsWith tail [')'] then
          .ok (.filter, String.mk key, .filter (String.mk (trimSpaces (tail.drop 2).dropLast)))
        else .ok (.filter, String.mk key, .none)
      else if tail.contains ':' then
        match splitOnChar ':' tail with
        | [t0, t1] =>
          let frm := atoi (trimSpaces t0)
          match atoi (trimSpaces t1) with
          | some tov => .ok (.range, String.mk key, .range frm (some tov))
          | none =>
            if trimSpaces t1 = [] then .ok (.range, String.mk key, .range frm none)
            else .error (.atoi (String.mk (trimSpaces t1)))
        | _ => .error .oneRange
      else if tail = ['*'] then .ok (.range, String.mk key, .range none none)
      else
        match parseIdxList (splitOnChar ',' tail) with
        | .error e => .error e
        | .ok res => .ok (.idx, String.mk key, .idx res)

/-- The `for i := 0; i < tokenLen; i++` loop of `Compile`: a `*` token consumes the
token after it (`tokens[i]` after `i++` panics when there is none). -/
def compileLoop : List (List Char) → List Step → Except Err (List Step)
  | [], steps => .ok steps
  | t :: rest, steps =>
    if t = ['*'] then
      match rest with
      | [] => .error .panic
      | t2 :: rest2 =>
        match parse_token t2 with
        | .error e => .error e
        | .ok (op, key, args) =>
          if op = .range ∨ op = .idx then compileLoop rest2 (steps ++ [⟨.scan, key, args⟩])
          else compileLoop rest2 (steps ++ [⟨.scan, key, .none⟩])
    else
      match parse_token t with
      | .error e => .error e
      | .ok (op, key, args) => compileLoop rest (steps ++ [⟨op, key, args⟩])

/-- Compile a path string; `tokens[0]` panics when the path is empty. -/
def Compile (jpath : String) : Except Err Compiled :=
  match tokenize jpath with
  | .error e => .error e
  | .ok [] => .error .panic
  | .ok (t0 :: tokens) =>
    if t0 ≠ ['@'] ∧ t0 ≠ ['$'] then .error .frontOfPath
    else
      match compileLoop tokens [] with
      | .error e => .error e
      | .ok steps => .ok ⟨jpath, steps⟩

/-! ## Lookup engine -/

/-- Element `idx` of a sequence; a negative index counts from the end. -/
def get_idx (obj : JVal) (idx : Int) : Except Err JVal :=
  match obj with
  | .arr xs =>
    let length : Int := xs.length
    if idx ≥ 0 then
      if idx ≥ length then .error (.indexOutOfRange length idx)
      else
        match xs[idx.toNat]? with
        | some v => .ok v
        | none => .error .panic
    else
      let _idx := length + idx
      if _idx < 0 then .error (.indexOutOfRange length idx)
      else
        match xs[_idx.toNat]? with
        | some v => .ok v
        | none => .error .panic
  | .null => .error .panic
  | _ => .error .notSlice

/-- Turn the bounds of a range into a start and an exclusive end. -/
def transforRange (len : Int) (frm tov : Option Int) : Except Err (Int × Int) :=
  let frm1 : Int := frm.getD 0
  let to1 : Int := tov.getD (len - 1)
  let _frm : Int := if frm1 < 0 then len + frm1 else frm1
  let _to : Int := if to1 < 0 then len + to1 + 1 else wrap64 (to1 + 1)
  if _frm < 0 ∨ _frm ≥ len then .error (.fromOutOfRange len frm1)
  else if _to < 0 ∨ _to > len then .error (.toOutOfRange len to1)
  else .ok (_frm, _to)

/-- Slice of a sequence; `reflect.Value.Slice(i, j)` panics when `j < i`. -/
def get_range (obj : JVal) (frm tov : Option Int) : Except Err JVal :=
  match obj with
  | .arr xs =>
    match transforRange xs.length frm tov with
    | .error e => .error e
    | .ok (_frm, _to) =>
      if _to < _frm then .error .panic
      else .ok (.arr ((xs.drop _frm.toNat).take (_to.toNat - _frm.toNat)))
  | .null => .error .panic
  | _ => .error .notSlice

mutual
/-- Value bound to `key` in a mapping, or the values bound to it in the elements of a
sequence. -/
def get_key (obj : JVal) (key : String) : Except Err JVal :=
  match obj with
  | .null => .error .nullObject
  | .obj m =>
    match lookupKey key m with
    | some val => .ok val
    | none => .error (.keyNotFound key)
  | .arr xs => .ok (.arr (get_keyElems xs key))
  | _ => .error .notMapOrSlice
/-- The loop of `get_key` over the elements of a sequence: an element is kept when
`get_key` on it returns no error. -/
def get_keyElems (xs : List JVal) (key : String) : List JVal :=
  match xs with
  | [] => []
  | tmp :: rest =>
    match get_key tmp key with
    | .ok v => v :: get_keyElems rest key
    | .error _ => get_keyElems rest key
end

mutual
/-- Recursive descent: append to `res` the values bound to `key`, without entering a
value that was appended. -/
def recursion_search (obj : JVal) (key : String) (res : List JVal) : Except Err (List JVal) :=
  match obj with
  | .obj m => recursion_searchEntries m key res
  | .arr xs => recursion_searchElems xs key res
  | .null => .error .panic
  | _ => .ok res
/-- The loop `for k, v := range jsonMap` of `recursion_search`. -/
def recursion_searchEntries (m : List (String × JVal)) (key : String) (res : List JVal) :
    Except Err (List JVal) :=
  match m with
  | [] => .ok res
  | (k, v) :: rest =>
    if k = key then recursion_searchEntries rest key (res ++ [v])
    else
      match recursion_search v key res with
      | .error e => .error e
      | .ok res1 => recursion_searchEntries rest key res1
/-- The loop of `recursion_search` over the elements of a sequence. -/
def recursion_searchElems (xs : List JVal) (key : String) (res : List JVal) :
    Except Err (List JVal) :=
  match xs with
  | [] => .ok res
  | tmp :: rest =>
    match recursion_search tmp key res with
    | .error e => .error e
    | .ok res1 => recursion_searchElems rest key res1
end

/-- A loop that applies `get_idx` to every index of a list and stops at the first
error. -/
def get_idxList (obj : JVal) : List Int → Except Err (List JVal)
  | [] => .ok []
  | x :: rest =>
    match get_idx obj x with
    | .error e => .error e
    | .ok tmp =>
      match get_idxList obj rest with
      | .error e => .error e
      | .ok res => .ok (tmp :: res)

/-- Recursive descent followed by the optional selection of the step. -/
def get_recursion (obj : JVal) (key : String) (args : Args) : Except Err JVal :=
  match obj with
  | .null => .error .nullObject
  | _ =>
    match recursion_search obj key [] with
    | .error e => .error e
    | .ok result =>
      match args with
      | .none => .ok (.arr result)
      | .range frm tov => get_range (.arr result) frm tov
      | .idx l =>
        match get_idxList (.arr result) l with
        | .error e => .error e
        | .ok res => .ok (.arr res)
      | .filter _ => .error .rangeArgs21

/-! ## Filter predicates -/

/-- State of the loop of `parse_filter`. -/
structure FilterState where
  lp : String
  op : String
  rp : String
  tmp : String
  stage : Nat
  str_embrace : Bool

/-- Store `tmp` in the variable of the current stage. -/
def FilterState.store (st : FilterState) : FilterState :=
  match st.stage with
  | 0 => { st with lp := st.tmp }
  | 1 => { st with op := st.tmp }
  | 2 => { st with rp := st.tmp }
  | _ => st

/-- The loop `for idx, c := range filter` of `parse_filter`. -/
def parse_filterLoop : List Char → FilterState → Except Err FilterState
  | [], st => .ok st
  | c :: rest, st =>
    if c = Char.ofNat 39 then
      if st.str_embrace = false then parse_filterLoop rest { st with str_embrace := true }
      else parse_filterLoop rest { st.store with tmp := "" }
    else if c = ' ' then
      if st.str_embrace = true then parse_filterLoop rest { st with tmp := st.tmp.push c }
      else
        let st1 := { st.store with tmp := "", stage := st.stage + 1 }
        if st1.stage > 2 then .error .invalidChar else parse_filterLoop rest st1
    else parse_filterLoop rest { st with tmp := st.tmp.push c }

/-- Split the body of a filter into left operand, operator and right operand. -/
def parse_filter (filter : String) : Except Err (String × String × String) :=
  match parse_filterLoop filter.data ⟨"", "", "", "", 0, false⟩ with
  | .error e => .error e
  | .ok st =>
    if st.tmp ≠ "" then
      match st.stage with
      | 0 => .ok (st.tmp, "exists", st.rp)
      | 1 => .ok (st.lp, st.tmp, st.rp)
      | 2 => .ok (st.lp, st.op, st.tmp)
      | _ => .ok (st.lp, st.op, st.rp)
    else .ok (st.lp, st.op, st.rp)

/-- The loop over the steps of a path inside a filter. -/
def filter_pathLoop : List (List Char) → JVal → Except Err JVal
  | [], xobj => .ok xobj
  | s :: rest, xobj =>
    match parse_token s with
    | .ok (.key, key, _) =>
      match get_key xobj key with
      | .error e => .error e
      | .ok v => filter_pathLoop rest v
    | .ok (.idx, key, .idx [i]) =>
      match get_key xobj key with
      | .error e => .error e
      | .ok v =>
        match get_idx v i with
        | .error e => .error e
        | .ok w => filter_pathLoop rest w
    | .ok (.idx, _, .idx _) => .error .multipleIndex
    | .ok (.idx, _, _) => .error .panic
    | _ => .error .unsupportedExpr

/-- Resolve a path that starts with `@` or `$` inside a filter. -/
def filter_get_from_explicit_path (obj : JVal) (path : String) : Except Err JVal :=
  match tokenize path with
  | .error e => .error e
  | .ok [] => .error .panic
  | .ok (t0 :: steps) =>
    if t0 ≠ ['@'] ∧ t0 ≠ ['$'] then .error .frontOfPath
    else filter_pathLoop steps obj

/-- Value of the left operand. -/
def get_lp_v (obj root : JVal) (lp : String) : Except Err JVal :=
  if startsWith lp.data ['@', '.'] then filter_get_from_explicit_path obj lp
  else if startsWith lp.data ['$', '.'] then filter_get_from_explicit_path root lp
  else .ok (.str lp)

/-- Whether an operand counts as a number. -/
def isNumber (lib : GoLib) (o : JVal) : Bool :=
  match o with
  | .num _ => true
  | .str v => lib.parseFloatOk v
  | _ => false

/-- What `%v` prints for a value. -/
def sprintV (lib : GoLib) (o : JVal) : String :=
  match o with
  | .null => "<nil>"
  | .bool b => if b then "true" else "false"
  | .num n => toString n
  | .str s => s
  | v => lib.sprintComposite v

/-- Compare two operands by evaluating a Go expression built from them. -/
def cmp_any (lib : GoLib) (obj1 obj2 : JVal) (op : String) : Except Err Bool :=
  if op = "<" ∨ op = "<=" ∨ op = "==" ∨ op = ">=" ∨ op = ">" then
    let exp : String :=
      if isNumber lib obj1 && isNumber lib obj2 then
        sprintV lib obj1 ++ " " ++ op ++ " " ++ sprintV lib obj2
      else
        "\"" ++ sprintV lib obj1 ++ "\" " ++ op ++ " \"" ++ sprintV lib obj2 ++ "\""
    match lib.typesEval exp with
    | .failed => .error .evalFailed
    | .notValue => .error .evalNotBool
    | .value r =>
      if r ≠ "false" ∧ r ≠ "true" then .error .evalNotBool
      else if r = "true" then .ok true
      else .ok false
  else .error .opCmp

/-- Whether some element of `obj2` equals `obj1` under `==`; errors of the comparison
count as "not equal". -/
def containsEq (lib : GoLib) (obj1 : JVal) : List String → Bool
  | [] => false
  | v :: rest =>
    match cmp_any lib obj1 (.str v) "==" with
    | .ok true => true
    | _ => containsEq lib obj1 rest

/-- Membership test for `in` and `noin`. -/
def contain_any (lib : GoLib) (obj1 : JVal) (obj2 : List String) (op : String) :
    Except Err Bool :=
  if op = "in" then .ok (containsEq lib obj1 obj2)
  else if op = "noin" then .ok (!containsEq lib obj1 obj2)
  else .error .opInNoin

/-- Whether the pattern `\x7b.*\x7d` matches: an opening brace followed, before any
line break, by a closing brace. -/
def matchBraces : List Char → Bool
  | [] => false
  | c :: rest =>
    (c = Char.ofNat 123 && (rest.takeWhile (fun d => d ≠ Char.ofNat 10)).contains (Char.ofNat 125))
      || matchBraces rest

/-- Go's reading of an operand whose error is dropped: the value is `nil`. -/
def dropError (r : Except Err JVal) : Except Err JVal :=
  match r with
  | .ok v => .ok v
  | .error .panic => .error .panic
  | .error _ => .ok .null

/-- The loop of `eval_filter` over the members of a set: each is resolved and
asserted to be a string. -/
def resolveMembers (obj root : JVal) (rp : List Char) : List (List Char) → Except Err (List String)
  | [] => .ok []
  | v :: rest =>
    let tempv : Except Err JVal :=
      if startsWith rp ['@', '.'] then dropError (filter_get_from_explicit_path obj (String.mk v))
      else if startsWith rp ['$', '.'] then
        dropError (filter_get_from_explicit_path root (String.mk v))
      else .ok (.str (String.mk v))
    match tempv with
    | .ok (.str s) =>
      match resolveMembers obj root rp rest with
      | .error e => .error e
      | .ok ss => .ok (s :: ss)
    | _ => .error .panic

/-- Evaluate a parsed predicate on a candidate `obj`. -/
def eval_filter (lib : GoLib) (obj root : JVal) (lp op rp : String) : Except Err Bool :=
  match dropError (get_lp_v obj root lp) with
  | .error e => .error e
  | .ok lp_v =>
    if op = "exists" then .ok (decide (lp_v ≠ .null))
    else if op = "=~" then .error .notImplemented
    else if matchBraces rp.data then
      let rp1 := dropLastByte (dropFirstByte rp.data)
      match resolveMembers obj root rp1 (splitOnChar ',' rp1) with
      | .error e => .error e
      | .ok rp_vs => contain_any lib lp_v rp_vs op
    else
      let rp_v : Except Err JVal :=
        if startsWith rp.data ['@', '.'] then dropError (filter_get_from_explicit_path obj rp)
        else if startsWith rp.data ['$', '.'] then
          dropError (filter_get_from_explicit_path root rp)
        else .ok (.str rp)
      match rp_v with
      | .error e => .error e
      | .ok v => cmp_any lib lp_v v op

/-- Compile a `/pattern/` literal; the result is the pattern between the slashes. -/
def regFilterCompile (lib : GoLib) (rule : String) : Except Err String :=
  let runes := rule.data
  if runes.length ≤ 2 then .error .emptyRule
  else if runes.head? ≠ some '/' ∨ runes.getLast? ≠ some '/' then .error .regexShape
  else
    let pat := String.mk runes.tail.dropLast
    if lib.regexpCompiles pat then .ok pat else .error .regexCompile

/-- Match the left operand against a compiled pattern. -/
def eval_reg_filter (lib : GoLib) (obj root : JVal) (lp : String) (pat : String) :
    Except Err Bool :=
  match get_lp_v obj root lp with
  | .error e => .error e
  | .ok (.str v) => .ok (lib.regexpMatch pat v)
  | .ok _ => .error .regexOnNonString

/-- A loop that keeps the elements on which `test` gives `keep` and stops at the first
error. -/
def filterLoop (test : JVal → Except Err Bool) (keep : Bool) : List JVal → Except Err (List JVal)
  | [] => .ok []
  | tmp :: rest =>
    match test tmp with
    | .error e => .error e
    | .ok ok =>
      match filterLoop test keep rest with
      | .error e => .error e
      | .ok res => if ok = keep then .ok (tmp :: res) else .ok res

/-- Elements of a sequence (or the mapping itself) that satisfy the filter. -/
def get_filtered (lib : GoLib) (obj root : JVal) (filter : String) : Except Err JVal :=
  match parse_filter filter with
  | .error e => .error e
  | .ok (lp, op, rp) =>
    match obj with
    | .arr xs =>
      if op = "=~" then
        match regFilterCompile lib rp with
        | .error e => .error e
        | .ok pat =>
          match filterLoop (fun tmp => eval_reg_filter lib tmp root lp pat) true xs with
          | .error e => .error e
          | .ok res => .ok (.arr res)
      else
        match filterLoop (fun tmp => eval_filter lib tmp root lp op rp) true xs with
        | .error e => .error e
        | .ok res => .ok (.arr res)
    | .obj m =>
      if op = "=~" then
        match regFilterCompile lib rp with
        | .error e => .error e
        | .ok pat =>
          match filterLoop (fun tmp => eval_reg_filter lib tmp root lp pat) true
              (m.map Prod.snd) with
          | .error e => .error e
          | .ok res => .ok (.arr res)
      else
        match eval_filter lib obj root lp op rp with
        | .error e => .error e
        | .ok ok => if ok then .ok (.arr [obj]) else .ok (.arr [])
    | .null => .error .panic
    | _ => .error .filterType

/-- One step of `Lookup` applied to the current node. -/
def lookupStep (lib : GoLib) (root obj : JVal) (s : Step) : Except Err JVal :=
  match s.op with
  | .key => get_key obj s.key
  | .idx =>
    match (if byteLen s.key.data > 0 then get_key obj s.key else .ok obj) with
    | .error e => .error e
    | .ok obj1 =>
      match s.args with
      | .idx l =>
        if l.length > 1 then
          match get_idxList obj1 l with
          | .error e => .error e
          | .ok res => .ok (.arr res)
        else
          match l with
          | [x] => get_idx obj1 x
          | _ => .error .emptyIndex
      | _ => .error .panic
  | .range =>
    match (if byteLen s.key.data > 0 then get_key obj s.key else .ok obj) with
    | .error e => .error e
    | .ok obj1 =>
      match s.args with
      | .range frm tov => get_range obj1 frm tov
      | _ => .error .rangeArgs
  | .filter =>
    match get_key obj s.key with
    | .error e => .error e
    | .ok obj1 =>
      match s.args with
      | .filter f => get_filtered lib obj1 root f
      | _ => .error .panic
  | .scan => get_recursion obj s.key s.args
  | .root => .error .unsupportedExpr

/-- The loop of `Lookup` over the steps. -/
def lookupLoop (lib : GoLib) (root : JVal) : List Step → JVal → Except Err JVal
  | [], obj => .ok obj
  | s :: rest, obj =>
    match lookupStep lib root obj s with
    | .error e => .error e
    | .ok obj1 => lookupLoop lib root rest obj1

/-- Run a compiled path on a value. -/
def Compiled.Lookup (lib : GoLib) (c : Compiled) (obj : JVal) : Except Err JVal :=
  lookupLoop lib obj c.steps obj

/-- Compile a path and run it. -/
def JsonPathLookUp (lib : GoLib) (obj : JVal) (jpath : String) : Except Err JVal :=
  match Compile jpath with
  | .error e => .error e
  | .ok c => c.Lookup lib obj

/-! ## Mutation engine: the operations of the last step

`LookupAndOperate` walks the steps before the last one like `Lookup` and hands the node
it reached to one of the functions below, which change it in place. -/

/-- A masking function of the registry: it rewrites the mapping it is given and may
fail (the Go type `HandlerDesensitization`). -/
abbrev Handler := JMap → String → JMap × Option Err

/-- The global table `DesensitizationFuncs`, from rule name to masking function. -/
abbrev Registry := String → Option Handler

mutual
/-- Delete or mask the field `key` of a mapping, or of every element of a sequence.
The result is the new state of `obj` and the error, if any. -/
def operate_key (reg : Registry) (obj : JVal) (key : String) (mode : Mode)
    (opertFunc : String) : JVal × Option Err :=
  match obj with
  | .null => (obj, some .nullObject)
  | .obj m =>
    match lookupKey key m with
    | none => (obj, some (.keyNotFound key))
    | some _ =>
      match mode with
      | .desensitization =>
        match reg opertFunc with
        | some desensitFunc => (.obj (desensitFunc m key).1, (desensitFunc m key).2)
        | none => (obj, some (.funcNotFound opertFunc))
      | .fieldControl => (.obj (deleteKey key m), none)
      | .other => (obj, none)
  | .arr xs =>
    match mode with
    | .other => (obj, none)
    | _ => (.arr (operate_keyElems reg xs key mode opertFunc).1,
        (operate_keyElems reg xs key mode opertFunc).2)
  | _ => (obj, some .notMap)
/-- The loop of `operate_key` over the elements of a sequence; it stops at the first
error. -/
def operate_keyElems (reg : Registry) (xs : List JVal) (key : String) (mode : Mode)
    (opertFunc : String) : List JVal × Option Err :=
  match xs with
  | [] => ([], none)
  | tmp :: rest =>
    match (operate_key reg tmp key mode opertFunc).2 with
    | some e => ((operate_key reg tmp key mode opertFunc).1 :: rest, some e)
    | none =>
      ((operate_key reg tmp key mode opertFunc).1 ::
          (operate_keyElems reg rest key mode opertFunc).1,
        (operate_keyElems reg rest key mode opertFunc).2)
end

/-- The two inner loops of `operate_idx`: keep element `q` at position `w` unless some
`arg` of `argvs` equals `w`. -/
def keepNotListed (argvs : List Int) : Nat → List JVal → List JVal
  | _, [] => []
  | w, q :: rest =>
    if argvs.any (fun arg => arg = (w : Int)) then keepNotListed argvs (w + 1) rest
    else q :: keepNotListed argvs (w + 1) rest

/-- The loop `for k, v := range jsonMap` of `operate_idx`.  The `nil` slice that
`resultv` is when nothing is kept is the empty sequence. -/
def operate_idxEntries (key : String) (argvs : List Int) (mode : Mode) :
    JMap → JMap × Option Err
  | [] => ([], none)
  | (k, v) :: rest =>
    if k = key then
      match v with
      | .arr tempv =>
        ((k, if mode = .fieldControl then .arr (keepNotListed argvs 0 tempv) else v) ::
            (operate_idxEntries key argvs mode rest).1,
          (operate_idxEntries key argvs mode rest).2)
      | .null => ((k, v) :: rest, some .panic)
      | _ => ((k, v) :: rest, some (.keyNotSlice key))
    else ((k, v) :: (operate_idxEntries key argvs mode rest).1,
      (operate_idxEntries key argvs mode rest).2)

/-- Remove the listed positions from the sequence bound to `key`. -/
def operate_idx (obj : JVal) (key : String) (args : Args) (mode : Mode)
    (_opertFunc : String) : JVal × Option Err :=
  match args with
  | .idx argvs =>
    if byteLen key.data > 0 then
      match obj with
      | .obj jsonMap =>
        (.obj (operate_idxEntries key argvs mode jsonMap).1,
          (operate_idxEntries key argvs mode jsonMap).2)
      | .null => (obj, some .panic)
      | _ => (obj, some .notMap)
    else (obj, some .keyIsNil)
  | _ => (obj, some .panic)

/-- Result of `reflect.ValueOf(v).Len()`; `none` is the panic on a value without a
length. -/
def reflectLen : JVal → Option Int
  | .arr xs => some xs.length
  | .obj m => some m.length
  | .str s => some (byteLen s.data)
  | _ => none

/-- The list built by `for i := left; i <= right; i++`. -/
def indexRun (left right : Int) : List Int :=
  (List.range (right + 1 - left).toNat).map fun i => left + (i : Int)

/-- Expand a range to a list of positions and remove them. -/
def operate_range (obj : JVal) (key : String) (args : Args) (mode : Mode)
    (opertFunc : String) : JVal × Option Err :=
  match obj with
  | .null => (obj, some .panic)
  | .arr xs =>
    match args with
    | .range frm tov =>
      match transforRange xs.length frm tov with
      | .error e => (obj, some e)
      | .ok (left, right) => operate_idx obj key (.idx (indexRun left right)) mode opertFunc
    | _ => (obj, some .panic)
  | .obj tempMap =>
    match reflectLen ((lookupKey key tempMap).getD .null) with
    | none => (obj, some .panic)
    | some length =>
      match args with
      | .range frm tov =>
        match transforRange length frm tov with
        | .error e => (obj, some e)
        | .ok (left, right) => operate_idx obj key (.idx (indexRun left right)) mode opertFunc
      | _ => (obj, some .panic)
  | _ => (obj, some .notSliceOrMap)

/-- Remove from the sequence bound to `key` the elements that satisfy the filter (or
remove `key` when its value is a mapping that satisfies it). -/
def operate_filter (lib : GoLib) (obj root : JVal) (key filter : String) (mode : Mode)
    (_opertFunc : String) : JVal × Option Err :=
  match get_key obj key with
  | .error e => (obj, some e)
  | .ok opertObj =>
    match parse_filter filter with
    | .error e => (obj, some e)
    | .ok (lp, op, rp) =>
      match opertObj with
      | .arr xs =>
        match obj with
        | .obj obj2 =>
          match mode with
          | .fieldControl =>
            match filterLoop (fun tmp => eval_filter lib tmp root lp op rp) false xs with
            | .error e => (obj, some e)
            | .ok res => (.obj (setKey key (.arr res) obj2), none)
          | .desensitization => (obj, some .notDesensitization)
          | .other => (obj, none)
        | _ => (obj, some .panic)
      | .obj _ =>
        match obj with
        | .obj opertObj2 =>
          match eval_filter lib opertObj root lp op rp with
          | .error e => (obj, some e)
          | .ok ok =>
            if ok then
              match mode with
              | .fieldControl => (.obj (deleteKey key opertObj2), none)
              | .desensitization => (obj, some .notDesensitization)
              | .other => (obj, none)
            else (obj, none)
        | _ => (obj, some .panic)
      | .null => (obj, some .panic)
      | _ => (obj, some .filterType)

/-! ## Vocabulary of the statements -/

/-- One step of the position of a node in a tree: an entry name or an element
position. -/
inductive Seg where
  | key (k : String)
  | idx (i : Nat)
  deriving DecidableEq

mutual
/-- Every node of a tree with its position, in preorder: the node, then its children
from first to last. -/
def subvalues (p : List Seg) (v : JVal) : List (List Seg × JVal) :=
  match v with
  | .arr xs => (p, .arr xs) :: subvaluesElems p 0 xs
  | .obj m => (p, .obj m) :: subvaluesEntries p m
  | w => [(p, w)]
/-- Nodes below the elements of a sequence, the first element having position `i`. -/
def subvaluesElems (p : List Seg) (i : Nat) (xs : List JVal) : List (List Seg × JVal) :=
  match xs with
  | [] => []
  | x :: rest => subvalues (p ++ [.idx i]) x ++ subvaluesElems p (i + 1) rest
/-- Nodes below the entries of a mapping. -/
def subvaluesEntries (p : List Seg) (m : List (String × JVal)) : List (List Seg × JVal) :=
  match m with
  | [] => []
  | (k, x) :: rest => subvalues (p ++ [.key k]) x ++ subvaluesEntries p rest
end

/-- Whether a node is the value of a mapping entry named `k`. -/
def isBoundTo (k : String) (e : List Seg × JVal) : Bool :=
  decide (e.1.getLast? = some (Seg.key k))

/-- Whether a node is the value of an entry named `k` that does not lie inside the
value of another entry named `k`. -/
def isOutermost (k : String) (e : List Seg × JVal) : Bool :=
  decide (e.1.getLast? = some (Seg.key k) ∧ Seg.key k ∉ e.1.dropLast)

/-- Values of all mapping entries named `k`, at any depth, in preorder. -/
def boundTo (k : String) (t : JVal) : List JVal :=
  ((subvalues [] t).filter (isBoundTo k)).map Prod.snd

/-- Values of the mapping entries named `k` that do not lie inside the value of
another entry named `k`, in preorder. -/
def outermostBoundTo (k : String) (t : JVal) : List JVal :=
  ((subvalues [] t).filter (isOutermost k)).map Prod.snd

/-- The index a signed position denotes in a sequence of length `len`. -/
def resolveIdx (len : Nat) (i : Int) : Nat :=
  if 0 ≤ i then i.toNat else ((len : Int) + i).toNat

/-- Elements of a sequence whose position is not listed. -/
def removePositions (l : List Int) (s : List JVal) : List JVal :=
  (s.enum.filter fun e => decide ((e.1 : Int) ∉ l)).map Prod.snd

/-- A stand-in for `types.Eval` on comparisons of two decimal integers. -/
def sampleEval (e : String) : EvalRes :=
  match splitOnChar ' ' e.data with
  | [a, op, b] =>
    match atoi a, atoi b with
    | some x, some y =>
      if op = ['<'] then .value (if x < y then "true" else "false")
      else if op = ['<', '='] then .value (if x ≤ y then "true" else "false")
      else if op = ['=', '='] then .value (if x = y then "true" else "false")
      else if op = ['>', '='] then .value (if x ≥ y then "true" else "false")
      else if op = ['>'] then .value (if x > y then "true" else "false")
      else .failed
    | _, _ => .failed
  | _ => .failed

/-- A sample library for concrete runs: decimal integers are the numbers, and
expressions are evaluated by `sampleEval`. -/
def sampleLib : GoLib where
  parseFloatOk := fun s => (atoi s.data).isSome
  typesEval := sampleEval
  sprintComposite := fun _ => ""
  regexpCompiles := fun _ => false
  regexpMatch := fun _ _ => false

/-- A registry without any rule. -/
def emptyRegistry : Registry := fun _ => none

/-- The document of the bookshop example with three prices. -/
def bookDoc : JVal :=
  .obj [("store", .obj [("book", .arr [.obj [("price", .num 8)], .obj [("price", .num 12)],
    .obj [("price", .num 5)]])])]

/-! ## Masking rules -/

/-- A masking rule: the character written over the value, the first position and the
number of positions. -/
structure desensitization where
  displayChar : String
  start : Int
  size : Int

/-- The loop `for i := start; i < stop; i++ \x7b value[i] = c \x7d`. -/
def maskRunes (value : List Char) (c : Char) (start stop : Nat) : List Char :=
  (List.range (stop - start)).foldl (fun v j => v.set (start + j) c) value

/-- Overwrite the code points of the string bound to `key` in the window of the rule.
The type assertion `jsonMap[key].(string)` panics on a missing or non-string value; the
loop body would panic on a negative position or an empty `displayChar` (every rule of
the package starts at a positive position and displays `*`). -/
def handle_desensitization (jsonMap : JMap) (key : String) (rule : desensitization) :
    JMap × Option Err :=
  match lookupKey key jsonMap with
  | some (.str s) =>
    let value := s.data
    let valueLen : Int := value.length
    if rule.start > valueLen then (jsonMap, some .startPos)
    else
      let stop : Int := min (rule.start + rule.size) valueLen
      if rule.start < stop then
        match rule.displayChar.data with
        | c :: _ =>
          if rule.start < 0 then (jsonMap, some .panic)
          else
            (setKey key (.str (String.mk (maskRunes value c rule.start.toNat stop.toNat))) jsonMap,
              none)
        | [] => (jsonMap, some .panic)
      else (setKey key (.str (String.mk value)) jsonMap, none)
  | _ => (jsonMap, some .panic)

/-- The pattern of `carNumberDesensitization`. -/
def carNumberPattern : String :=
  "[京津沪渝冀豫云辽黑湘皖鲁新苏浙赣鄂桂甘晋蒙陕吉闽贵粤青藏川宁琼使领A-Z]\x7b1\x7d[A-Z]\x7b1\x7d" ++
    "[A-HJ-NP-Z0-9]\x7b4\x7d[A-HJ-NP-Z0-9挂学警港澳]\x7b1\x7d"

/-- Mask a car plate. -/
def carNumberDesensitization (lib : GoLib) (jsonMap : JMap) (key : String) :
    JMap × Option Err :=
  match lookupKey key jsonMap with
  | some (.str s) =>
    if lib.regexpMatch carNumberPattern s then handle_desensitization jsonMap key ⟨"*", 1, 3⟩
    else (jsonMap, some .carNumber)
  | _ => (jsonMap, some .panic)

/-- Mask a phone number; the rule depends on the length in bytes. -/
def phoneDesensitization (jsonMap : JMap) (key : String) : JMap × Option Err :=
  match lookupKey key jsonMap with
  | some (.str s) =>
    let phoneLen := byteLen s.data
    if phoneLen = 11 then handle_desensitization jsonMap key ⟨"*", 3, 4⟩
    else if phoneLen = 12 then handle_desensitization jsonMap key ⟨"*", 4, 4⟩
    else if phoneLen = 7 ∨ phoneLen = 6 then handle_desensitization jsonMap key ⟨"*", 1, 4⟩
    else if phoneLen ≤ 5 then (jsonMap, none)
    else (jsonMap, some .phoneNumber)
  | _ => (jsonMap, some .panic)

/-- Mask an identity-card number. -/
def idCardNumberDesensitization (jsonMap : JMap) (key : String) : JMap × Option Err :=
  match lookupKey key jsonMap with
  | some (.str s) =>
    let idCardLen := byteLen s.data
    if idCardLen = 18 then handle_desensitization jsonMap key ⟨"*", 6, 8⟩
    else if idCardLen = 8 ∨ idCardLen = 7 ∨ idCardLen = 10 then
      handle_desensitization jsonMap key ⟨"*", 1, 4⟩
    else handle_desensitization jsonMap key ⟨"*", 1, 4⟩
  | _ => (jsonMap, some .panic)

/-- Mask a name; the rule depends on the number of code points. -/
def nameDesensitization (jsonMap : JMap) (key : String) : JMap × Option Err :=
  match lookupKey key jsonMap with
  | some (.str s) =>
    let idCardLen : Int := s.data.length
    if idCardLen = 2 then handle_desensitization jsonMap key ⟨"*", 1, 1⟩
    else handle_desensitization jsonMap key ⟨"*", 1, idCardLen - 2⟩
  | _ => (jsonMap, some .panic)

/-- The four rule names, constants of the package `conf` that is not part of the
repository. -/
structure ConfNames where
  CarNumberDesensitization : String
  PhoneDesensitization : String
  IdCardNumberDesensitization : String
  NameDesensitization : String

/-- The table `DesensitizationFuncs` after `init`; a later assignment wins when two
names coincide. -/
def initRegistry (lib : GoLib) (conf : ConfNames) : Registry := fun name =>
  if name = conf.NameDesensitization then some nameDesensitization
  else if name = conf.IdCardNumberDesensitization then some idCardNumberDesensitization
  else if name = conf.PhoneDesensitization then some phoneDesensitization
  else if name = conf.CarNumberDesensitization then some (carNumberDesensitization lib)
  else none

/-! ## Recursive descent in the mutation engine

The package-level counter `curr` is an explicit argument and result.  A registered
masking function is taken to change nothing but the value bound to `key`, as the four
functions of the package do; the walk reads that value from its result. -/

/-- The largest `int`. -/
def INT_MAX : Int := 9223372036854775807

mutual
/-- Delete the entries named `key` whose occurrence number lies in `[left, right]`.
The result is the new state of `obj`, the counter and the panic, if any. -/
def recursion_del (obj : JVal) (key : String) (left right curr : Int) :
    JVal × Int × Option Err :=
  if curr > right then (obj, curr, none)
  else
    match obj with
    | .obj m =>
      (.obj (recursion_delEntries m key left right curr).1,
        (recursion_delEntries m key left right curr).2)
    | .arr xs =>
      (.arr (recursion_delElems xs key left right curr).1,
        (recursion_delElems xs key left right curr).2)
    | .null => (obj, curr, some .panic)
    | _ => (obj, curr, none)
/-- The loop `for k, v := range jsonMap` of `recursion_del`; the deleted entry is left
out of the result. -/
def recursion_delEntries (m : List (String × JVal)) (key : String) (left right curr : Int) :
    List (String × JVal) × Int × Option Err :=
  match m with
  | [] => ([], curr, none)
  | (k, v) :: rest =>
    if k = key then
      if curr < left then
        ((k, v) :: (recursion_delEntries rest key left right (curr + 1)).1,
          (recursion_delEntries rest key left right (curr + 1)).2)
      else if curr ≤ right then recursion_delEntries rest key left right (curr + 1)
      else ((k, v) :: rest, curr, none)
    else
      match (recursion_del v key left right curr).2.2 with
      | some e =>
        ((k, (recursion_del v key left right curr).1) :: rest,
          (recursion_del v key left right curr).2.1, some e)
      | none =>
        ((k, (recursion_del v key left right curr).1) ::
            (recursion_delEntries rest key left right
              (recursion_del v key left right curr).2.1).1,
          (recursion_delEntries rest key left right
            (recursion_del v key left right curr).2.1).2)
/-- The loop of `recursion_del` over the elements of a sequence. -/
def recursion_delElems (xs : List JVal) (key : String) (left right curr : Int) :
    List JVal × Int × Option Err :=
  match xs with
  | [] => ([], curr, none)
  | tmp :: rest =>
    match (recursion_del tmp key left right curr).2.2 with
    | some e =>
      ((recursion_del tmp key left right curr).1 :: rest,
        (recursion_del tmp key left right curr).2.1, some e)
    | none =>
      ((recursion_del tmp key left right curr).1 ::
          (recursion_delElems rest key left right
            (recursion_del tmp key left right curr).2.1).1,
        (recursion_delElems rest key left right (recursion_del tmp key left right curr).2.1).2)
end

mutual
/-- Mask the values bound to `key` whose occurrence number lies in `[left, right]`. -/
def recursion_desensitization (reg : Registry) (obj : JVal) (key : String)
    (left right : Int) (opertFunc : String) (curr : Int) : JVal × Int × Option Err :=
  if curr > right then (obj, curr, none)
  else
    match obj with
    | .obj m =>
      (.obj (recursion_desensitizationEntries reg [] m key left right opertFunc curr).1,
        (recursion_desensitizationEntries reg [] m key left right opertFunc curr).2)
    | .arr xs =>
      (.arr (recursion_desensitizationElems reg xs key left right opertFunc curr).1,
        (recursion_desensitizationElems reg xs key left right opertFunc curr).2)
    | .null => (obj, curr, some .panic)
    | _ => (obj, curr, none)
/-- The loop `for k, v := range jsonMap` of `recursion_desensitization`; `done` holds
the entries already visited, so that `done ++ m` is the mapping. -/
def recursion_desensitizationEntries (reg : Registry) (done : List (String × JVal))
    (m : List (String × JVal)) (key : String) (left right : Int) (opertFunc : String)
    (curr : Int) : List (String × JVal) × Int × Option Err :=
  match m with
  | [] => (done, curr, none)
  | (k, v) :: rest =>
    if k = key then
      if curr < left then
        recursion_desensitizationEntries reg (done ++ [(k, v)]) rest key left right opertFunc
          (curr + 1)
      else if curr ≤ right then
        match reg opertFunc with
        | some desensitFunc =>
          match (desensitFunc (done ++ (k, v) :: rest) key).2 with
          | some e => ((desensitFunc (done ++ (k, v) :: rest) key).1, curr + 1, some e)
          | none =>
            recursion_desensitizationEntries reg
              (done ++ [(k, (lookupKey key (desensitFunc (done ++ (k, v) :: rest) key).1).getD v)])
              rest key left right opertFunc (curr + 1)
        | none => (done ++ (k, v) :: rest, curr + 1, some (.funcNotFound opertFunc))
      else (done ++ (k, v) :: rest, curr, none)
    else
      match (recursion_desensitization reg v key left right opertFunc curr).2.2 with
      | some e =>
        (done ++ (k, (recursion_desensitization reg v key left right opertFunc curr).1) :: rest,
          (recursion_desensitization reg v key left right opertFunc curr).2.1, some e)
      | none =>
        recursion_desensitizationEntries reg
          (done ++ [(k, (recursion_desensitization reg v key left right opertFunc curr).1)])
          rest key left right opertFunc
          (recursion_desensitization reg v key left right opertFunc curr).2.1
/-- The loop of `recursion_desensitization` over the elements of a sequence. -/
def recursion_desensitizationElems (reg : Registry) (xs : List JVal) (key : String)
    (left right : Int) (opertFunc : String) (curr : Int) : List JVal × Int × Option Err :=
  match xs with
  | [] => ([], curr, none)
  | tmp :: rest =>
    match (recursion_desensitization reg tmp key left right opertFunc curr).2.2 with
    | some e =>
      ((recursion_desensitization reg tmp key left right opertFunc curr).1 :: rest,
        (recursion_desensitization reg tmp key left right opertFunc curr).2.1, some e)
    | none =>
      ((recursion_desensitization reg tmp key left right opertFunc curr).1 ::
          (recursion_desensitizationElems reg rest key left right opertFunc
            (recursion_desensitization reg tmp key left right opertFunc curr).2.1).1,
        (recursion_desensitizationElems reg rest key left right opertFunc
          (recursion_desensitization reg tmp key left right opertFunc curr).2.1).2)
end

/-- One call of the walk chosen by `mode`; any other mode does nothing. -/
def recursionCall (reg : Registry) (obj : JVal) (key : String) (left right : Int)
    (mode : Mode) (opertFunc : String) (curr : Int) : JVal × Int × Option Err :=
  match mode with
  | .desensitization => recursion_desensitization reg obj key left right opertFunc curr
  | .fieldControl => recursion_del obj key left right curr
  | .other => (obj, curr, none)

/-- The loop of `operateRecursion` over the positions of an index list, for a walk
`call` of the current object with arguments `left`, `right` and the counter: the counter
is not reset between two positions, an error of a call is overwritten by the next call
and a panic ends the loop. -/
def operateRecursionList (call : JVal → Int → Int → Int → JVal × Int × Option Err) :
    List Int → JVal → Int → Option Err → JVal × Int × Option Err
  | [], st, curr, err => (st, curr, err)
  | v :: rest, st, curr, _ =>
    match (call st v v curr).2.2 with
    | some .panic => ((call st v v curr).1, (call st v v curr).2.1, some .panic)
    | e => operateRecursionList call rest (call st v v curr).1 (call st v v curr).2.1 e

/-- The body of `operateRecursion` after the test for a `nil` object: the selector of
the step decides the calls of the walk. -/
def operateRecursionArgs (call : JVal → Int → Int → Int → JVal × Int × Option Err)
    (args : Args) (st : JVal) (curr : Int) : JVal × Int × Option Err :=
  match args with
  | .range (some frm) (some tov) => call st frm tov curr
  | .range _ _ => (st, curr, some .panic)
  | .idx tempargsv => operateRecursionList call tempargsv st curr none
  | .filter _ => (st, curr, some .rangeArgs21)
  | .none => call st 0 INT_MAX curr

/-- The last-step operation of a scan: delete or mask the occurrences selected by
`args`, all of them when there is no selector. -/
def operateRecursion (reg : Registry) (obj : JVal) (key : String) (args : Args) (mode : Mode)
    (opertFunc : String) (curr : Int) : JVal × Int × Option Err :=
  match obj with
  | .null => (obj, curr, some .nullObject)
  | _ =>
    operateRecursionArgs
      (fun o left right c => recursionCall reg o key left right mode opertFunc c) args obj curr

/-! ## `LookupAndOperate`

The steps before the last one select nodes of the document without copying its
mappings, and the last step changes those mappings in place.  A `View` records where
each selected node lies in the document: `node p v` is the node at position `p` (with
value `v` when it was selected) and `fresh xs` is a slice built by a step.  The
operations of the last step read the current state of a node at its position and write
the new state back, so that a mapping selected twice is changed once. -/

/-- What the steps before the last one have selected. -/
inductive View where
  | node (p : List Seg) (v : JVal)
  | fresh (xs : List View)

mutual
/-- The JSON value a view stands for. -/
def View.value : View → JVal
  | .node _ v => v
  | .fresh xs => .arr (View.values xs)
/-- Values of a list of views. -/
def View.values : List View → List JVal
  | [] => []
  | x :: rest => x.value :: View.values rest
end

/-- The elements of the sequence at position `p`, the first one having index `i`. -/
def elemViews (p : List Seg) : Nat → List JVal → List View
  | _, [] => []
  | i, x :: rest => .node (p ++ [Seg.idx i]) x :: elemViews p (i + 1) rest

/-- The elements of a view of kind slice, with the errors of `get_idx` and `get_range`
on another kind. -/
def View.elems : View → Except Err (List View)
  | .node p (.arr xs) => .ok (elemViews p 0 xs)
  | .node _ .null => .error .panic
  | .node _ _ => .error .notSlice
  | .fresh xs => .ok xs

/-- The node at a position of the document. -/
def getAt : List Seg → JVal → Option JVal
  | [], v => some v
  | .key k :: rest, .obj m =>
    match lookupKey k m with
    | some w => getAt rest w
    | none => none
  | .idx i :: rest, .arr xs =>
    match xs[i]? with
    | some w => getAt rest w
    | none => none
  | _ :: _, _ => none

/-- Change the value of the entry `k` of a mapping. -/
def modifyEntry (k : String) (f : JVal → JVal) : JMap → JMap
  | [] => []
  | (k2, v) :: rest => if k2 = k then (k2, f v) :: rest else (k2, v) :: modifyEntry k f rest

/-- Change the element `i` of a sequence. -/
def modifyElem (f : JVal → JVal) : Nat → List JVal → List JVal
  | _, [] => []
  | 0, x :: rest => f x :: rest
  | i + 1, x :: rest => x :: modifyElem f i rest

/-- The document with the node at a position replaced. -/
def setAt : List Seg → JVal → JVal → JVal
  | [], new, _ => new
  | .key k :: rest, new, .obj m => .obj (modifyEntry k (setAt rest new) m)
  | .idx i :: rest, new, .arr xs => .arr (modifyElem (setAt rest new) i xs)
  | _ :: _, _, root => root

mutual
/-- `get_key` on the node at position `p`. -/
def get_keyAt (p : List Seg) (obj : JVal) (key : String) : Except Err View :=
  match obj with
  | .null => .error .nullObject
  | .obj m =>
    match lookupKey key m with
    | some val => .ok (.node (p ++ [Seg.key key]) val)
    | none => .error (.keyNotFound key)
  | .arr xs => .ok (.fresh (get_keyAtElems p 0 xs key))
  | _ => .error .notMapOrSlice
/-- The loop of `get_key` over the elements of the sequence at position `p`. -/
def get_keyAtElems (p : List Seg) (i : Nat) (xs : List JVal) (key : String) : List View :=
  match xs with
  | [] => []
  | tmp :: rest =>
    match get_keyAt (p ++ [Seg.idx i]) tmp key with
    | .ok v => v :: get_keyAtElems p (i + 1) rest key
    | .error _ => get_keyAtElems p (i + 1) rest key
end

mutual
/-- `get_key` on a view. -/
def get_keyView (obj : View) (key : String) : Except Err View :=
  match obj with
  | .node p v => get_keyAt p v key
  | .fresh xs => .ok (.fresh (get_keyViews xs key))
/-- The loop of `get_key` over the elements of a fresh slice. -/
def get_keyViews (xs : List View) (key : String) : List View :=
  match xs with
  | [] => []
  | tmp :: rest =>
    match get_keyView tmp key with
    | .ok v => v :: get_keyViews rest key
    | .error _ => get_keyViews rest key
end

/-- `get_idx` on a view. -/
def get_idxView (obj : View) (idx : Int) : Except Err View :=
  match obj.elems with
  | .error e => .error e
  | .ok xs =>
    let length : Int := xs.length
    if idx ≥ 0 then
      if idx ≥ length then .error (.indexOutOfRange length idx)
      else
        match xs[idx.toNat]? with
        | some v => .ok v
        | none => .error .panic
    else
      let _idx := length + idx
      if _idx < 0 then .error (.indexOutOfRange length idx)
      else
        match xs[_idx.toNat]? with
        | some v => .ok v
        | none => .error .panic

/-- The loop that applies `get_idx` to every index of a list, on a view. -/
def get_idxListView (obj : View) : List Int → Except Err (List View)
  | [] => .ok []
  | x :: rest =>
    match get_idxView obj x with
    | .error e => .error e
    | .ok tmp =>
      match get_idxListView obj rest with
      | .error e => .error e
      | .ok res => .ok (tmp :: res)

/-- `get_range` on a view. -/
def get_rangeView (obj : View) (frm tov : Option Int) : Except Err View :=
  match obj.elems with
  | .error e => .error e
  | .ok xs =>
    match transforRange xs.length frm tov with
    | .error e => .error e
    | .ok (_frm, _to) =>
      if _to < _frm then .error .panic
      else .ok (.fresh ((xs.drop _frm.toNat).take (_to.toNat - _frm.toNat)))

/-- The filtering loop on views: an element is tested through its value. -/
def filterLoopView (test : JVal → Except Err Bool) : List View → Except Err (List View)
  | [] => .ok []
  | tmp :: rest =>
    match test tmp.value with
    | .error e => .error e
    | .ok ok =>
      match filterLoopView test rest with
      | .error e => .error e
      | .ok res => if ok = true then .ok (tmp :: res) else .ok res

/-- The values of the entries of the mapping at position `p`. -/
def entryViews (p : List Seg) (m : JMap) : List View :=
  m.map fun e => View.node (p ++ [Seg.key e.1]) e.2

/-- `get_filtered` on a view. -/
def get_filteredView (lib : GoLib) (obj : View) (root : JVal) (filter : String) :
    Except Err View :=
  match parse_filter filter with
  | .error e => .error e
  | .ok (lp, op, rp) =>
    match obj with
    | .node p (.obj m) =>
      if op = "=~" then
        match regFilterCompile lib rp with
        | .error e => .error e
        | .ok pat =>
          match filterLoopView (fun tmp => eval_reg_filter lib tmp root lp pat)
              (entryViews p m) with
          | .error e => .error e
          | .ok res => .ok (.fresh res)
      else
        match eval_filter lib (.obj m) root lp op rp with
        | .error e => .error e
        | .ok ok => if ok then .ok (.fresh [obj]) else .ok (.fresh [])
    | .node _ .null => .error .panic
    | .node _ (.bool _) => .error .filterType
    | .node _ (.num _) => .error .filterType
    | .node _ (.str _) => .error .filterType
    | slice =>
      match slice.elems with
      | .error e => .error e
      | .ok xs =>
        if op = "=~" then
          match regFilterCompile lib rp with
          | .error e => .error e
          | .ok pat =>
            match filterLoopView (fun tmp => eval_reg_filter lib tmp root lp pat) xs with
            | .error e => .error e
            | .ok res => .ok (.fresh res)
        else
          match filterLoopView (fun tmp => eval_filter lib tmp root lp op rp) xs with
          | .error e => .error e
          | .ok res => .ok (.fresh res)

mutual
/-- `recursion_search` on the node at position `p`. -/
def recursion_searchAt (p : List Seg) (obj : JVal) (key : String) (res : List View) :
    Except Err (List View) :=
  match obj with
  | .obj m => recursion_searchAtEntries p m key res
  | .arr xs => recursion_searchAtElems p 0 xs key res
  | .null => .error .panic
  | _ => .ok res
/-- The loop of `recursion_search` over the entries of the mapping at position `p`. -/
def recursion_searchAtEntries (p : List Seg) (m : List (String × JVal)) (key : String)
    (res : List View) : Except Err (List View) :=
  match m with
  | [] => .ok res
  | (k, v) :: rest =>
    if k = key then recursion_searchAtEntries p rest key (res ++ [.node (p ++ [Seg.key k]) v])
    else
      match recursion_searchAt (p ++ [Seg.key k]) v key res with
      | .error e => .error e
      | .ok res1 => recursion_searchAtEntries p rest key res1
/-- The loop of `recursion_search` over the elements of the sequence at position `p`. -/
def recursion_searchAtElems (p : List Seg) (i : Nat) (xs : List JVal) (key : String)
    (res : List View) : Except Err (List View) :=
  match xs with
  | [] => .ok res
  | tmp :: rest =>
    match recursion_searchAt (p ++ [Seg.idx i]) tmp key res with
    | .error e => .error e
    | .ok res1 => recursion_searchAtElems p (i + 1) rest key res1
end

mutual
/-- `recursion_search` on a view. -/
def recursion_searchView (obj : View) (key : String) (res : List View) :
    Except Err (List View) :=
  match obj with
  | .node p v => recursion_searchAt p v key res
  | .fresh xs => recursion_searchViews xs key res
/-- The loop of `recursion_search` over the elements of a fresh slice. -/
def recursion_searchViews (xs : List View) (key : String) (res : List View) :
    Except Err (List View) :=
  match xs with
  | [] => .ok res
  | tmp :: rest =>
    match recursion_searchView tmp key res with
    | .error e => .error e
    | .ok res1 => recursion_searchViews rest key res1
end

/-- `get_recursion` on a view. -/
def get_recursionView (obj : View) (key : String) (args : Args) : Except Err View :=
  match obj with
  | .node _ .null => .error .nullObject
  | _ =>
    match recursion_searchView obj key [] with
    | .error e => .error e
    | .ok result =>
      match args with
      | .none => .ok (.fresh result)
      | .range frm tov => get_rangeView (.fresh result) frm tov
      | .idx l =>
        match get_idxListView (.fresh result) l with
        | .error e => .error e
        | .ok res => .ok (.fresh res)
      | .filter _ => .error .rangeArgs21

/-- A step of `LookupAndOperate` that is not the last one: the same selection as in
`Lookup`, on views. -/
def selectStep (lib : GoLib) (root : JVal) (temp : View) (s : Step) : Except Err View :=
  match s.op with
  | .key => get_keyView temp s.key
  | .idx =>
    match (if byteLen s.key.data > 0 then get_keyView temp s.key else .ok temp) with
    | .error e => .error e
    | .ok temp1 =>
      match s.args with
      | .idx l =>
        if l.length > 1 then
          match get_idxListView temp1 l with
          | .error e => .error e
          | .ok res => .ok (.fresh res)
        else
          match l with
          | [x] => get_idxView temp1 x
          | _ => .error .emptyIndex
      | _ => .error .panic
  | .range =>
    match (if byteLen s.key.data > 0 then get_keyView temp s.key else .ok temp) with
    | .error e => .error e
    | .ok temp1 =>
      match s.args with
      | .range frm tov => get_rangeView temp1 frm tov
      | _ => .error .rangeArgs
  | .filter =>
    match get_keyView temp s.key with
    | .error e => .error e
    | .ok temp1 =>
      match s.args with
      | .filter f => get_filteredView lib temp1 root f
      | _ => .error .panic
  | .scan => get_recursionView temp s.key s.args
  | .root => .error .unsupportedExpr

/-- Run an in-place operation on what a view stands for.  On a node the operation reads
the current state at the position and its result is written back; a fresh slice is not
part of the document, and the operations used with this function change no element of a
slice. -/
def operateOn (op : JVal → JVal × Option Err) (root : JVal) (temp : View) :
    JVal × Option Err :=
  match temp with
  | .node p v => (setAt p (op ((getAt p root).getD v)).1 root, (op ((getAt p root).getD v)).2)
  | .fresh xs => (root, (op (.arr (View.values xs))).2)

mutual
/-- `operate_key` on a view: the elements of a fresh slice are handled one after the
other, each in the state the earlier ones left. -/
def operate_keyView (reg : Registry) (root : JVal) (temp : View) (key : String)
    (mode : Mode) (opertFunc : String) : JVal × Option Err :=
  match temp with
  | .node p v => operateOn (fun cur => operate_key reg cur key mode opertFunc) root (.node p v)
  | .fresh xs =>
    match mode with
    | .other => (root, none)
    | _ => operate_keyViews reg root xs key mode opertFunc
/-- The loop of `operate_key` over the elements of a fresh slice. -/
def operate_keyViews (reg : Registry) (root : JVal) (xs : List View) (key : String)
    (mode : Mode) (opertFunc : String) : JVal × Option Err :=
  match xs with
  | [] => (root, none)
  | tmp :: rest =>
    match (operate_keyView reg root tmp key mode opertFunc).2 with
    | some e => ((operate_keyView reg root tmp key mode opertFunc).1, some e)
    | none =>
      operate_keyViews reg (operate_keyView reg root tmp key mode opertFunc).1 rest key mode
        opertFunc
end

mutual
/-- One walk of `operateRecursion` on a view; the state is the document. -/
def recursionCallView (reg : Registry) (temp : View) (key : String) (mode : Mode)
    (opertFunc : String) (root : JVal) (left right curr : Int) : JVal × Int × Option Err :=
  match temp with
  | .node p v =>
    (setAt p (recursionCall reg ((getAt p root).getD v) key left right mode opertFunc curr).1
        root,
      (recursionCall reg ((getAt p root).getD v) key left right mode opertFunc curr).2)
  | .fresh xs =>
    match mode with
    | .other => (root, curr, none)
    | _ =>
      if curr > right then (root, curr, none)
      else recursionCallViews reg xs key mode opertFunc root left right curr
/-- The loop of the walk over the elements of a fresh slice. -/
def recursionCallViews (reg : Registry) (xs : List View) (key : String) (mode : Mode)
    (opertFunc : String) (root : JVal) (left right curr : Int) : JVal × Int × Option Err :=
  match xs with
  | [] => (root, curr, none)
  | tmp :: rest =>
    match (recursionCallView reg tmp key mode opertFunc root left right curr).2.2 with
    | some e =>
      ((recursionCallView reg tmp key mode opertFunc root left right curr).1,
        (recursionCallView reg tmp key mode opertFunc root left right curr).2.1, some e)
    | none =>
      recursionCallViews reg rest key mode opertFunc
        (recursionCallView reg tmp key mode opertFunc root left right curr).1 left right
        (recursionCallView reg tmp key mode opertFunc root left right curr).2.1
end

/-- `operateRecursion` on a view. -/
def operateRecursionView (reg : Registry) (root : JVal) (temp : View) (key : String)
    (args : Args) (mode : Mode) (opertFunc : String) (curr : Int) : JVal × Int × Option Err :=
  match temp with
  | .node _ .null => (root, curr, some .nullObject)
  | _ => operateRecursionArgs (recursionCallView reg temp key mode opertFunc) args root curr

/-- The last step of `LookupAndOperate`; the counter `curr` is set to 0 before a
scan. -/
def operateStep (lib : GoLib) (reg : Registry) (root : JVal) (temp : View) (s : Step)
    (mode : Mode) (opertFunc : String) : JVal × Option Err :=
  match s.op with
  | .key => operate_keyView reg root temp s.key mode opertFunc
  | .idx => operateOn (fun cur => operate_idx cur s.key s.args mode opertFunc) root temp
  | .range => operateOn (fun cur => operate_range cur s.key s.args mode opertFunc) root temp
  | .filter =>
    match s.args with
    | .filter f =>
      operateOn (fun cur => operate_filter lib cur root s.key f mode opertFunc) root temp
    | _ => (root, some .panic)
  | .scan =>
    ((operateRecursionView reg root temp s.key s.args mode opertFunc 0).1,
      (operateRecursionView reg root temp s.key s.args mode opertFunc 0).2.2)
  | .root => (root, some .unsupportedExpr)

/-- The loop of `LookupAndOperate` over the steps. -/
def lookupAndOperateLoop (lib : GoLib) (reg : Registry) (mode : Mode) (opertFunc : String)
    (root : JVal) : List Step → View → JVal × Option Err
  | [], _ => (root, none)
  | [s], temp => operateStep lib reg root temp s mode opertFunc
  | s :: s2 :: rest, temp =>
    match selectStep lib root temp s with
    | .error e => (root, some e)
    | .ok temp1 => lookupAndOperateLoop lib reg mode opertFunc root (s2 :: rest) temp1

/-- Run a compiled path and delete or mask what its last step selects.  The result is
the state of `obj` after the call and the error; Go returns `obj` when there is no
error. -/
def Compiled.LookupAndOperate (lib : GoLib) (reg : Registry) (c : Compiled) (obj : JVal)
    (mode : Mode) (opertFunc : String) : JVal × Option Err :=
  lookupAndOperateLoop lib reg mode opertFunc obj c.steps (.node [] obj)

/-- Compile a path and delete what it selects. -/
def JsonPathLookUpAndDel (lib : GoLib) (reg : Registry) (obj : JVal) (jpath : String) :
    JVal × Option Err :=
  match Compile jpath with
  | .error e => (obj, some e)
  | .ok c => c.LookupAndOperate lib reg obj .fieldControl ""

/-- Compile a path and mask what it selects with the rule `opertFunc`. -/
def JsonPathLookUpAndDesensitization (lib : GoLib) (reg : Registry) (obj : JVal)
    (jpath : String) (opertFunc : String) : JVal × Option Err :=
  match Compile jpath with
  | .error e => (obj, some e)
  | .ok c => c.LookupAndOperate lib reg obj .desensitization opertFunc

/-! ## Vocabulary of the statements about the mutation engine -/

/-- The characters of `cs`, the first having position `i`, with `*` at the positions of
the window `[start, start + size)`. -/
def maskFrom (start size : Nat) : Nat → List Char → List Char
  | _, [] => []
  | i, c :: cs =>
    (if start ≤ i ∧ i < start + size then '*' else c) :: maskFrom start size (i + 1) cs

/-- A string with `*` written over the positions `start, …, start + size - 1` (as far
as they exist); every other position keeps its character. -/
def maskWindow (start size : Nat) (cs : List Char) : List Char :=
  maskFrom start size 0 cs

/-- A registry and rule names for concrete runs: the rules are named `car`, `phone`,
`idcard` and `name`. -/
def sampleRegistry : Registry :=
  initRegistry sampleLib ⟨"car", "phone", "idcard", "name"⟩

mutual
/-- Whether every mapping of a tree has pairwise different keys, as every Go map has. -/
def uniqueKeys : JVal → Bool
  | .arr xs => uniqueKeysElems xs
  | .obj m => decide ((m.map Prod.fst).Nodup) && uniqueKeysEntries m
  | _ => true
/-- `uniqueKeys` for the elements of a sequence. -/
def uniqueKeysElems : List JVal → Bool
  | [] => true
  | x :: rest => uniqueKeys x && uniqueKeysElems rest
/-- `uniqueKeys` for the values of the entries of a mapping. -/
def uniqueKeysEntries : List (String × JVal) → Bool
  | [] => true
  | (_, x) :: rest => uniqueKeys x && uniqueKeysEntries rest
end

mutual
/-- A tree without its entries named `k`, at every depth. -/
def stripKey (k : String) : JVal → JVal
  | .arr xs => .arr (stripKeyElems k xs)
  | .obj m => .obj (stripKeyEntries k m)
  | v => v
/-- `stripKey` for the elements of a sequence. -/
def stripKeyElems (k : String) : List JVal → List JVal
  | [] => []
  | x :: rest => stripKey k x :: stripKeyElems k rest
/-- `stripKey` for the entries of a mapping. -/
def stripKeyEntries (k : String) : List (String × JVal) → List (String × JVal)
  | [] => []
  | (k2, x) :: rest =>
    if k2 = k then stripKeyEntries k rest else (k2, stripKey k x) :: stripKeyEntries k rest
end

/-- The occurrences of `k` below the node at position `p`: position and value of every
entry named `k` that does not lie inside the value of another entry named `k`, in
preorder. -/
def occ (k : String) (p : List Seg) (v : JVal) : List (List Seg × JVal) :=
  (subvalues p v).filter (isOutermost k)

/-- The occurrences of `k` below the elements of a sequence. -/
def occElems (k : String) (p : List Seg) (i : Nat) (xs : List JVal) : List (List Seg × JVal) :=
  (subvaluesElems p i xs).filter (isOutermost k)

/-- The occurrences of `k` below the entries of a mapping. -/
def occEntries (k : String) (p : List Seg) (m : List (String × JVal)) :
    List (List Seg × JVal) :=
  (subvaluesEntries p m).filter (isOutermost k)

/-- The occurrences of `k` in a tree, numbered from 0 in this order. -/
def outermostEntries (k : String) (t : JVal) : List (List Seg × JVal) :=
  occ k [] t

/-- A list of occurrences, the first having number `c`, after the occurrences whose
number lies in `[left, right]` were rewritten by `f`: removed when `f` gives `none`,
given the value `w` when `f` gives `some w`.  The other occurrences are kept. -/
def rewriteFrom (f : JVal → Option JVal) (left right : Int) :
    Int → List (List Seg × JVal) → List (List Seg × JVal)
  | _, [] => []
  | c, e :: rest =>
    (if left ≤ c ∧ c ≤ right then
      match f e.2 with
      | none => []
      | some w => [(e.1, w)]
    else [e]) ++ rewriteFrom f left right (c + 1) rest

/-- The numbers, among `0, …, total - 1`, that lie in the window `[max i 0, j]`. -/
def windowPositions (i j : Int) (total : Nat) : List Nat :=
  (List.range total).filter fun c => decide (max i 0 ≤ (c : Int) ∧ (c : Int) ≤ j)

/-- The number `min (j, total - 1) - max (i, 0) + 1` when it is not negative, else 0. -/
def windowCount (i j : Int) (total : Nat) : Int :=
  if 0 ≤ min j ((total : Int) - 1) - max i 0 + 1 then min j ((total : Int) - 1) - max i 0 + 1
  else 0

/-- A masking function that changes nothing but the value bound to `key` and whose
outcome depends on that value only: `g` gives the new value or the error. -/
def ValueRule (f : Handler) (g : JVal → Except Err JVal) : Prop :=
  ∀ (jsonMap : JMap) (key : String) (v : JVal), lookupKey key jsonMap = some v →
    f jsonMap key =
      match g v with
      | .ok w => (setKey key w jsonMap, none)
      | .error e => (jsonMap, some e)

/-- What `nameDesensitization` does to the value bound to the key. -/
def nameValue (v : JVal) : Except Err JVal :=
  match v with
  | .str s =>
    if s.data.length = 0 then .error .startPos
    else if s.data.length = 2 then .ok (.str ⟨maskWindow 1 1 s.data⟩)
    else .ok (.str ⟨maskWindow 1 (s.data.length - 2) s.data⟩)
  | _ => .error .panic

/-- What the walk does at an occurrence in the window: `none` removes the entry,
`some w` gives it the value `w`, an error ends the walk. -/
abbrev Hit := JVal → Except Err (Option JVal)

/-- The hit of delete mode. -/
def deleteHit : Hit := fun _ => .ok none

/-- The hit of redact mode for a rule that acts on the value by `g`. -/
def ruleHit (g : JVal → Except Err JVal) : Hit := fun v =>
  match g v with
  | .ok w => .ok (some w)
  | .error e => .error e

/-- The rewriting a hit stands for, where it succeeds. -/
def hitResult (hit : Hit) (v : JVal) : Option JVal :=
  match hit v with
  | .ok o => o
  | .error _ => some v

/-- Whether the hit succeeds on the occurrences whose number lies in the window, the
first occurrence of the list having number `c`. -/
def HitsOk (hit : Hit) (left right : Int) : Int → List (List Seg × JVal) → Prop
  | _, [] => True
  | c, e :: rest =>
    ((left ≤ c ∧ c ≤ right) → ∃ o, hit e.2 = .ok o) ∧ HitsOk hit left right (c + 1) rest

mutual
/-- The common shape of `recursion_del` and `recursion_desensitization`: a walk with the
counter `curr` that applies `hit` to the occurrences numbered in `[left, right]`. -/
def windowWalk (hit : Hit) (obj : JVal) (key : String) (left right curr : Int) :
    JVal × Int × Option Err :=
  if curr > right then (obj, curr, none)
  else
    match obj with
    | .obj m =>
      (.obj (windowWalkEntries hit m key left right curr).1,
        (windowWalkEntries hit m key left right curr).2)
    | .arr xs =>
      (.arr (windowWalkElems hit xs key left right curr).1,
        (windowWalkElems hit xs key left right curr).2)
    | .null => (obj, curr, some .panic)
    | _ => (obj, curr, none)
/-- The walk over the entries of a mapping. -/
def windowWalkEntries (hit : Hit) (m : List (String × JVal)) (key : String)
    (left right curr : Int) : List (String × JVal) × Int × Option Err :=
  match m with
  | [] => ([], curr, none)
  | (k, v) :: rest =>
    if k = key then
      if curr < left then
        ((k, v) :: (windowWalkEntries hit rest key left right (curr + 1)).1,
          (windowWalkEntries hit rest key left right (curr + 1)).2)
      else if curr ≤ right then
        match hit v with
        | .error e => ((k, v) :: rest, curr + 1, some e)
        | .ok none => windowWalkEntries hit rest key left right (curr + 1)
        | .ok (some w) =>
          ((k, w) :: (windowWalkEntries hit rest key left right (curr + 1)).1,
            (windowWalkEntries hit rest key left right (curr + 1)).2)
      else ((k, v) :: rest, curr, none)
    else
      match (windowWalk hit v key left right curr).2.2 with
      | some e =>
        ((k, (windowWalk hit v key left right curr).1) :: rest,
          (windowWalk hit v key left right curr).2.1, some e)
      | none =>
        ((k, (windowWalk hit v key left right curr).1) ::
            (windowWalkEntries hit rest key left right
              (windowWalk hit v key left right curr).2.1).1,
          (windowWalkEntries hit rest key left right (windowWalk hit v key left right curr).2.1).2)
/-- The walk over the elements of a sequence. -/
def windowWalkElems (hit : Hit) (xs : List JVal) (key : String) (left right curr : Int) :
    List JVal × Int × Option Err :=
  match xs with
  | [] => ([], curr, none)
  | tmp :: rest =>
    match (windowWalk hit tmp key left right curr).2.2 with
    | some e =>
      ((windowWalk hit tmp key left right curr).1 :: rest,
        (windowWalk hit tmp key left right curr).2.1, some e)
    | none =>
      ((windowWalk hit tmp key left right curr).1 ::
          (windowWalkElems hit rest key left right (windowWalk hit tmp key left right curr).2.1).1,
        (windowWalkElems hit rest key left right (windowWalk hit tmp key left right curr).2.1).2)
end

/-- The counter `c2` after a walk that started at `c` and passed `n` occurrences: it
has counted them all, or it stopped counting beyond `right`. -/
def CounterAfter (right c : Int) (n : Nat) (c2 : Int) : Prop :=
  c2 = c + n ∨ (c2 > right ∧ c + n > right)

/-- The occurrences after a step on the window `[i, j]`, from the occurrences before
it, the first of which has position `c`: the occurrence at a position `c` with
`max i 0 ≤ c ≤ j` is removed when `f` gives `none` for its value and gets the value `w`
when `f` gives `some w`; every other occurrence stays. -/
def rewriteAt (f : JVal → Option JVal) (i j : Int) :
    Nat → List (List Seg × JVal) → List (List Seg × JVal)
  | _, [] => []
  | c, e :: rest =>
    (if max i 0 ≤ (c : Int) ∧ (c : Int) ≤ j then
      match f e.2 with
      | none => []
      | some w => [(e.1, w)]
    else [e]) ++ rewriteAt f i j (c + 1) rest


/-- A document with four names for concrete runs of a scan. -/
def scanDoc : JVal :=
  .arr [.obj [("name", .str "张三丰")],
    .obj [("name", .str "李四"), ("x", .obj [("name", .str "王五六七")])],
    .obj [("name", .str "")]]

/-- The compiled path `$..name[1:2]`. -/
def scanProgram : Compiled :=
  ⟨"$..name[1:2]", [⟨.scan, "name", .range (some 1) (some 2)⟩]⟩

/-! ## Vocabulary of the statements about paths -/

/-- Decimal rendering of an integer, as `strconv.Itoa` writes it. -/
def renderInt (a : Int) : List Char :=
  if a < 0 then '-' :: Nat.toDigits 10 a.natAbs else Nat.toDigits 10 a.toNat

/-- A bound of a range as a path writes it: nothing for an unbounded side. -/
def renderBound : Option Int → List Char
  | none => []
  | some a => renderInt a

/-- A token that gives a step a non-empty key: it is not empty and does not start with
`[`. -/
def namedToken (t : List Char) : Prop :=
  t ≠ [] ∧ t.head? ≠ some '['

/-- The relation between a token and the next one that makes the keys of the scan steps
non-empty: the token after a marker `*` is a `namedToken`. -/
def afterStar (t u : List Char) : Prop :=
  t = ['*'] → namedToken u

/-- The token being read after a marker `*`: the dot alone, or the dot followed by a
character that starts a name. -/
def pendingName (token : List Char) : Prop :=
  token = ['.'] ∨ ∃ y w, token = '.' :: y :: w ∧ y ≠ '.' ∧ y ≠ '['

/-! ## Vocabulary of the statements about a second call

`lookupAndOperateLoop` runs the steps before the last one with `selectStep` and the
last one with `operateStep`; `selectLoop` is the first part of that loop on its own. -/

/-- The steps of `LookupAndOperate` before the last one: each selects from what the one
before it selected. -/
def selectLoop (lib : GoLib) (root : JVal) : List Step → View → Except Err View
  | [], temp => .ok temp
  | s :: rest, temp =>
    match selectStep lib root temp s with
    | .error e => .error e
    | .ok temp1 => selectLoop lib root rest temp1

/-- The position that a list of key steps leads to. -/
def keyPath (steps : List Step) : List Seg :=
  steps.map fun s => Seg.key s.key

mutual
/-- The nodes of the document that a view holds, each with its position, in the order
in which the last step visits them. -/
def View.leaves : View → List (List Seg × JVal)
  | .node p v => [(p, v)]
  | .fresh xs => View.leavesList xs
/-- The nodes held by a list of views. -/
def View.leavesList : List View → List (List Seg × JVal)
  | [] => []
  | x :: rest => x.leaves ++ View.leavesList rest
end

mutual
/-- The number of entries named `k` in a tree, at every depth. -/
def countKey (k : String) : JVal → Nat
  | .arr xs => countKeyElems k xs
  | .obj m => countKeyEntries k m
  | _ => 0
/-- `countKey` for the elements of a sequence. -/
def countKeyElems (k : String) : List JVal → Nat
  | [] => 0
  | x :: rest => countKey k x + countKeyElems k rest
/-- `countKey` for the entries of a mapping. -/
def countKeyEntries (k : String) : List (String × JVal) → Nat
  | [] => 0
  | (k2, x) :: rest => (if k2 = k then 1 else 0) + countKey k x + countKeyEntries k rest
end

/-- The document `root2` is `root` after deletions of entries named `k`: a node of `root2`
is the node of `root` at the same position, up to entries named `k`, of which it has no
more. -/
def Thinner (k : String) (root root2 : JVal) : Prop :=
  ∀ (p : List Seg) (y2 : JVal), getAt p root2 = some y2 →
    ∃ y, getAt p root = some y ∧ stripKey k y2 = stripKey k y ∧ countKey k y2 ≤ countKey k y

/-! ## Range normalisation -/

theorem wrap64_of_inRange (y : Int) (h : IsInt64 y) : wrap64 y = y := by
  unfold IsInt64 at h
  unfold wrap64
  have h1 : (y + 9223372036854775808) % 18446744073709551616 = y + 9223372036854775808 :=
    Int.emod_eq_of_lt (by omega) (by omega)
  omega

theorem wrap64_succ (x : Int) (h : IsInt64 x) :
    wrap64 (x + 1) = if x = 9223372036854775807 then -9223372036854775808 else x + 1 := by
  split_ifs with hx
  · subst hx; decide
  · apply wrap64_of_inRange
    unfold IsInt64 at *
    omega

/-- C5: for a length `L ≥ 0` and bounds that are unbounded or 64-bit integers,
`transforRange` fails with the `[from]` error when the resolved start `f` is negative or
at least `L`, otherwise fails with the `[to]` error when `t + 1` is negative or larger
than `L`, and otherwise returns `(f, t + 1)`. -/
theorem transforRange_spec (L : Int) (frm tov : Option Int) (hL : 0 ≤ L) (hL64 : IsInt64 L)
    (hf : ∀ x, frm = some x → IsInt64 x) (ht : ∀ x, tov = some x → IsInt64 x) :
    transforRange L frm tov =
      (let f : Int := match frm with
        | none => 0
        | some x => if 0 ≤ x then x else L + x
      let t : Int := match tov with
        | none => L - 1
        | some x => if 0 ≤ x then x else L + x
      if f < 0 ∨ f ≥ L then .error (.fromOutOfRange L (frm.getD 0))
      else if t + 1 < 0 ∨ t + 1 > L then .error (.toOutOfRange L (tov.getD (L - 1)))
      else .ok (f, t + 1)) := by
  have hto : IsInt64 (tov.getD (L - 1)) := by
    cases tov with
    | none => unfold IsInt64 at *; simp only [Option.getD_none]; omega
    | some b => exact ht b rfl
  have hw := wrap64_succ _ hto
  unfold IsInt64 at *
  cases frm with
  | none =>
    cases tov with
    | none =>
      simp only [Option.getD_none] at hw
      simp only [transforRange, Option.getD_none, hw]
      split_ifs <;> first | rfl | omega
    | some b =>
      have hb := ht b rfl
      simp only [Option.getD_some] at hw
      simp only [transforRange, Option.getD_none, Option.getD_some, hw]
      split_ifs <;> first | rfl | omega
  | some a =>
    have ha := hf a rfl
    cases tov with
    | none =>
      simp only [Option.getD_none] at hw
      simp only [transforRange, Option.getD_none, Option.getD_some, hw]
      split_ifs <;> first | rfl | omega
    | some b =>
      have hb := ht b rfl
      simp only [Option.getD_some] at hw
      simp only [transforRange, Option.getD_some, hw]
      split_ifs <;> first | rfl | omega

/-- Witness for C5: the range `[-2:]` on a sequence of length 5. -/
theorem transforRange_spec_witness :
    transforRange 5 (some (-2)) none = .ok (3, 5) := by
  rw [transforRange_spec 5 (some (-2)) none (by decide) (by decide)
    (by intro x h; cases h; decide) (by intro x h; cases h)]
  decide

theorem transforRange_inRange (L a b : Int) (hL64 : IsInt64 L) (h1 : -L ≤ a) (h2 : a < L)
    (h3 : -L ≤ b) (h4 : b < L) :
    transforRange L (some a) (some b) =
      .ok (if a < 0 then L + a else a, (if b < 0 then L + b else b) + 1) := by
  have hw : wrap64 (b + 1) = b + 1 := by
    apply wrap64_of_inRange
    unfold IsInt64 at *
    omega
  simp only [transforRange, Option.getD_some]
  by_cases ha : a < 0 <;> by_cases hb : b < 0 <;>
    simp only [ha, hb, if_true, if_false, hw, false_or] <;>
    rw [if_neg (by omega), if_neg (by omega)]

/-- C6: on a sequence of length `L`, for integers `-L ≤ a ≤ b < L`, the range step
`[a:b]` and the range step whose negative bounds `x` are replaced by `L + x` have the
same outcome. -/
theorem range_negative_bounds (lib : GoLib) (root : JVal) (s : List JVal) (a b : Int)
    (hlen : IsInt64 s.length) (h1 : -(s.length : Int) ≤ a) (h2 : a ≤ b)
    (h3 : b < (s.length : Int)) :
    lookupStep lib root (.arr s) ⟨.range, "", .range (some a) (some b)⟩ =
      lookupStep lib root (.arr s) ⟨.range, "",
        .range (some (if a < 0 then (s.length : Int) + a else a))
          (some (if b < 0 then (s.length : Int) + b else b))⟩ := by
  have e : transforRange s.length (some a) (some b) =
      transforRange s.length (some (if a < 0 then (s.length : Int) + a else a))
        (some (if b < 0 then (s.length : Int) + b else b)) := by
    rw [transforRange_inRange _ a b hlen h1 (by omega) (by omega) h3]
    by_cases ha : a < 0 <;> by_cases hb : b < 0 <;> simp only [ha, hb, if_true, if_false]
    · rw [transforRange_inRange _ _ _ hlen (by omega) (by omega) (by omega) (by omega),
        if_neg (by omega), if_neg (by omega)]
    · rw [transforRange_inRange _ _ _ hlen (by omega) (by omega) (by omega) (by omega),
        if_neg (by omega), if_neg (by omega)]
    · rw [transforRange_inRange _ _ _ hlen (by omega) (by omega) (by omega) (by omega),
        if_neg (by omega), if_neg (by omega)]
    · rw [transforRange_inRange _ _ _ hlen (by omega) (by omega) (by omega) (by omega),
        if_neg (by omega), if_neg (by omega)]
  simp [lookupStep, get_range, e, byteLen]

/-- Witness for C6: the range `[-3:-1]` on a sequence of three elements is the range
`[0:2]`. -/
theorem range_negative_bounds_witness :
    lookupStep sampleLib .null (.arr [.num 10, .num 20, .num 30])
        ⟨.range, "", .range (some (-3)) (some (-1))⟩ =
      lookupStep sampleLib .null (.arr [.num 10, .num 20, .num 30])
        ⟨.range, "", .range (some 0) (some 2)⟩ :=
  range_negative_bounds sampleLib .null [.num 10, .num 20, .num 30] (-3) (-1)
    (by decide) (by decide) (by decide) (by decide)


/-! ## Keys and indices -/

theorem get_keyElems_eq (key : String) (xs : List JVal) :
    get_keyElems xs key = xs.filterMap fun x => (get_key x key).toOption := by
  induction xs with
  | nil => simp [get_keyElems]
  | cons x rest ih =>
    rw [get_keyElems, List.filterMap_cons, ih]
    cases h : get_key x key <;> simp [Except.toOption]

/-- C4: on a mapping `get_key` returns the value bound to the key, or the key-not-found
error when the key is not bound; on a sequence it never fails and returns, in element
order, the results of `get_key` on the elements, leaving out exactly the elements on
which it fails. -/
theorem get_key_spec (key : String) (m : JMap) (xs : List JVal) :
    get_key (.obj m) key =
        (match lookupKey key m with
          | some v => .ok v
          | none => .error (.keyNotFound key)) ∧
      get_key (.arr xs) key =
        .ok (.arr (xs.filterMap fun x => (get_key x key).toOption)) := by
  constructor
  · rw [get_key]
  · rw [get_key, get_keyElems_eq]

theorem get_idx_inRange (s : List JVal) (i : Int) (h1 : -(s.length : Int) ≤ i)
    (h2 : i < (s.length : Int)) :
    ∃ v, s[resolveIdx s.length i]? = some v ∧ get_idx (.arr s) i = .ok v := by
  unfold resolveIdx get_idx
  by_cases hi : 0 ≤ i
  · have hlt : i.toNat < s.length := by omega
    refine ⟨s[i.toNat], ?_, ?_⟩
    · simp [hi, List.getElem?_eq_getElem hlt]
    · simp only [ge_iff_le, hi, if_true, if_neg (not_le.mpr h2), List.getElem?_eq_getElem hlt]
  · have hlt : ((s.length : Int) + i).toNat < s.length := by omega
    refine ⟨s[((s.length : Int) + i).toNat], ?_, ?_⟩
    · simp [hi, List.getElem?_eq_getElem hlt]
    · simp only [ge_iff_le, hi, if_false, List.getElem?_eq_getElem hlt]
      rw [if_neg (by omega)]

theorem get_idx_outRange (s : List JVal) (i : Int)
    (h : ¬ (-(s.length : Int) ≤ i ∧ i < (s.length : Int))) :
    get_idx (.arr s) i = .error (.indexOutOfRange s.length i) := by
  unfold get_idx
  by_cases hi : 0 ≤ i
  · simp only [ge_iff_le, hi, if_true]
    rw [if_pos (by omega)]
  · simp only [ge_iff_le, hi, if_false]
    rw [if_pos (by omega)]

theorem get_idxList_inRange (s : List JVal) (l : List Int)
    (h : ∀ i ∈ l, -(s.length : Int) ≤ i ∧ i < (s.length : Int)) :
    ∃ vs, l.map (fun i => s[resolveIdx s.length i]?) = vs.map some ∧
      get_idxList (.arr s) l = .ok vs := by
  induction l with
  | nil => exact ⟨[], rfl, rfl⟩
  | cons i rest ih =>
    obtain ⟨v, hv, hg⟩ := get_idx_inRange s i (h i (List.mem_cons_self _ _)).1
      (h i (List.mem_cons_self _ _)).2
    obtain ⟨vs, hvs, hgs⟩ := ih (fun j hj => h j (List.mem_cons_of_mem _ hj))
    refine ⟨v :: vs, ?_, ?_⟩
    · simp [hv, hvs]
    · simp [get_idxList, hg, hgs]

theorem get_idxList_outRange (s : List JVal) (l : List Int)
    (h : ∃ i ∈ l, ¬ (-(s.length : Int) ≤ i ∧ i < (s.length : Int))) :
    ∃ i ∈ l, ¬ (-(s.length : Int) ≤ i ∧ i < (s.length : Int)) ∧
      get_idxList (.arr s) l = .error (.indexOutOfRange s.length i) := by
  induction l with
  | nil => simp at h
  | cons j rest ih =>
    by_cases hj : -(s.length : Int) ≤ j ∧ j < (s.length : Int)
    · obtain ⟨v, _, hg⟩ := get_idx_inRange s j hj.1 hj.2
      have hrest : ∃ i ∈ rest, ¬ (-(s.length : Int) ≤ i ∧ i < (s.length : Int)) := by
        obtain ⟨i, hi, hni⟩ := h
        rcases List.mem_cons.mp hi with rfl | hi'
        · exact absurd hj hni
        · exact ⟨i, hi', hni⟩
      obtain ⟨i, hi, hni, hgi⟩ := ih hrest
      exact ⟨i, List.mem_cons_of_mem _ hi, hni, by simp [get_idxList, hg, hgi]⟩
    · exact ⟨j, List.mem_cons_self _ _, hj, by simp [get_idxList, get_idx_outRange s j hj]⟩

/-- C3: the idx step of `Lookup` on a sequence `s` of length `L`.  With one index in
`[-L, L)` it returns the element at the resolved position; with several indices, all
in `[-L, L)`, it returns the sequence of the elements at the resolved positions in the
order of the index list; when some index is outside `[-L, L)` it fails with the
index-out-of-range error of such an index.  The path `$.a.b[-1]` on
`{"a":{"b":[10,20,30]}}` gives 30. -/
theorem idx_step_spec (lib : GoLib) (root : JVal) (s : List JVal) :
    (∀ i : Int, -(s.length : Int) ≤ i → i < (s.length : Int) →
        ∃ v, s[resolveIdx s.length i]? = some v ∧
          lookupStep lib root (.arr s) ⟨.idx, "", .idx [i]⟩ = .ok v) ∧
      (∀ l : List Int, 1 < l.length →
        (∀ i ∈ l, -(s.length : Int) ≤ i ∧ i < (s.length : Int)) →
        ∃ vs, l.map (fun i => s[resolveIdx s.length i]?) = vs.map some ∧
          lookupStep lib root (.arr s) ⟨.idx, "", .idx l⟩ = .ok (.arr vs)) ∧
      (∀ l : List Int, l ≠ [] →
        (∃ i ∈ l, ¬ (-(s.length : Int) ≤ i ∧ i < (s.length : Int))) →
        ∃ i ∈ l, ¬ (-(s.length : Int) ≤ i ∧ i < (s.length : Int)) ∧
          lookupStep lib root (.arr s) ⟨.idx, "", .idx l⟩ =
            .error (.indexOutOfRange s.length i)) ∧
      JsonPathLookUp lib (.obj [("a", .obj [("b", .arr [.num 10, .num 20, .num 30])])])
        "$.a.b[-1]" = .ok (.num 30) := by
  refine ⟨?_, ?_, ?_, ?_⟩
  · intro i h1 h2
    obtain ⟨v, hv, hg⟩ := get_idx_inRange s i h1 h2
    exact ⟨v, hv, by simp [lookupStep, byteLen, hg]⟩
  · intro l hlen h
    obtain ⟨vs, hvs, hg⟩ := get_idxList_inRange s l h
    exact ⟨vs, hvs, by simp [lookupStep, byteLen, hlen, hg]⟩
  · intro l hne h
    obtain ⟨i, hi, hni, hg⟩ := get_idxList_outRange s l h
    refine ⟨i, hi, hni, ?_⟩
    by_cases hlen : 1 < l.length
    · simp [lookupStep, byteLen, hlen, hg]
    · match l, hne, hlen, hg with
      | [j], _, _, hg =>
        simp only [get_idxList] at hg
        cases hj : get_idx (.arr s) j with
        | error e =>
          rw [hj] at hg
          simp only [Except.error.injEq] at hg
          simp [lookupStep, byteLen, hj, hg]
        | ok v => rw [hj] at hg; simp at hg
      | _ :: _ :: _, _, hlen, _ => simp at hlen
  · rfl

/-- Witness for C3: in `[10, 20, 30]` the index `-1` resolves to position 2. -/
theorem idx_step_spec_witness :
    ∃ v, [JVal.num 10, .num 20, .num 30][resolveIdx 3 (-1)]? = some v ∧
      lookupStep sampleLib .null (.arr [.num 10, .num 20, .num 30]) ⟨.idx, "", .idx [-1]⟩ =
        .ok v :=
  (idx_step_spec sampleLib .null [.num 10, .num 20, .num 30]).1 (-1) (by decide) (by decide)


/-! ## Deleting at the last step -/

theorem deleteKey_eq_filter (key : String) (m : JMap) :
    deleteKey key m = m.filter fun e => decide (e.1 ≠ key) := by
  induction m with
  | nil => rfl
  | cons e rest ih =>
    obtain ⟨k, v⟩ := e
    by_cases h : k = key <;> simp [deleteKey, h, ih]

theorem lookupKey_deleteKey_self (key : String) (m : JMap) :
    lookupKey key (deleteKey key m) = none := by
  induction m with
  | nil => rfl
  | cons e rest ih =>
    obtain ⟨k, v⟩ := e
    by_cases h : k = key <;> simp [deleteKey, lookupKey, h, ih]

theorem lookupKey_deleteKey_other (key k2 : String) (m : JMap) (h : k2 ≠ key) :
    lookupKey k2 (deleteKey key m) = lookupKey k2 m := by
  induction m with
  | nil => rfl
  | cons e rest ih =>
    obtain ⟨k, v⟩ := e
    by_cases hk : k = key
    · subst hk
      have hk2 : ¬ k = k2 := fun h' => h h'.symm
      simp only [deleteKey, lookupKey, if_true, if_neg hk2, ih]
    · by_cases hk2 : k = k2
      · subst hk2
        simp only [deleteKey, lookupKey, if_neg hk, if_true]
      · simp only [deleteKey, lookupKey, if_neg hk, if_neg hk2, ih]

/-- C7: delete mode with last step `key k` on a mapping `m`.  When `k` is bound the call
succeeds and the mapping becomes the former entries without those named `k` (so `k` is
no longer bound and every other key keeps its value); when `k` is not bound the call
fails with the key-not-found error and the mapping is unchanged. -/
theorem operate_key_delete_spec (reg : Registry) (m : JMap) (k rule : String) :
    (lookupKey k m ≠ none →
        operate_key reg (.obj m) k .fieldControl rule =
            (.obj (m.filter fun e => decide (e.1 ≠ k)), none) ∧
          lookupKey k (m.filter fun e => decide (e.1 ≠ k)) = none ∧
          ∀ k2, k2 ≠ k → lookupKey k2 (m.filter fun e => decide (e.1 ≠ k)) = lookupKey k2 m) ∧
      (lookupKey k m = none →
        operate_key reg (.obj m) k .fieldControl rule = (.obj m, some (.keyNotFound k))) := by
  constructor
  · intro h
    rw [← deleteKey_eq_filter]
    refine ⟨?_, lookupKey_deleteKey_self k m, fun k2 h2 => lookupKey_deleteKey_other k k2 m h2⟩
    rw [operate_key]
    cases hl : lookupKey k m with
    | none => exact absurd hl h
    | some v => rfl
  · intro h
    rw [operate_key, h]

/-- Witness for C7: deleting `a` from `{"a":1,"b":2}` leaves `{"b":2}`. -/
theorem operate_key_delete_spec_witness :
    operate_key emptyRegistry (.obj [("a", .num 1), ("b", .num 2)]) "a" .fieldControl "" =
      (.obj [("b", .num 2)], none) :=
  ((operate_key_delete_spec emptyRegistry [("a", .num 1), ("b", .num 2)] "a" "").1
    (by decide)).1


theorem byteLen_pos (s : String) (h : s ≠ "") : byteLen s.data > 0 := by
  have hd : s.data ≠ [] := by
    intro hd
    apply h
    exact String.ext hd
  cases hs : s.data with
  | nil => exact absurd hs hd
  | cons c cs =>
    have := Char.utf8Size_pos c
    simp only [byteLen, List.map_cons, List.sum_cons]
    omega

theorem keepNotListed_eq (argvs : List Int) (w : Nat) (s : List JVal) :
    keepNotListed argvs w s =
      ((s.enumFrom w).filter fun e => decide ((e.1 : Int) ∉ argvs)).map Prod.snd := by
  induction s generalizing w with
  | nil => rfl
  | cons q rest ih =>
    have hany : (argvs.any fun arg => decide (arg = (w : Int))) = decide ((w : Int) ∈ argvs) := by
      by_cases hm : (w : Int) ∈ argvs
      · simp only [hm, decide_True, List.any_eq_true, decide_eq_true_eq]
        exact ⟨_, hm, rfl⟩
      · simp only [hm, decide_False, Bool.eq_false_iff, ne_eq, List.any_eq_true,
          decide_eq_true_eq, not_exists, not_and]
        intro x hx hxw
        exact hm (hxw ▸ hx)
    rw [keepNotListed, hany, List.enumFrom_cons, List.filter_cons, ih]
    by_cases hm : (w : Int) ∈ argvs <;> simp [hm]

theorem operate_idxEntries_absent (key : String) (argvs : List Int) (mode : Mode) (m : JMap)
    (h : key ∉ m.map Prod.fst) : operate_idxEntries key argvs mode m = (m, none) := by
  induction m with
  | nil => rfl
  | cons e rest ih =>
    obtain ⟨k, v⟩ := e
    simp only [List.map_cons, List.mem_cons, not_or] at h
    have hk : ¬ k = key := fun h' => h.1 h'.symm
    rw [operate_idxEntries.eq_def]
    simp only [if_neg hk, ih h.2]

theorem lookupKey_absent (key : String) (m : JMap) (h : key ∉ m.map Prod.fst) :
    lookupKey key m = none := by
  induction m with
  | nil => rfl
  | cons e rest ih =>
    obtain ⟨k, v⟩ := e
    simp only [List.map_cons, List.mem_cons, not_or] at h
    have hk : ¬ k = key := fun h' => h.1 h'.symm
    rw [lookupKey, if_neg hk, ih h.2]

theorem operate_idxEntries_delete (key : String) (argvs : List Int) (m : JMap) (s : List JVal)
    (hnodup : (m.map Prod.fst).Nodup) (hs : lookupKey key m = some (.arr s)) :
    ∃ m2, operate_idxEntries key argvs .fieldControl m = (m2, none) ∧
      m2.map Prod.fst = m.map Prod.fst ∧
      lookupKey key m2 = some (.arr (removePositions argvs s)) ∧
      ∀ k2, k2 ≠ key → lookupKey k2 m2 = lookupKey k2 m := by
  induction m with
  | nil => simp [lookupKey] at hs
  | cons e rest ih =>
    obtain ⟨k, v⟩ := e
    simp only [List.map_cons, List.nodup_cons] at hnodup
    by_cases hk : k = key
    · subst hk
      simp only [lookupKey, if_true, Option.some.injEq] at hs
      subst hs
      refine ⟨(k, .arr (removePositions argvs s)) :: rest, ?_, rfl, ?_, ?_⟩
      · rw [operate_idxEntries, if_pos rfl]
        simp only [operate_idxEntries_absent k argvs .fieldControl rest hnodup.1, if_true,
          keepNotListed_eq, removePositions, List.enum]
      · simp only [lookupKey, if_true]
      · intro k2 hk2
        have hne : ¬ k = k2 := fun h' => hk2 h'.symm
        simp only [lookupKey, if_neg hne]
    · simp only [lookupKey, if_neg hk] at hs
      obtain ⟨m2, h1, h2, h3, h4⟩ := ih hnodup.2 hs
      refine ⟨(k, v) :: m2, ?_, ?_, ?_, ?_⟩
      · rw [operate_idxEntries.eq_def]
        simp only [if_neg hk, h1]
      · simp only [List.map_cons, h2]
      · simp only [lookupKey, if_neg hk, h3]
      · intro k2 hk2
        by_cases hkk : k = k2
        · simp only [lookupKey, if_pos hkk]
        · simp only [lookupKey, if_neg hkk, h4 k2 hk2]

/-- C8: delete mode with last step `key[I]` on a mapping `m` (a Go map, so its keys are
unique) that binds the non-empty `key` to a sequence `s`, for a list `I` of non-negative
integers.  The call succeeds; afterwards `key` is bound to the elements of `s` whose
position is not in `I`, in their original order, the keys of `m` are the same and every
other key keeps its value. -/
theorem operate_idx_delete_spec (m : JMap) (key rule : String) (s : List JVal) (I : List Int)
    (hkey : key ≠ "") (hnodup : (m.map Prod.fst).Nodup)
    (hs : lookupKey key m = some (.arr s)) (_hI : ∀ i ∈ I, 0 ≤ i) :
    ∃ m2, operate_idx (.obj m) key (.idx I) .fieldControl rule = (.obj m2, none) ∧
      m2.map Prod.fst = m.map Prod.fst ∧
      lookupKey key m2 = some (.arr (removePositions I s)) ∧
      ∀ k2, k2 ≠ key → lookupKey k2 m2 = lookupKey k2 m := by
  obtain ⟨m2, h1, h2, h3, h4⟩ := operate_idxEntries_delete key I m s hnodup hs
  refine ⟨m2, ?_, h2, h3, h4⟩
  rw [operate_idx]
  simp only [byteLen_pos key hkey, if_true, h1]

/-- Witness for C8: `$.users[0,2]` in delete mode on three users leaves the second. -/
theorem operate_idx_delete_spec_witness :
    Compile "$.users[0,2]" = .ok ⟨"$.users[0,2]", [⟨.idx, "users", .idx [0, 2]⟩]⟩ ∧
      ∃ m2, operate_idx
          (.obj [("users", .arr [.obj [("n", .str "A")], .obj [("n", .str "B")],
            .obj [("n", .str "C")]])]) "users" (.idx [0, 2]) .fieldControl "" =
            (.obj m2, none) ∧
        m2.map Prod.fst = ["users"] ∧
        lookupKey "users" m2 = some (.arr [.obj [("n", .str "B")]]) ∧
        ∀ k2, k2 ≠ "users" → lookupKey k2 m2 = lookupKey k2
          [("users", .arr [.obj [("n", .str "A")], .obj [("n", .str "B")],
            .obj [("n", .str "C")]])] :=
  ⟨by decide, operate_idx_delete_spec
    [("users", .arr [.obj [("n", .str "A")], .obj [("n", .str "B")], .obj [("n", .str "C")]])]
    "users" "" [.obj [("n", .str "A")], .obj [("n", .str "B")], .obj [("n", .str "C")]] [0, 2]
    (by decide) (by decide) (by decide) (by decide)⟩


theorem filterLoop_eq (test : JVal → Except Err Bool) (keep : Bool) (b : JVal → Bool)
    (s : List JVal) (h : ∀ x ∈ s, test x = .ok (b x)) :
    filterLoop test keep s = .ok (s.filter fun x => b x == keep) := by
  induction s with
  | nil => rfl
  | cons x rest ih =>
    have hx := h x (List.mem_cons_self _ _)
    have hrest := ih (fun y hy => h y (List.mem_cons_of_mem _ hy))
    simp only [filterLoop, hx, hrest, List.filter_cons]
    by_cases hb : b x = keep <;> simp [hb]

theorem lookupKey_setKey_self (key : String) (v : JVal) (m : JMap) :
    lookupKey key (setKey key v m) = some v := by
  induction m with
  | nil => simp [setKey, lookupKey]
  | cons e rest ih =>
    obtain ⟨k, w⟩ := e
    by_cases hk : k = key
    · simp only [setKey, if_pos hk, lookupKey]
    · simp only [setKey, if_neg hk, lookupKey, ih]

theorem lookupKey_setKey_other (key k2 : String) (v : JVal) (m : JMap) (h : k2 ≠ key) :
    lookupKey k2 (setKey key v m) = lookupKey k2 m := by
  induction m with
  | nil =>
    have hne : ¬ key = k2 := fun h' => h h'.symm
    simp only [setKey, lookupKey, if_neg hne]
  | cons e rest ih =>
    obtain ⟨k, w⟩ := e
    by_cases hk : k = key
    · subst hk
      have hne : ¬ k = k2 := fun h' => h h'.symm
      simp only [setKey, if_true, lookupKey, if_neg hne]
    · by_cases hk2 : k = k2
      · simp only [setKey, if_neg hk, lookupKey, if_pos hk2]
      · simp only [setKey, if_neg hk, lookupKey, if_neg hk2, ih]

/-- C10: delete mode with last step `key[?(p)]` on a mapping `m` that binds `key` to a
sequence `s`, for any document root and any predicate that is not a regular-expression
match and whose evaluation succeeds on every element of `s` (with result `b x` on `x`).
The call succeeds and `key` becomes bound to the elements of `s` on which the predicate
is false, in original order, every other key keeping its value; `Lookup` of the same
step returns the elements on which the predicate is true, i.e. the complement. -/
theorem operate_filter_delete_spec (lib : GoLib) (m : JMap) (root : JVal)
    (key f rule lp op rp : String) (s : List JVal) (b : JVal → Bool)
    (hs : lookupKey key m = some (.arr s)) (hp : parse_filter f = .ok (lp, op, rp))
    (hop : op ≠ "=~") (hev : ∀ x ∈ s, eval_filter lib x root lp op rp = .ok (b x)) :
    ∃ m2, operate_filter lib (.obj m) root key f .fieldControl rule = (.obj m2, none) ∧
      lookupKey key m2 = some (.arr (s.filter fun x => !b x)) ∧
      (∀ k2, k2 ≠ key → lookupKey k2 m2 = lookupKey k2 m) ∧
      lookupStep lib root (.obj m) ⟨.filter, key, .filter f⟩ = .ok (.arr (s.filter b)) := by
  refine ⟨setKey key (.arr (s.filter fun x => !b x)) m, ?_, lookupKey_setKey_self _ _ _,
    fun k2 h2 => lookupKey_setKey_other _ _ _ _ h2, ?_⟩
  · have hfl := filterLoop_eq (fun tmp => eval_filter lib tmp root lp op rp) false b s hev
    have hfe : (s.filter fun x => b x == false) = s.filter fun x => !b x := by
      congr 1
      funext x
      cases b x <;> rfl
    simp only [operate_filter, get_key, hs, hp, hfl, hfe]
  · have hfl := filterLoop_eq (fun tmp => eval_filter lib tmp root lp op rp) true b s hev
    have hfe : (s.filter fun x => b x == true) = s.filter b := by
      congr 1
      funext x
      cases b x <;> rfl
    simp only [lookupStep, get_key, hs, get_filtered, hp, if_neg hop, hfl, hfe]

/-- Witness for C10: `book[?(@.price < 10)]` in delete mode keeps the book that costs
12, and `Lookup` returns the two others. -/
theorem operate_filter_delete_spec_witness :
    ∃ m2, operate_filter sampleLib
        (.obj [("book", .arr [.obj [("price", .num 8)], .obj [("price", .num 12)],
          .obj [("price", .num 5)]])]) .null "book" "@.price < 10" .fieldControl "" =
          (.obj m2, none) ∧
      lookupKey "book" m2 = some (.arr ([JVal.obj [("price", .num 8)],
        .obj [("price", .num 12)], .obj [("price", .num 5)]].filter
          fun x => !decide (x ≠ .obj [("price", .num 12)]))) ∧
      (∀ k2, k2 ≠ "book" → lookupKey k2 m2 = lookupKey k2
        [("book", .arr [.obj [("price", .num 8)], .obj [("price", .num 12)],
          .obj [("price", .num 5)]])]) ∧
      lookupStep sampleLib .null
        (.obj [("book", .arr [.obj [("price", .num 8)], .obj [("price", .num 12)],
          .obj [("price", .num 5)]])]) ⟨.filter, "book", .filter "@.price < 10"⟩ =
        .ok (.arr ([JVal.obj [("price", .num 8)], .obj [("price", .num 12)],
          .obj [("price", .num 5)]].filter fun x => decide (x ≠ .obj [("price", .num 12)]))) :=
  operate_filter_delete_spec sampleLib _ .null "book" "@.price < 10" "" "@.price" "<" "10"
    [.obj [("price", .num 8)], .obj [("price", .num 12)], .obj [("price", .num 5)]]
    (fun x => decide (x ≠ .obj [("price", .num 12)])) (by decide) (by decide) (by decide)
    (by decide)

/-- C9 (the code at the failing input): for `{"a":[1,2,3,4]}` and the range `[0:1]`,
`transforRange` gives the half-open window `(0, 2)` and `Lookup` returns the two
elements `[1, 2]`, but delete mode removes the three positions 0, 1 and 2 and leaves
`[4]`. -/
theorem operate_range_removes_one_more :
    transforRange 4 (some 0) (some 1) = .ok (0, 2) ∧
      lookupStep sampleLib .null (.obj [("a", .arr [.num 1, .num 2, .num 3, .num 4])])
        ⟨.range, "a", .range (some 0) (some 1)⟩ = .ok (.arr [.num 1, .num 2]) ∧
      operate_range (.obj [("a", .arr [.num 1, .num 2, .num 3, .num 4])]) "a"
        (.range (some 0) (some 1)) .fieldControl "" = (.obj [("a", .arr [.num 4])], none) := by
  decide


/-! ## The bookshop filter -/

theorem eval_price_lt_ten (lib : GoLib) (root : JVal) (m : JMap) (p : Int)
    (hm : lookupKey "price" m = some (.num p)) (hnum : lib.parseFloatOk "10" = true)
    (heval : lib.typesEval (toString p ++ " < 10") =
      .value (if p < 10 then "true" else "false")) :
    eval_filter lib (.obj m) root "@.price" "<" "10" = .ok (decide (p < 10)) := by
  have hlp : get_lp_v (.obj m) root "@.price" = .ok (.num p) := by
    have ht : tokenize "@.price" = .ok [['@'], ['p', 'r', 'i', 'c', 'e']] := by decide
    have hpt : parse_token ['p', 'r', 'i', 'c', 'e'] = .ok (.key, "price", .none) := by decide
    have hsw : startsWith "@.price".data ['@', '.'] = true := by decide
    simp only [get_lp_v, hsw, if_true, filter_get_from_explicit_path, ht]
    simp [filter_pathLoop, hpt, get_key, hm]
  have hexp : toString p ++ " " ++ "<" ++ " " ++ "10" = toString p ++ " < 10" := by
    rw [String.append_assoc, String.append_assoc, String.append_assoc]
    rfl
  have h1 : ("<" : String) ≠ "exists" := by decide
  have h2 : ("<" : String) ≠ "=~" := by decide
  have h3 : matchBraces "10".data = false := by decide
  have h4 : startsWith "10".data ['@', '.'] = false := by decide
  have h5 : startsWith "10".data ['$', '.'] = false := by decide
  simp only [eval_filter, hlp, dropError, if_neg h1, if_neg h2, h3, h4, h5]
  simp only [cmp_any, isNumber, sprintV]
  by_cases hp : p < 10 <;> simp [hnum, hexp, heval, hp]

theorem price_filter_loop (lib : GoLib) (root : JVal) (bs : List JVal) (ps : List Int)
    (hbs : List.Forall₂ (fun b p => ∃ m, b = JVal.obj m ∧ lookupKey "price" m = some (.num p))
      bs ps)
    (hnum : lib.parseFloatOk "10" = true)
    (heval : ∀ p ∈ ps, lib.typesEval (toString p ++ " < 10") =
      .value (if p < 10 then "true" else "false")) :
    ∃ res, filterLoop (fun tmp => eval_filter lib tmp root "@.price" "<" "10") true bs =
        .ok res ∧
      get_keyElems res "price" = (ps.filter fun p => decide (p < 10)).map JVal.num := by
  induction hbs with
  | nil => exact ⟨[], rfl, rfl⟩
  | @cons b p bs ps hb _ ih =>
    obtain ⟨m, rfl, hm⟩ := hb
    obtain ⟨res, hres, hkeys⟩ := ih (fun q hq => heval q (List.mem_cons_of_mem _ hq))
    have hev := eval_price_lt_ten lib root m p hm hnum (heval p (List.mem_cons_self _ _))
    by_cases hp : p < 10
    · refine ⟨.obj m :: res, ?_, ?_⟩
      · simp [filterLoop, hev, hres, hp]
      · simp [get_keyElems, get_key, hm, hkeys, hp]
    · refine ⟨res, ?_, ?_⟩
      · simp [filterLoop, hev, hres, hp]
      · simp [hkeys, hp]

/-- C2: for a list `bs` of mappings that bind `price` to the integers `ps`, `Lookup` of
the compiled path `$.store.book[?(@.price < 10)].price` on `{"store":{"book":bs}}`
succeeds and returns the prices below 10 in their original order, provided the Go
library accepts `10` as a number and evaluates each `p < 10` correctly. -/
theorem lookup_cheap_prices (lib : GoLib) (bs : List JVal) (ps : List Int)
    (hbs : List.Forall₂ (fun b p => ∃ m, b = JVal.obj m ∧ lookupKey "price" m = some (.num p))
      bs ps)
    (hnum : lib.parseFloatOk "10" = true)
    (heval : ∀ p ∈ ps, lib.typesEval (toString p ++ " < 10") =
      .value (if p < 10 then "true" else "false")) :
    JsonPathLookUp lib (.obj [("store", .obj [("book", .arr bs)])])
        "$.store.book[?(@.price < 10)].price" =
      .ok (.arr ((ps.filter fun p => decide (p < 10)).map JVal.num)) := by
  have hc : Compile "$.store.book[?(@.price < 10)].price" =
      .ok ⟨"$.store.book[?(@.price < 10)].price", [⟨.key, "store", .none⟩,
        ⟨.filter, "book", .filter "@.price < 10"⟩, ⟨.key, "price", .none⟩]⟩ := by decide
  have hpf : parse_filter "@.price < 10" = .ok ("@.price", "<", "10") := by decide
  have hop : ("<" : String) ≠ "=~" := by decide
  obtain ⟨res, hres, hkeys⟩ := price_filter_loop lib
    (.obj [("store", .obj [("book", .arr bs)])]) bs ps hbs hnum heval
  simp only [JsonPathLookUp, hc, Compiled.Lookup, lookupLoop, lookupStep, get_key, lookupKey,
    if_true, get_filtered, hpf, if_neg hop, hres, hkeys]

/-- Witness for C2: the prices 8, 12 and 5 give `[8, 5]`. -/
theorem lookup_cheap_prices_witness :
    JsonPathLookUp sampleLib bookDoc "$.store.book[?(@.price < 10)].price" =
      .ok (.arr [.num 8, .num 5]) :=
  lookup_cheap_prices sampleLib
    [.obj [("price", .num 8)], .obj [("price", .num 12)], .obj [("price", .num 5)]] [8, 12, 5]
    (.cons ⟨_, rfl, rfl⟩ (.cons ⟨_, rfl, rfl⟩ (.cons ⟨_, rfl, rfl⟩ .nil)))
    (by decide) (by decide)


/-! ## Recursive descent -/

mutual
theorem subvalues_extends : ∀ (v : JVal) (p : List Seg), ∀ e ∈ subvalues p v, p <+: e.1
  | .null, p, e, he => by
    simp only [subvalues, List.mem_singleton] at he
    subst he
    exact List.prefix_refl _
  | .bool _, p, e, he => by
    simp only [subvalues, List.mem_singleton] at he
    subst he
    exact List.prefix_refl _
  | .num _, p, e, he => by
    simp only [subvalues, List.mem_singleton] at he
    subst he
    exact List.prefix_refl _
  | .str _, p, e, he => by
    simp only [subvalues, List.mem_singleton] at he
    subst he
    exact List.prefix_refl _
  | .arr xs, p, e, he => by
    simp only [subvalues, List.mem_cons] at he
    rcases he with rfl | he
    · exact List.prefix_refl _
    · exact subvaluesElems_extends xs p 0 e he
  | .obj m, p, e, he => by
    simp only [subvalues, List.mem_cons] at he
    rcases he with rfl | he
    · exact List.prefix_refl _
    · exact subvaluesEntries_extends m p e he
theorem subvaluesElems_extends : ∀ (xs : List JVal) (p : List Seg) (i : Nat),
    ∀ e ∈ subvaluesElems p i xs, p <+: e.1
  | [], p, i, e, he => by simp [subvaluesElems] at he
  | x :: rest, p, i, e, he => by
    simp only [subvaluesElems, List.mem_append] at he
    rcases he with he | he
    · exact (List.prefix_append p _).trans (subvalues_extends x _ e he)
    · exact subvaluesElems_extends rest p (i + 1) e he
theorem subvaluesEntries_extends : ∀ (m : List (String × JVal)) (p : List Seg),
    ∀ e ∈ subvaluesEntries p m, p <+: e.1
  | [], p, e, he => by simp [subvaluesEntries] at he
  | (k, x) :: rest, p, e, he => by
    simp only [subvaluesEntries, List.mem_append] at he
    rcases he with he | he
    · exact (List.prefix_append p _).trans (subvalues_extends x _ e he)
    · exact subvaluesEntries_extends rest p e he
end


theorem subvaluesElems_below (xs : List JVal) (p : List Seg) (i : Nat) :
    ∀ e ∈ subvaluesElems p i xs, ∃ seg, (p ++ [seg]) <+: e.1 := by
  induction xs generalizing i with
  | nil => intro e he; simp [subvaluesElems] at he
  | cons x rest ih =>
    intro e he
    simp only [subvaluesElems, List.mem_append] at he
    rcases he with he | he
    · exact ⟨_, subvalues_extends x _ e he⟩
    · exact ih (i + 1) e he

theorem subvaluesEntries_below (m : List (String × JVal)) (p : List Seg) :
    ∀ e ∈ subvaluesEntries p m, ∃ seg, (p ++ [seg]) <+: e.1 := by
  induction m with
  | nil => intro e he; simp [subvaluesEntries] at he
  | cons kv rest ih =>
    obtain ⟨k, x⟩ := kv
    intro e he
    simp only [subvaluesEntries, List.mem_append] at he
    rcases he with he | he
    · exact ⟨_, subvalues_extends x _ e he⟩
    · exact ih e he

theorem subvalues_cons (p : List Seg) (v : JVal) :
    ∃ tl, subvalues p v = (p, v) :: tl ∧ ∀ e ∈ tl, ∃ seg, (p ++ [seg]) <+: e.1 := by
  cases v with
  | arr xs => exact ⟨_, by simp [subvalues], subvaluesElems_below xs p 0⟩
  | obj m => exact ⟨_, by simp [subvalues], subvaluesEntries_below m p⟩
  | null => exact ⟨[], by simp [subvalues], by simp⟩
  | bool b => exact ⟨[], by simp [subvalues], by simp⟩
  | num n => exact ⟨[], by simp [subvalues], by simp⟩
  | str s => exact ⟨[], by simp [subvalues], by simp⟩

theorem isOutermost_at (k : String) (p : List Seg) (v : JVal) (hp : Seg.key k ∉ p) :
    isOutermost k (p, v) = false := by
  simp only [isOutermost, decide_eq_false_iff_not, not_and, not_not]
  intro h
  exact absurd (List.mem_of_getLast?_eq_some h) hp

theorem isOutermost_entry (k : String) (p : List Seg) (v : JVal) (hp : Seg.key k ∉ p) :
    isOutermost k (p ++ [Seg.key k], v) = true := by
  simp only [isOutermost, List.getLast?_concat, List.dropLast_concat, true_and,
    decide_eq_true_eq]
  exact hp

theorem isOutermost_below (k : String) (q : List Seg) (seg : Seg) (e : List Seg × JVal)
    (hq : Seg.key k ∈ q) (he : (q ++ [seg]) <+: e.1) : isOutermost k e = false := by
  obtain ⟨r, hr⟩ := he
  simp only [isOutermost, decide_eq_false_iff_not, not_and, not_not]
  intro _
  rw [← hr, List.append_assoc, List.dropLast_append_of_ne_nil _ (by simp)]
  exact List.mem_append_left _ hq

theorem select_matched (k : String) (p : List Seg) (x : JVal) (hp : Seg.key k ∉ p) :
    ((subvalues (p ++ [Seg.key k]) x).filter (isOutermost k)).map Prod.snd = [x] := by
  obtain ⟨tl, htl, hbelow⟩ := subvalues_cons (p ++ [Seg.key k]) x
  have hnil : tl.filter (isOutermost k) = [] := by
    rw [List.filter_eq_nil_iff]
    intro e he
    obtain ⟨seg, hseg⟩ := hbelow e he
    rw [isOutermost_below k _ seg e (List.mem_append_right _ (List.mem_singleton_self _)) hseg]
    simp
  rw [htl, List.filter_cons, isOutermost_entry k p x hp, if_pos rfl, hnil]
  rfl

mutual
theorem recursion_search_spec (k : String) : ∀ (v : JVal) (p : List Seg) (res : List JVal),
    Seg.key k ∉ p → (∀ e ∈ subvalues p v, Seg.key k ∉ e.1 → e.2 ≠ JVal.null) →
    recursion_search v k res =
      .ok (res ++ ((subvalues p v).filter (isOutermost k)).map Prod.snd)
  | .null, p, res, hp, hn => by
    exact absurd rfl (hn (p, .null) (by simp [subvalues]) hp)
  | .bool b, p, res, hp, _ => by
    simp [recursion_search, subvalues, List.filter_cons, isOutermost_at k p _ hp]
  | .num n, p, res, hp, _ => by
    simp [recursion_search, subvalues, List.filter_cons, isOutermost_at k p _ hp]
  | .str s, p, res, hp, _ => by
    simp [recursion_search, subvalues, List.filter_cons, isOutermost_at k p _ hp]
  | .arr xs, p, res, hp, hn => by
    have h := recursion_searchElems_spec k xs p 0 res hp
      (fun e he => hn e (by simp [subvalues, he]))
    simp only [recursion_search, subvalues, List.filter_cons, isOutermost_at k p _ hp, h]
    simp
  | .obj m, p, res, hp, hn => by
    have h := recursion_searchEntries_spec k m p res hp
      (fun e he => hn e (by simp [subvalues, he]))
    simp only [recursion_search, subvalues, List.filter_cons, isOutermost_at k p _ hp, h]
    simp
theorem recursion_searchElems_spec (k : String) : ∀ (xs : List JVal) (p : List Seg) (i : Nat)
    (res : List JVal),
    Seg.key k ∉ p → (∀ e ∈ subvaluesElems p i xs, Seg.key k ∉ e.1 → e.2 ≠ JVal.null) →
    recursion_searchElems xs k res =
      .ok (res ++ ((subvaluesElems p i xs).filter (isOutermost k)).map Prod.snd)
  | [], p, i, res, _, _ => by simp [recursion_searchElems, subvaluesElems]
  | x :: rest, p, i, res, hp, hn => by
    have hp2 : Seg.key k ∉ p ++ [Seg.idx i] := by simp [hp]
    have h1 := recursion_search_spec k x (p ++ [Seg.idx i]) res hp2
      (fun e he => hn e (by simp [subvaluesElems, he]))
    have h2 := recursion_searchElems_spec k rest p (i + 1)
      (res ++ ((subvalues (p ++ [Seg.idx i]) x).filter (isOutermost k)).map Prod.snd) hp
      (fun e he => hn e (by simp [subvaluesElems, he]))
    simp only [recursion_searchElems, subvaluesElems, h1, h2, List.filter_append,
      List.map_append, List.append_assoc]
theorem recursion_searchEntries_spec (k : String) : ∀ (m : List (String × JVal))
    (p : List Seg) (res : List JVal),
    Seg.key k ∉ p → (∀ e ∈ subvaluesEntries p m, Seg.key k ∉ e.1 → e.2 ≠ JVal.null) →
    recursion_searchEntries m k res =
      .ok (res ++ ((subvaluesEntries p m).filter (isOutermost k)).map Prod.snd)
  | [], p, res, _, _ => by simp [recursion_searchEntries, subvaluesEntries]
  | (k2, x) :: rest, p, res, hp, hn => by
    by_cases hk : k2 = k
    · subst hk
      have h2 := recursion_searchEntries_spec k2 rest p (res ++ [x]) hp
        (fun e he => hn e (by simp [subvaluesEntries, he]))
      simp only [recursion_searchEntries, if_true, subvaluesEntries, h2, List.filter_append,
        List.map_append, select_matched k2 p x hp, List.append_assoc]
    · have hp2 : Seg.key k ∉ p ++ [Seg.key k2] := by
        simp only [List.mem_append, List.mem_singleton, Seg.key.injEq, not_or]
        exact ⟨hp, fun h => hk h.symm⟩
      have h1 := recursion_search_spec k x (p ++ [Seg.key k2]) res hp2
        (fun e he => hn e (by simp [subvaluesEntries, he]))
      have h2 := recursion_searchEntries_spec k rest p
        (res ++ ((subvalues (p ++ [Seg.key k2]) x).filter (isOutermost k)).map Prod.snd) hp
        (fun e he => hn e (by simp [subvaluesEntries, he]))
      simp only [recursion_searchEntries, if_neg hk, subvaluesEntries, h1, h2,
        List.filter_append, List.map_append, List.append_assoc]
end


theorem tokenizeLoop_plain (cs pre : List Char) (tokens : List (List Char))
    (hcs : ∀ c ∈ cs, c ≠ '.' ∧ c ≠ '[') (hpre : '[' ∉ pre) :
    tokenizeLoop cs false tokens ('.' :: pre) = .ok (tokens, '.' :: pre ++ cs) := by
  induction cs generalizing pre with
  | nil => simp [tokenizeLoop]
  | cons x rest ih =>
    have hx := hcs x (List.mem_cons_self _ _)
    have h1 : ¬ ('.' :: pre ++ [x] = ['.']) := by
      cases pre <;> simp
    have h2 : ¬ ('.' :: pre ++ [x] = ['.', '.']) := by
      cases pre with
      | nil => simp [hx.1]
      | cons a as => cases as <;> simp
    have h3m : '[' ∉ '.' :: pre ++ [x] := by
      intro h
      simp only [List.cons_append, List.mem_cons, List.mem_append, List.mem_singleton,
        List.not_mem_nil, or_false] at h
      rcases h with h | h | h
      · exact absurd h (by decide)
      · exact hpre h
      · exact hx.2 h.symm
    have h3 : ('.' :: pre ++ [x]).contains '[' = false := by
      simpa using h3m
    have hpre2 : '[' ∉ pre ++ [x] := by
      simp only [List.mem_append, List.mem_singleton, not_or]
      exact ⟨hpre, fun h => hx.2 h.symm⟩
    have ih2 := ih (pre ++ [x]) (fun c hc => hcs c (List.mem_cons_of_mem _ hc)) hpre2
    rw [tokenizeLoop]
    simp only [Bool.false_eq_true, if_false, h1, h2, h3, hx.1]
    simpa using ih2

theorem tokenize_scan (k : String) (hk : ∀ c ∈ k.data, c ≠ '.' ∧ c ≠ '[') (hstar : k ≠ "*") :
    tokenize ("$.." ++ k) = .ok [['$'], ['*'], k.data] := by
  have hd : ("$.." ++ k).data = '$' :: '.' :: '.' :: k.data := by
    rw [String.data_append]
    rfl
  have hloop : tokenizeLoop ('$' :: '.' :: '.' :: k.data) true [] [] =
      .ok ([['$'], ['*']], '.' :: k.data) := by
    have hp := tokenizeLoop_plain k.data [] [['$'], ['*']] hk (by simp)
    simp only [List.append_nil, List.nil_append, List.cons_append] at hp
    simp [tokenizeLoop, hp]
  have hne : k.data ≠ ['*'] := by
    intro h
    apply hstar
    exact String.ext h
  simp [tokenize, hd, hloop, hne]

theorem Compile_scan (k : String) (hk : ∀ c ∈ k.data, c ≠ '.' ∧ c ≠ '[') (hstar : k ≠ "*") :
    Compile ("$.." ++ k) = .ok ⟨"$.." ++ k, [⟨.scan, k, .none⟩]⟩ := by
  have hne : k.data ≠ ['*'] := by
    intro h
    apply hstar
    exact String.ext h
  have hpt : ∃ op, parse_token k.data = .ok (op, k, .none) ∧ op ≠ .range ∧ op ≠ .idx := by
    by_cases hd : k.data = ['$']
    · refine ⟨.root, ?_, by decide, by decide⟩
      have : k = "$" := String.ext hd
      subst this
      rfl
    · refine ⟨.key, ?_, by decide, by decide⟩
      have hmem : '[' ∉ k.data := fun hc => (hk _ hc).2 rfl
      simp [parse_token, hd, hmem]
  obtain ⟨op, hop, h1, h2⟩ := hpt
  simp [Compile, tokenize_scan k hk hstar, compileLoop, hop, h1, h2]

/-- C1 (amended): for a key `k` that can be written after `$..` (no `.` or `[` in it,
and not `*`) and a tree `t` in which no `null` lies outside the values of entries named
`k`, `Lookup` of the compiled path `$..k` returns, in preorder, the values of the
mapping entries named `k` that do not lie inside the value of another entry named
`k`. -/
theorem scan_lookup_outermost (lib : GoLib) (t : JVal) (k : String)
    (hk : ∀ c ∈ k.data, c ≠ '.' ∧ c ≠ '[') (hstar : k ≠ "*")
    (hnull : ∀ e ∈ subvalues [] t, Seg.key k ∉ e.1 → e.2 ≠ JVal.null) :
    JsonPathLookUp lib t ("$.." ++ k) = .ok (.arr (outermostBoundTo k t)) := by
  have hs := recursion_search_spec k t [] [] (by simp) hnull
  have ht : t ≠ .null := by
    obtain ⟨tl, htl, _⟩ := subvalues_cons [] t
    exact hnull ([], t) (by rw [htl]; exact List.mem_cons_self _ _) (by simp)
  simp only [List.nil_append] at hs
  simp only [JsonPathLookUp, Compile_scan k hk hstar, Compiled.Lookup, lookupLoop, lookupStep,
    outermostBoundTo]
  cases t with
  | null => exact absurd rfl ht
  | bool b => simp only [get_recursion, hs]
  | num n => simp only [get_recursion, hs]
  | str s => simp only [get_recursion, hs]
  | arr xs => simp only [get_recursion, hs]
  | obj m => simp only [get_recursion, hs]

/-- Witness for the amended C1: in `{"k":{"k":1},"a":[{"k":2}]}` the path `$..k`
returns the two outermost values. -/
theorem scan_lookup_outermost_witness :
    JsonPathLookUp sampleLib
        (.obj [("k", .obj [("k", .num 1)]), ("a", .arr [.obj [("k", .num 2)]])]) ("$.." ++ "k") =
      .ok (.arr [.obj [("k", .num 1)], .num 2]) :=
  scan_lookup_outermost sampleLib
    (.obj [("k", .obj [("k", .num 1)]), ("a", .arr [.obj [("k", .num 2)]])]) "k"
    (by decide) (by decide) (by decide)

/-- C1 as stated fails: in `{"k":{"k":1}}` the entries named `k` have the values
`{"k":1}` and `1`, but `$..k` returns only `{"k":1}`. -/
theorem scan_lookup_skips_nested :
    boundTo "k" (.obj [("k", .obj [("k", .num 1)])]) = [.obj [("k", .num 1)], .num 1] ∧
      JsonPathLookUp sampleLib (.obj [("k", .obj [("k", .num 1)])]) "$..k" =
        .ok (.arr [.obj [("k", .num 1)]]) ∧
      JsonPathLookUp sampleLib (.obj [("k", .obj [("k", .num 1)])]) "$..k" ≠
        .ok (.arr (boundTo "k" (.obj [("k", .obj [("k", .num 1)])]))) := by
  decide


/-! ## Masking rules -/

theorem maskFrom_getElem? (start size : Nat) (cs : List Char) (i j : Nat) :
    (maskFrom start size i cs)[j]? =
      (cs[j]?).map fun c => if start ≤ i + j ∧ i + j < start + size then '*' else c := by
  induction cs generalizing i j with
  | nil => simp [maskFrom]
  | cons c rest ih =>
    cases j with
    | zero => simp [maskFrom]
    | succ j =>
      simp only [maskFrom, List.getElem?_cons_succ, ih]
      have : i + 1 + j = i + (j + 1) := by omega
      rw [this]

theorem maskRunes_getElem? (value : List Char) (c : Char) (start stop j : Nat) :
    (maskRunes value c start stop)[j]? =
      (value[j]?).map fun x => if start ≤ j ∧ j < stop then c else x := by
  unfold maskRunes
  have key : ∀ n, ((List.range n).foldl (fun v i => v.set (start + i) c) value)[j]? =
      (value[j]?).map fun x => if start ≤ j ∧ j < start + n then c else x := by
    intro n
    induction n with
    | zero =>
      simp only [List.range_zero, List.foldl_nil, Nat.add_zero]
      cases value[j]? with
      | none => rfl
      | some x =>
        simp only [Option.map_some', Option.some.injEq]
        rw [if_neg (by omega)]
    | succ n ih =>
      rw [List.range_succ, List.foldl_append]
      simp only [List.foldl_cons, List.foldl_nil]
      rw [List.getElem?_set', ih]
      by_cases hj : start + n = j
      · subst hj
        rw [if_pos rfl]
        cases value[start + n]? with
        | none => rfl
        | some x =>
          simp only [Option.map_some', Option.map_eq_map, Function.const, Option.some.injEq]
          rw [if_pos (by omega)]
      · rw [if_neg hj]
        cases value[j]? with
        | none => rfl
        | some x =>
          simp only [Option.map_some', Option.some.injEq]
          by_cases h1 : start ≤ j ∧ j < start + n
          · rw [if_pos h1, if_pos (by omega)]
          · rw [if_neg h1, if_neg (by omega)]
  by_cases h : start ≤ stop
  · have := key (stop - start)
    rw [Nat.add_sub_cancel' h] at this
    exact this
  · have h0 : stop - start = 0 := by omega
    rw [h0]
    simp only [List.range_zero, List.foldl_nil]
    cases value[j]? with
    | none => rfl
    | some x =>
      simp only [Option.map_some', Option.some.injEq]
      rw [if_neg (by omega)]

theorem maskRunes_eq_maskWindow (value : List Char) (start stop : Nat) (h : start ≤ stop) :
    maskRunes value '*' start stop = maskWindow start (stop - start) value := by
  apply List.ext_getElem?
  intro j
  rw [maskRunes_getElem?, maskWindow, maskFrom_getElem?]
  simp only [Nat.zero_add, Nat.add_sub_cancel' h]

theorem maskFrom_length (start size : Nat) (cs : List Char) (i : Nat) :
    (maskFrom start size i cs).length = cs.length := by
  induction cs generalizing i with
  | nil => rfl
  | cons c rest ih => simp [maskFrom, ih]

theorem byteLen_of_single (cs : List Char) (h : ∀ c ∈ cs, c.utf8Size = 1) :
    byteLen cs = cs.length := by
  induction cs with
  | nil => rfl
  | cons c rest ih =>
    have h1 := h c (List.mem_cons_self _ _)
    have h2 := ih (fun d hd => h d (List.mem_cons_of_mem _ hd))
    simp only [byteLen, List.map_cons, List.sum_cons, List.length_cons] at *
    omega

theorem setKey_same (k : String) (v : JVal) (m : JMap) (h : lookupKey k m = some v) :
    setKey k v m = m := by
  induction m with
  | nil => simp [lookupKey] at h
  | cons e rest ih =>
    obtain ⟨k2, w⟩ := e
    by_cases hk : k2 = k
    · simp only [lookupKey, if_pos hk, Option.some.injEq] at h
      simp only [setKey, if_pos hk, h]
    · simp only [lookupKey, if_neg hk] at h
      simp only [setKey, if_neg hk, ih h]

theorem handle_desensitization_star (m : JMap) (k v : String) (start : Nat) (size : Int)
    (hv : lookupKey k m = some (.str v)) :
    handle_desensitization m k ⟨"*", (start : Int), size⟩ =
      if start > v.data.length then (m, some .startPos)
      else (setKey k (.str ⟨maskWindow start size.toNat v.data⟩) m, none) := by
  have hstar : ("*" : String).data = ['*'] := rfl
  simp only [handle_desensitization, hv, hstar]
  by_cases h1 : start > v.data.length
  · rw [if_pos (by omega), if_pos h1]
  · rw [if_neg (by omega), if_neg h1]
    have hwin : ∀ stop : Nat, (∀ j, j < v.data.length →
        ((start ≤ j ∧ j < stop) ↔ (start ≤ j ∧ j < start + size.toNat))) →
        maskRunes v.data '*' start stop = maskWindow start size.toNat v.data := by
      intro stop hstop
      apply List.ext_getElem?
      intro j
      rw [maskRunes_getElem?, maskWindow, maskFrom_getElem?]
      cases hj : v.data[j]? with
      | none => rfl
      | some x =>
        have hlt : j < v.data.length := (List.getElem?_eq_some_iff.mp hj).1
        simp only [Option.map_some', Nat.zero_add, Option.some.injEq]
        by_cases hc : start ≤ j ∧ j < stop
        · rw [if_pos hc, if_pos ((hstop j hlt).mp hc)]
        · rw [if_neg hc, if_neg (fun h => hc ((hstop j hlt).mpr h))]
    by_cases h2 : (start : Int) < min ((start : Int) + size) (v.data.length : Int)
    · rw [if_pos h2, if_neg (by omega)]
      have h3 := hwin (min ((start : Int) + size) (v.data.length : Int)).toNat
        (fun j hj => by omega)
      simp only [Int.toNat_ofNat, h3]
    · rw [if_neg h2]
      have h3 := hwin start (fun j hj => by omega)
      have h4 : maskRunes v.data '*' start start = v.data := by
        simp [maskRunes]
      rw [← h3, h4]

/-- C18: `phoneDesensitization` on a mapping that binds `k` to a string `v` of `n`
single-byte characters.  For `n = 11` the characters 3..6 become `*`, for `n = 12` the
characters 4..7, for `n = 6` or `n = 7` the characters 1..4; the other characters and
the length stay.  For `n ≤ 5` the call succeeds and the mapping is unchanged; for every
other `n` it fails with the phone-number error and the mapping is unchanged.  The
number `13800001111` becomes `138****1111`. -/
theorem phoneDesensitization_spec (m : JMap) (k v : String)
    (hv : lookupKey k m = some (.str v)) (hbyte : ∀ c ∈ v.data, c.utf8Size = 1) :
    (v.data.length = 11 →
        phoneDesensitization m k = (setKey k (.str ⟨maskWindow 3 4 v.data⟩) m, none)) ∧
      (v.data.length = 12 →
        phoneDesensitization m k = (setKey k (.str ⟨maskWindow 4 4 v.data⟩) m, none)) ∧
      (v.data.length = 6 ∨ v.data.length = 7 →
        phoneDesensitization m k = (setKey k (.str ⟨maskWindow 1 4 v.data⟩) m, none)) ∧
      (v.data.length ≤ 5 → phoneDesensitization m k = (m, none)) ∧
      ((8 ≤ v.data.length ∧ v.data.length ≤ 10) ∨ 13 ≤ v.data.length →
        phoneDesensitization m k = (m, some .phoneNumber)) ∧
      (∀ start size : Nat, (maskWindow start size v.data).length = v.data.length ∧
        ∀ i, (maskWindow start size v.data)[i]? =
          (v.data[i]?).map fun c => if start ≤ i ∧ i < start + size then '*' else c) ∧
      phoneDesensitization [("phone", .str "13800001111")] "phone" =
        ([("phone", .str "138****1111")], none) := by
  have hlen := byteLen_of_single v.data hbyte
  have h3 := handle_desensitization_star m k v 3 4 hv
  have h4 := handle_desensitization_star m k v 4 4 hv
  have h1 := handle_desensitization_star m k v 1 4 hv
  simp only [Nat.cast_ofNat, Nat.cast_one] at h1 h3 h4
  refine ⟨?_, ?_, ?_, ?_, ?_, ?_, by decide⟩
  · intro hn
    simp only [phoneDesensitization, hv, hlen]
    rw [if_pos hn, h3, if_neg (by omega)]
    rfl
  · intro hn
    simp only [phoneDesensitization, hv, hlen]
    rw [if_neg (by omega), if_pos hn, h4, if_neg (by omega)]
    rfl
  · intro hn
    simp only [phoneDesensitization, hv, hlen]
    rw [if_neg (by omega), if_neg (by omega), if_pos (by omega), h1, if_neg (by omega)]
    rfl
  · intro hn
    simp only [phoneDesensitization, hv, hlen]
    rw [if_neg (by omega), if_neg (by omega), if_neg (by omega), if_pos hn]
  · intro hn
    simp only [phoneDesensitization, hv, hlen]
    rw [if_neg (by omega), if_neg (by omega), if_neg (by omega), if_neg (by omega)]
  · intro start size
    refine ⟨maskFrom_length _ _ _ _, fun i => ?_⟩
    rw [maskWindow, maskFrom_getElem?]
    simp only [Nat.zero_add]

/-- Witness for C18: a phone number of eleven digits. -/
theorem phoneDesensitization_spec_witness :
    phoneDesensitization [("phone", .str "13800001111")] "phone" =
      (setKey "phone" (.str ⟨maskWindow 3 4 "13800001111".data⟩)
        [("phone", .str "13800001111")], none) :=
  (phoneDesensitization_spec [("phone", .str "13800001111")] "phone" "13800001111" rfl
    (by decide)).1 (by decide)

theorem maskWindow_zero (start : Nat) (cs : List Char) : maskWindow start 0 cs = cs := by
  apply List.ext_getElem?
  intro j
  rw [maskWindow, maskFrom_getElem?]
  cases cs[j]? with
  | none => rfl
  | some x =>
    simp only [Option.map_some', Option.some.injEq]
    rw [if_neg (by omega)]

/-- C19: `nameDesensitization` on a mapping that binds `k` to a string `v` of `n` code
points.  For `n = 2` the second code point becomes `*`; for `n ≥ 3` the code points at
positions 1..n-2 become `*` and the first and the last stay; for `n = 1` the value is
unchanged; for `n = 0` the call fails with the start-position error.  A masked string
has the `n` code points of `v`, unchanged outside the window. -/
theorem nameDesensitization_spec (m : JMap) (k v : String)
    (hv : lookupKey k m = some (.str v)) :
    (v.data.length = 2 →
        nameDesensitization m k = (setKey k (.str ⟨maskWindow 1 1 v.data⟩) m, none)) ∧
      (3 ≤ v.data.length →
        nameDesensitization m k =
          (setKey k (.str ⟨maskWindow 1 (v.data.length - 2) v.data⟩) m, none)) ∧
      (v.data.length = 1 → nameDesensitization m k = (m, none)) ∧
      (v.data.length = 0 → nameDesensitization m k = (m, some .startPos)) ∧
      (∀ start size : Nat, (maskWindow start size v.data).length = v.data.length ∧
        ∀ i, (maskWindow start size v.data)[i]? =
          (v.data[i]?).map fun c => if start ≤ i ∧ i < start + size then '*' else c) := by
  have h1 := handle_desensitization_star m k v 1 1 hv
  have h2 := handle_desensitization_star m k v 1 ((v.data.length : Int) - 2) hv
  simp only [Nat.cast_one] at h1 h2
  refine ⟨?_, ?_, ?_, ?_, ?_⟩
  · intro hn
    simp only [nameDesensitization, hv]
    rw [if_pos (by omega), h1, if_neg (by omega)]
    rfl
  · intro hn
    simp only [nameDesensitization, hv]
    rw [if_neg (by omega), h2, if_neg (by omega)]
    have : ((v.data.length : Int) - 2).toNat = v.data.length - 2 := by omega
    rw [this]
  · intro hn
    simp only [nameDesensitization, hv]
    rw [if_neg (by omega), h2, if_neg (by omega)]
    have : ((v.data.length : Int) - 2).toNat = 0 := by omega
    rw [this, maskWindow_zero, setKey_same k _ m hv]
  · intro hn
    simp only [nameDesensitization, hv]
    rw [if_neg (by omega), h2, if_pos (by omega)]
  · intro start size
    refine ⟨maskFrom_length _ _ _ _, fun i => ?_⟩
    rw [maskWindow, maskFrom_getElem?]
    simp only [Nat.zero_add]

/-- Witness for C19: a name of three code points keeps the first and the last. -/
theorem nameDesensitization_spec_witness :
    nameDesensitization [("name", .str "张三丰")] "name" =
      (setKey "name" (.str ⟨maskWindow 1 (3 - 2) "张三丰".data⟩) [("name", .str "张三丰")],
        none) :=
  (nameDesensitization_spec [("name", .str "张三丰")] "name" "张三丰" rfl).2.1 (by decide)


/-! ## The last step on sequences, indices and filters -/

theorem operate_keyElems_all (reg : Registry) (k rule : String) (ms : List JMap)
    (h : ∀ m ∈ ms, lookupKey k m ≠ none) :
    operate_keyElems reg (ms.map JVal.obj) k .fieldControl rule =
      (ms.map fun m => JVal.obj (m.filter fun e => decide (e.1 ≠ k)), none) := by
  induction ms with
  | nil => rfl
  | cons m rest ih =>
    have hm := h m (List.mem_cons_self _ _)
    have hrest := ih (fun x hx => h x (List.mem_cons_of_mem _ hx))
    have h1 : operate_key reg (.obj m) k .fieldControl rule =
        (.obj (m.filter fun e => decide (e.1 ≠ k)), none) := by
      rw [operate_key, ← deleteKey_eq_filter]
      cases hl : lookupKey k m with
      | none => exact absurd hl hm
      | some v => rfl
    simp only [List.map_cons]
    rw [operate_keyElems]
    simp only [h1, hrest]

theorem operate_keyElems_first_missing (reg : Registry) (k rule : String)
    (pre : List JMap) (m : JMap) (post : List JMap)
    (hpre : ∀ x ∈ pre, lookupKey k x ≠ none) (hm : lookupKey k m = none) :
    operate_keyElems reg ((pre ++ m :: post).map JVal.obj) k .fieldControl rule =
      ((pre.map fun x => JVal.obj (x.filter fun e => decide (e.1 ≠ k))) ++
        JVal.obj m :: post.map JVal.obj, some (.keyNotFound k)) := by
  induction pre with
  | nil =>
    have h1 : operate_key reg (.obj m) k .fieldControl rule =
        (.obj m, some (.keyNotFound k)) := by
      rw [operate_key, hm]
    simp only [List.nil_append, List.map_cons, List.map_nil]
    rw [operate_keyElems]
    simp only [h1]
  | cons x rest ih =>
    have hx := hpre x (List.mem_cons_self _ _)
    have hrest := ih (fun y hy => hpre y (List.mem_cons_of_mem _ hy))
    have h1 : operate_key reg (.obj x) k .fieldControl rule =
        (.obj (x.filter fun e => decide (e.1 ≠ k)), none) := by
      rw [operate_key, ← deleteKey_eq_filter]
      cases hl : lookupKey k x with
      | none => exact absurd hl hx
      | some v => rfl
    simp only [List.cons_append, List.map_cons]
    rw [operate_keyElems]
    simp only [h1, hrest]

/-- The loop of `operate_key` over a sequence of mappings in delete mode, on every
input.  When every element binds `k` the call succeeds and `k` is removed from every
element.  When some element does not bind `k` the loop returns at the first such element
with its key-not-found error: `k` is already removed from the elements before it, and
that element and the elements after it are as they were. -/
theorem operate_key_delete_sequence (reg : Registry) (k rule : String) :
    (∀ ms : List JMap, (∀ m ∈ ms, lookupKey k m ≠ none) →
        operate_key reg (.arr (ms.map JVal.obj)) k .fieldControl rule =
          (.arr (ms.map fun m => JVal.obj (m.filter fun e => decide (e.1 ≠ k))), none)) ∧
      (∀ (pre : List JMap) (m : JMap) (post : List JMap),
        (∀ x ∈ pre, lookupKey k x ≠ none) → lookupKey k m = none →
        operate_key reg (.arr ((pre ++ m :: post).map JVal.obj)) k .fieldControl rule =
          (.arr ((pre.map fun x => JVal.obj (x.filter fun e => decide (e.1 ≠ k))) ++
            JVal.obj m :: post.map JVal.obj), some (.keyNotFound k))) := by
  constructor
  · intro ms h
    simp only [operate_key, operate_keyElems_all reg k rule ms h]
  · intro pre m post hpre hm
    simp only [operate_key, operate_keyElems_first_missing reg k rule pre m post hpre hm]

/-- The loop on `[{"k":1},{"a":2},{"k":3}]`: the second element does not bind `k`; the
first loses `k`, the call fails, the third keeps `k`. -/
theorem operate_key_delete_sequence_witness :
    operate_key emptyRegistry
        (.arr [.obj [("k", .num 1)], .obj [("a", .num 2)], .obj [("k", .num 3)]]) "k"
        .fieldControl "" =
      (.arr [.obj [], .obj [("a", .num 2)], .obj [("k", .num 3)]], some (.keyNotFound "k")) :=
  (operate_key_delete_sequence emptyRegistry "k" "").2 [[("k", .num 1)]] [("a", .num 2)]
    [[("k", .num 3)]] (by decide) (by decide)

/-- C14 (the code at the failing input): in `{"s":[{"k":1},{"a":2},{"k":3}]}` the
second element of the sequence does not bind `k`.  `Lookup` of `$.s.k` skips that element
and returns `[1,3]`.  In delete mode the same path removes `k` from the first element,
returns the key-not-found error of the second and leaves `k` in the third: the call
fails with the deletion half applied, where the claim says that it succeeds with `k`
removed from the first and the third element. -/
theorem operate_key_sequence_stops_at_missing :
    JsonPathLookUp sampleLib
        (.obj [("s", .arr [.obj [("k", .num 1)], .obj [("a", .num 2)], .obj [("k", .num 3)]])])
        "$.s.k" = .ok (.arr [.num 1, .num 3]) ∧
      JsonPathLookUpAndDel sampleLib emptyRegistry
        (.obj [("s", .arr [.obj [("k", .num 1)], .obj [("a", .num 2)], .obj [("k", .num 3)]])])
        "$.s.k" =
      (.obj [("s", .arr [.obj [], .obj [("a", .num 2)], .obj [("k", .num 3)]])],
        some (.keyNotFound "k")) ∧
      operate_key emptyRegistry
        (.arr [.obj [("k", .num 1)], .obj [("a", .num 2)], .obj [("k", .num 3)]]) "k"
        .fieldControl "" =
      (.arr [.obj [], .obj [("a", .num 2)], .obj [("k", .num 3)]], some (.keyNotFound "k")) ∧
      operate_key emptyRegistry
        (.arr [.obj [("k", .num 1)], .obj [("a", .num 2)], .obj [("k", .num 3)]]) "k"
        .fieldControl "" ≠
      (.arr [.obj [], .obj [("a", .num 2)], .obj []], none) := by
  decide

/-- C15 (the code at the failing input): on `{"a":[1,2,3]}` the path `$.a[-1]` looks up
the last element 3, but in delete mode it removes nothing and reports no error. -/
theorem operate_idx_ignores_negative :
    JsonPathLookUp sampleLib (.obj [("a", .arr [.num 1, .num 2, .num 3])]) "$.a[-1]" =
        .ok (.num 3) ∧
      JsonPathLookUpAndDel sampleLib emptyRegistry
        (.obj [("a", .arr [.num 1, .num 2, .num 3])]) "$.a[-1]" =
        (.obj [("a", .arr [.num 1, .num 2, .num 3])], none) ∧
      operate_idx (.obj [("a", .arr [.num 1, .num 2, .num 3])]) "a" (.idx [-1]) .fieldControl
        "" = (.obj [("a", .arr [.num 1, .num 2, .num 3])], none) := by
  decide

/-- C16 (the code at the failing input): in redact mode the path `$.a[0]` on
`{"a":["13800001111"]}` returns no error, and the value is unchanged. -/
theorem operate_idx_redact_returns_no_error :
    JsonPathLookUpAndDesensitization sampleLib sampleRegistry
        (.obj [("a", .arr [.str "13800001111"])]) "$.a[0]" "phone" =
        (.obj [("a", .arr [.str "13800001111"])], none) ∧
      operate_idx (.obj [("a", .arr [.str "13800001111"])]) "a" (.idx [0]) .desensitization
        "phone" = (.obj [("a", .arr [.str "13800001111"])], none) := by
  decide

/-- C20 (the code at the failing inputs): `JsonPathLookUp` panics on the empty path for
every value (`tokens[0]` of an empty slice), on the path `$..*` (the token after `*` is
missing) and, for a `null` inside the tree, on a recursive descent. -/
theorem JsonPathLookUp_panics (lib : GoLib) (v : JVal) :
    JsonPathLookUp lib v "" = .error .panic ∧
      JsonPathLookUp lib v "$..*" = .error .panic ∧
      JsonPathLookUp lib (.obj [("a", .null)]) "$..k" = .error .panic := by
  refine ⟨rfl, rfl, rfl⟩

/-- C12 (the code at the failing inputs): the counter is not set back to 0 between two
positions of the list.  On four mappings binding `k`, `$..k[1,3]` in delete mode
removes the occurrences 1 and 2 and keeps the occurrence 3; on three names,
`$..name[0,2]` in redact mode masks the occurrences 0 and 1 and not the occurrence 2. -/
theorem scan_index_list_shifts :
    JsonPathLookUpAndDel sampleLib sampleRegistry
        (.arr [.obj [("k", .str "a")], .obj [("k", .str "b")], .obj [("k", .str "c")],
          .obj [("k", .str "d")]]) "$..k[1,3]" =
        (.arr [.obj [("k", .str "a")], .obj [], .obj [], .obj [("k", .str "d")]], none) ∧
      JsonPathLookUpAndDesensitization sampleLib sampleRegistry
        (.arr [.obj [("name", .str "张三")], .obj [("name", .str "李四")],
          .obj [("name", .str "王五")]]) "$..name[0,2]" "name" =
        (.arr [.obj [("name", .str "张*")], .obj [("name", .str "李*")],
          .obj [("name", .str "王五")]], none) := by
  decide


/-! ## The walk with a counter -/

mutual
theorem recursion_del_eq_windowWalk (key : String) (left right : Int) :
    ∀ (obj : JVal) (curr : Int),
      recursion_del obj key left right curr = windowWalk deleteHit obj key left right curr
  | .null, curr => by rw [recursion_del, windowWalk]
  | .bool _, curr => by simp only [recursion_del, windowWalk]
  | .num _, curr => by simp only [recursion_del, windowWalk]
  | .str _, curr => by simp only [recursion_del, windowWalk]
  | .arr xs, curr => by
    rw [recursion_del, windowWalk, recursion_delElems_eq key left right xs curr]
  | .obj m, curr => by
    rw [recursion_del, windowWalk, recursion_delEntries_eq key left right m curr]
theorem recursion_delElems_eq (key : String) (left right : Int) :
    ∀ (xs : List JVal) (curr : Int),
      recursion_delElems xs key left right curr =
        windowWalkElems deleteHit xs key left right curr
  | [], curr => by rw [recursion_delElems, windowWalkElems]
  | x :: rest, curr => by
    rw [recursion_delElems, windowWalkElems, recursion_del_eq_windowWalk key left right x curr]
    simp only [recursion_delElems_eq key left right rest]
theorem recursion_delEntries_eq (key : String) (left right : Int) :
    ∀ (m : List (String × JVal)) (curr : Int),
      recursion_delEntries m key left right curr =
        windowWalkEntries deleteHit m key left right curr
  | [], curr => by rw [recursion_delEntries, windowWalkEntries]
  | (k, v) :: rest, curr => by
    rw [recursion_delEntries, windowWalkEntries, recursion_del_eq_windowWalk key left right v curr]
    simp only [recursion_delEntries_eq key left right rest, deleteHit]
end

theorem lookupKey_append_of_not_mem (key : String) (done m : JMap)
    (h : key ∉ done.map Prod.fst) : lookupKey key (done ++ m) = lookupKey key m := by
  induction done with
  | nil => rfl
  | cons e rest ih =>
    obtain ⟨k, v⟩ := e
    simp only [List.map_cons, List.mem_cons, not_or] at h
    have hk : ¬ k = key := fun h' => h.1 h'.symm
    rw [List.cons_append, lookupKey, if_neg hk]
    exact ih h.2

theorem lookupKey_setKey_eq (key : String) (v : JVal) (m : JMap) :
    lookupKey key (setKey key v m) = some v := by
  induction m with
  | nil => simp [setKey, lookupKey]
  | cons e rest ih =>
    obtain ⟨k, w⟩ := e
    by_cases hk : k = key
    · simp only [setKey, if_pos hk, lookupKey]
    · simp only [setKey, if_neg hk, lookupKey, ih]

mutual
theorem recursion_desensitization_eq_windowWalk (reg : Registry) (rule : String) (f : Handler)
    (g : JVal → Except Err JVal) (hreg : reg rule = some f) (hf : ValueRule f g)
    (key : String) (left right : Int) :
    ∀ (obj : JVal) (curr : Int), uniqueKeys obj = true →
      recursion_desensitization reg obj key left right rule curr =
        windowWalk (ruleHit g) obj key left right curr
  | .null, curr, _ => by rw [recursion_desensitization, windowWalk]
  | .bool _, curr, _ => by simp only [recursion_desensitization, windowWalk]
  | .num _, curr, _ => by simp only [recursion_desensitization, windowWalk]
  | .str _, curr, _ => by simp only [recursion_desensitization, windowWalk]
  | .arr xs, curr, hu => by
    simp only [uniqueKeys] at hu
    rw [recursion_desensitization, windowWalk,
      recursion_desensitizationElems_eq reg rule f g hreg hf key left right xs curr hu]
  | .obj m, curr, hu => by
    simp only [uniqueKeys, Bool.and_eq_true, decide_eq_true_eq] at hu
    have h := recursion_desensitizationEntries_eq reg rule f g hreg hf key left right m []
      curr hu.1 hu.2 (fun _ => by simp)
    rw [recursion_desensitization, windowWalk, h]
    simp only [List.nil_append]
theorem recursion_desensitizationElems_eq (reg : Registry) (rule : String) (f : Handler)
    (g : JVal → Except Err JVal) (hreg : reg rule = some f) (hf : ValueRule f g)
    (key : String) (left right : Int) :
    ∀ (xs : List JVal) (curr : Int), uniqueKeysElems xs = true →
      recursion_desensitizationElems reg xs key left right rule curr =
        windowWalkElems (ruleHit g) xs key left right curr
  | [], curr, _ => by rw [recursion_desensitizationElems, windowWalkElems]
  | x :: rest, curr, hu => by
    simp only [uniqueKeysElems, Bool.and_eq_true] at hu
    rw [recursion_desensitizationElems, windowWalkElems,
      recursion_desensitization_eq_windowWalk reg rule f g hreg hf key left right x curr hu.1]
    simp only [recursion_desensitizationElems_eq reg rule f g hreg hf key left right rest _ hu.2]
theorem recursion_desensitizationEntries_eq (reg : Registry) (rule : String) (f : Handler)
    (g : JVal → Except Err JVal) (hreg : reg rule = some f) (hf : ValueRule f g)
    (key : String) (left right : Int) :
    ∀ (m done : List (String × JVal)) (curr : Int), (m.map Prod.fst).Nodup →
      uniqueKeysEntries m = true → (key ∈ m.map Prod.fst → key ∉ done.map Prod.fst) →
      recursion_desensitizationEntries reg done m key left right rule curr =
        (done ++ (windowWalkEntries (ruleHit g) m key left right curr).1,
          (windowWalkEntries (ruleHit g) m key left right curr).2)
  | [], done, curr, _, _, _ => by
    rw [recursion_desensitizationEntries, windowWalkEntries]
    simp
  | (k, v) :: rest, done, curr, hnd, hu, hdone => by
    simp only [List.map_cons, List.nodup_cons] at hnd
    simp only [uniqueKeysEntries, Bool.and_eq_true] at hu
    rw [recursion_desensitizationEntries, windowWalkEntries]
    by_cases hk : k = key
    · subst hk
      have hnone : k ∉ (done.map Prod.fst) := hdone (by simp)
      have hvac : ∀ d : List (String × JVal),
          k ∈ rest.map Prod.fst → k ∉ d.map Prod.fst := fun d h => absurd h hnd.1
      simp only [if_true]
      by_cases h1 : curr < left
      · simp only [if_pos h1]
        rw [recursion_desensitizationEntries_eq reg rule f g hreg hf k left right rest _ _
          hnd.2 hu.2 (hvac _)]
        simp
      · simp only [if_neg h1]
        by_cases h2 : curr ≤ right
        · simp only [if_pos h2, hreg]
          have hl : lookupKey k (done ++ (k, v) :: rest) = some v := by
            rw [lookupKey_append_of_not_mem k done _ hnone]
            simp [lookupKey]
          have hfv := hf (done ++ (k, v) :: rest) k v hl
          cases hg : g v with
          | error e =>
            rw [hg] at hfv
            simp only [hfv, ruleHit, hg]
          | ok w =>
            rw [hg] at hfv
            simp only [hfv, ruleHit, hg, lookupKey_setKey_eq, Option.getD_some]
            rw [recursion_desensitizationEntries_eq reg rule f g hreg hf k left right rest _ _
              hnd.2 hu.2 (hvac _)]
            simp
        · simp only [if_neg h2]
    · simp only [if_neg hk]
      rw [recursion_desensitization_eq_windowWalk reg rule f g hreg hf key left right v curr hu.1]
      have hd2 : ∀ w : JVal, key ∈ rest.map Prod.fst → key ∉ (done ++ [(k, w)]).map Prod.fst := by
        intro w hin
        have h0 := hdone (by simp [hin])
        simp only [List.map_append, List.map_cons, List.map_nil, List.mem_append,
          List.mem_singleton, not_or]
        exact ⟨h0, fun h => hk h.symm⟩
      cases he : (windowWalk (ruleHit g) v key left right curr).2.2 with
      | some e => simp
      | none =>
        simp only []
        rw [recursion_desensitizationEntries_eq reg rule f g hreg hf key left right rest _ _
          hnd.2 hu.2 (hd2 _)]
        simp
end

theorem filter_matched (k : String) (p : List Seg) (x : JVal) (hp : Seg.key k ∉ p) :
    (subvalues (p ++ [Seg.key k]) x).filter (isOutermost k) = [(p ++ [Seg.key k], x)] := by
  obtain ⟨tl, htl, hbelow⟩ := subvalues_cons (p ++ [Seg.key k]) x
  have hnil : tl.filter (isOutermost k) = [] := by
    rw [List.filter_eq_nil_iff]
    intro e he
    obtain ⟨seg, hseg⟩ := hbelow e he
    rw [isOutermost_below k _ seg e (List.mem_append_right _ (List.mem_singleton_self _)) hseg]
    simp
  rw [htl, List.filter_cons, isOutermost_entry k p x hp, if_pos rfl, hnil]

theorem occ_obj (k : String) (p : List Seg) (m : List (String × JVal)) (hp : Seg.key k ∉ p) :
    occ k p (.obj m) = occEntries k p m := by
  simp [occ, occEntries, subvalues, List.filter_cons, isOutermost_at k p _ hp]

theorem occ_arr (k : String) (p : List Seg) (xs : List JVal) (hp : Seg.key k ∉ p) :
    occ k p (.arr xs) = occElems k p 0 xs := by
  simp [occ, occElems, subvalues, List.filter_cons, isOutermost_at k p _ hp]

theorem occEntries_cons (k : String) (p : List Seg) (k2 : String) (x : JVal)
    (rest : List (String × JVal)) :
    occEntries k p ((k2, x) :: rest) = occ k (p ++ [Seg.key k2]) x ++ occEntries k p rest := by
  simp [occ, occEntries, subvaluesEntries, List.filter_append]

theorem occElems_cons (k : String) (p : List Seg) (i : Nat) (x : JVal) (rest : List JVal) :
    occElems k p i (x :: rest) = occ k (p ++ [Seg.idx i]) x ++ occElems k p (i + 1) rest := by
  simp [occ, occElems, subvaluesElems, List.filter_append]

theorem occ_matched (k : String) (p : List Seg) (x : JVal) (hp : Seg.key k ∉ p) :
    occ k (p ++ [Seg.key k]) x = [(p ++ [Seg.key k], x)] :=
  filter_matched k p x hp

theorem rewriteFrom_append (f : JVal → Option JVal) (left right : Int) (c : Int)
    (A B : List (List Seg × JVal)) :
    rewriteFrom f left right c (A ++ B) =
      rewriteFrom f left right c A ++ rewriteFrom f left right (c + A.length) B := by
  induction A generalizing c with
  | nil => simp [rewriteFrom]
  | cons e rest ih =>
    have : c + 1 + (rest.length : Int) = c + ((rest.length : Int) + 1) := by omega
    simp only [List.cons_append, rewriteFrom, List.append_eq, ih, List.append_assoc,
      List.length_cons, Nat.cast_add, Nat.cast_one, this]

theorem rewriteFrom_out (f : JVal → Option JVal) (left right : Int) (c : Int)
    (L : List (List Seg × JVal)) (h : c > right) : rewriteFrom f left right c L = L := by
  induction L generalizing c with
  | nil => rfl
  | cons e rest ih =>
    rw [rewriteFrom, if_neg (by omega), ih (c + 1) (by omega)]
    rfl

theorem HitsOk_append (hit : Hit) (left right : Int) (c : Int)
    (A B : List (List Seg × JVal)) :
    HitsOk hit left right c (A ++ B) ↔
      HitsOk hit left right c A ∧ HitsOk hit left right (c + A.length) B := by
  induction A generalizing c with
  | nil => simp [HitsOk]
  | cons e rest ih =>
    have : c + 1 + (rest.length : Int) = c + ((rest.length : Int) + 1) := by omega
    simp only [List.cons_append, HitsOk, List.append_eq, ih, List.length_cons, Nat.cast_add,
      Nat.cast_one, this, and_assoc]

theorem HitsOk_out (hit : Hit) (left right : Int) (c : Int) (L : List (List Seg × JVal))
    (h : c > right) : HitsOk hit left right c L := by
  induction L generalizing c with
  | nil => trivial
  | cons e rest ih =>
    exact ⟨fun hw => absurd hw.2 (by omega), ih (c + 1) (by omega)⟩

theorem HitsOk_sat (hit : Hit) (left right c c1 : Int) (n : Nat)
    (L : List (List Seg × JVal)) (hs : CounterAfter right c n c1)
    (h : HitsOk hit left right (c + n) L) : HitsOk hit left right c1 L := by
  rcases hs with hs | hs
  · rw [hs]; exact h
  · exact HitsOk_out hit left right c1 L hs.1

theorem rewriteFrom_sat (f : JVal → Option JVal) (left right c c1 : Int) (n : Nat)
    (L : List (List Seg × JVal)) (hs : CounterAfter right c n c1) :
    rewriteFrom f left right c1 L = rewriteFrom f left right (c + n) L := by
  rcases hs with hs | hs
  · rw [hs]
  · rw [rewriteFrom_out f left right c1 L hs.1, rewriteFrom_out f left right _ L hs.2]

theorem CounterAfter_trans (right c c1 c2 : Int) (n1 n2 : Nat)
    (h1 : CounterAfter right c n1 c1) (h2 : CounterAfter right c1 n2 c2) :
    CounterAfter right c (n1 + n2) c2 := by
  unfold CounterAfter at *
  push_cast
  omega

theorem CounterAfter_stay (right c : Int) (n : Nat) (h : c > right) :
    CounterAfter right c n c := by
  unfold CounterAfter
  omega

theorem windowWalk_out (hit : Hit) (v : JVal) (k : String) (l r c : Int) (h : c > r) :
    windowWalk hit v k l r c = (v, c, none) := by
  rw [windowWalk.eq_def, if_pos h]

theorem occ_of_leaf (k : String) (p : List Seg) (v : JVal) (hp : Seg.key k ∉ p)
    (h : subvalues p v = [(p, v)]) : occ k p v = [] := by
  simp [occ, h, List.filter_cons, isOutermost_at k p _ hp]

mutual
theorem windowWalk_spec (hit : Hit) (k : String) (l r : Int) :
    ∀ (v : JVal) (p : List Seg) (c : Int), Seg.key k ∉ p →
      (∀ e ∈ subvalues p v, Seg.key k ∉ e.1 → e.2 ≠ JVal.null) →
      HitsOk hit l r c (occ k p v) →
      (windowWalk hit v k l r c).2.2 = none ∧
        CounterAfter r c (occ k p v).length (windowWalk hit v k l r c).2.1 ∧
        occ k p (windowWalk hit v k l r c).1 = rewriteFrom (hitResult hit) l r c (occ k p v) ∧
        stripKey k (windowWalk hit v k l r c).1 = stripKey k v
  | .null, p, c, hp, hn, _ => by
    exact absurd rfl (hn (p, .null) (by simp [subvalues]) hp)
  | .bool b, p, c, hp, _, _ => by
    have ho := occ_of_leaf k p (.bool b) hp (by simp [subvalues])
    by_cases hc : c > r
    · rw [windowWalk_out hit _ k l r c hc, ho]
      exact ⟨rfl, CounterAfter_stay r c _ hc, rfl, rfl⟩
    · have hw : windowWalk hit (.bool b) k l r c = (.bool b, c, none) := by
        simp only [windowWalk, if_neg hc]
      rw [hw, ho]
      exact ⟨rfl, Or.inl (by simp), rfl, rfl⟩
  | .num n, p, c, hp, _, _ => by
    have ho := occ_of_leaf k p (.num n) hp (by simp [subvalues])
    by_cases hc : c > r
    · rw [windowWalk_out hit _ k l r c hc, ho]
      exact ⟨rfl, CounterAfter_stay r c _ hc, rfl, rfl⟩
    · have hw : windowWalk hit (.num n) k l r c = (.num n, c, none) := by
        simp only [windowWalk, if_neg hc]
      rw [hw, ho]
      exact ⟨rfl, Or.inl (by simp), rfl, rfl⟩
  | .str s, p, c, hp, _, _ => by
    have ho := occ_of_leaf k p (.str s) hp (by simp [subvalues])
    by_cases hc : c > r
    · rw [windowWalk_out hit _ k l r c hc, ho]
      exact ⟨rfl, CounterAfter_stay r c _ hc, rfl, rfl⟩
    · have hw : windowWalk hit (.str s) k l r c = (.str s, c, none) := by
        simp only [windowWalk, if_neg hc]
      rw [hw, ho]
      exact ⟨rfl, Or.inl (by simp), rfl, rfl⟩
  | .arr xs, p, c, hp, hn, hh => by
    by_cases hc : c > r
    · rw [windowWalk_out hit _ k l r c hc]
      exact ⟨rfl, CounterAfter_stay r c _ hc, (rewriteFrom_out _ l r c _ hc).symm, rfl⟩
    · rw [occ_arr k p xs hp] at hh ⊢
      obtain ⟨h1, h2, h3, h4⟩ := windowWalkElems_spec hit k l r xs p 0 c hp
        (fun e he => hn e (by simp [subvalues, he])) hh
      have hw : windowWalk hit (.arr xs) k l r c =
          (.arr (windowWalkElems hit xs k l r c).1, (windowWalkElems hit xs k l r c).2) := by
        rw [windowWalk, if_neg hc]
      rw [hw]
      exact ⟨h1, h2, by rw [occ_arr k p _ hp]; exact h3, by simp only [stripKey, h4]⟩
  | .obj m, p, c, hp, hn, hh => by
    by_cases hc : c > r
    · rw [windowWalk_out hit _ k l r c hc]
      exact ⟨rfl, CounterAfter_stay r c _ hc, (rewriteFrom_out _ l r c _ hc).symm, rfl⟩
    · rw [occ_obj k p m hp] at hh ⊢
      obtain ⟨h1, h2, h3, h4⟩ := windowWalkEntries_spec hit k l r m p c hp
        (fun e he => hn e (by simp [subvalues, he])) hh
      have hw : windowWalk hit (.obj m) k l r c =
          (.obj (windowWalkEntries hit m k l r c).1, (windowWalkEntries hit m k l r c).2) := by
        rw [windowWalk, if_neg hc]
      rw [hw]
      exact ⟨h1, h2, by rw [occ_obj k p _ hp]; exact h3, by simp only [stripKey, h4]⟩
theorem windowWalkElems_spec (hit : Hit) (k : String) (l r : Int) :
    ∀ (xs : List JVal) (p : List Seg) (i : Nat) (c : Int), Seg.key k ∉ p →
      (∀ e ∈ subvaluesElems p i xs, Seg.key k ∉ e.1 → e.2 ≠ JVal.null) →
      HitsOk hit l r c (occElems k p i xs) →
      (windowWalkElems hit xs k l r c).2.2 = none ∧
        CounterAfter r c (occElems k p i xs).length (windowWalkElems hit xs k l r c).2.1 ∧
        occElems k p i (windowWalkElems hit xs k l r c).1 =
          rewriteFrom (hitResult hit) l r c (occElems k p i xs) ∧
        stripKeyElems k (windowWalkElems hit xs k l r c).1 = stripKeyElems k xs
  | [], p, i, c, _, _, _ => by
    simp [windowWalkElems, occElems, subvaluesElems, rewriteFrom, CounterAfter, stripKeyElems]
  | x :: rest, p, i, c, hp, hn, hh => by
    have hp2 : Seg.key k ∉ p ++ [Seg.idx i] := by simp [hp]
    rw [occElems_cons] at hh ⊢
    rw [HitsOk_append] at hh
    obtain ⟨a1, a2, a3, a4⟩ := windowWalk_spec hit k l r x (p ++ [Seg.idx i]) c hp2
      (fun e he => hn e (by simp [subvaluesElems, he])) hh.1
    obtain ⟨b1, b2, b3, b4⟩ := windowWalkElems_spec hit k l r rest p (i + 1)
      (windowWalk hit x k l r c).2.1 hp
      (fun e he => hn e (by simp [subvaluesElems, he]))
      (HitsOk_sat hit l r c _ _ _ a2 hh.2)
    have hw : windowWalkElems hit (x :: rest) k l r c =
        ((windowWalk hit x k l r c).1 ::
          (windowWalkElems hit rest k l r (windowWalk hit x k l r c).2.1).1,
          (windowWalkElems hit rest k l r (windowWalk hit x k l r c).2.1).2) := by
      rw [windowWalkElems]
      simp only [a1]
    rw [hw]
    refine ⟨b1, ?_, ?_, ?_⟩
    · rw [List.length_append]
      exact CounterAfter_trans r c _ _ _ _ a2 b2
    · rw [occElems_cons, a3, b3, rewriteFrom_append, rewriteFrom_sat _ l r c _ _ _ a2]
    · simp only [stripKeyElems, a4, b4]
theorem windowWalkEntries_spec (hit : Hit) (k : String) (l r : Int) :
    ∀ (m : List (String × JVal)) (p : List Seg) (c : Int), Seg.key k ∉ p →
      (∀ e ∈ subvaluesEntries p m, Seg.key k ∉ e.1 → e.2 ≠ JVal.null) →
      HitsOk hit l r c (occEntries k p m) →
      (windowWalkEntries hit m k l r c).2.2 = none ∧
        CounterAfter r c (occEntries k p m).length (windowWalkEntries hit m k l r c).2.1 ∧
        occEntries k p (windowWalkEntries hit m k l r c).1 =
          rewriteFrom (hitResult hit) l r c (occEntries k p m) ∧
        stripKeyEntries k (windowWalkEntries hit m k l r c).1 = stripKeyEntries k m
  | [], p, c, _, _, _ => by
    simp [windowWalkEntries, occEntries, subvaluesEntries, rewriteFrom, CounterAfter,
      stripKeyEntries]
  | (k2, x) :: rest, p, c, hp, hn, hh => by
    by_cases hk : k2 = k
    · subst hk
      rw [occEntries_cons, occ_matched k2 p x hp] at hh ⊢
      simp only [List.singleton_append, HitsOk, List.append_eq, List.nil_append] at hh ⊢
      obtain ⟨b1, b2, b3, b4⟩ := windowWalkEntries_spec hit k2 l r rest p (c + 1) hp
        (fun e he => hn e (by simp [subvaluesEntries, he])) hh.2
      have hcnt : CounterAfter r c ((p ++ [Seg.key k2], x) :: occEntries k2 p rest).length
          (windowWalkEntries hit rest k2 l r (c + 1)).2.1 := by
        have := b2
        unfold CounterAfter at this ⊢
        simp only [List.length_cons]
        push_cast
        omega
      by_cases h1 : c < l
      · have hw : windowWalkEntries hit ((k2, x) :: rest) k2 l r c =
            ((k2, x) :: (windowWalkEntries hit rest k2 l r (c + 1)).1,
              (windowWalkEntries hit rest k2 l r (c + 1)).2) := by
          rw [windowWalkEntries, if_pos rfl, if_pos h1]
        rw [hw]
        refine ⟨b1, hcnt, ?_, ?_⟩
        · rw [occEntries_cons, occ_matched k2 p x hp, b3]
          simp only [List.singleton_append, rewriteFrom]
          rw [if_neg (by omega)]
          rfl
        · simp only [stripKeyEntries, if_true, b4]
      · by_cases h2 : c ≤ r
        · obtain ⟨o, ho⟩ := hh.1 ⟨by omega, h2⟩
          cases o with
          | none =>
            have hw : windowWalkEntries hit ((k2, x) :: rest) k2 l r c =
                windowWalkEntries hit rest k2 l r (c + 1) := by
              rw [windowWalkEntries, if_pos rfl, if_neg h1, if_pos h2]
              simp only [ho]
            rw [hw]
            refine ⟨b1, hcnt, ?_, ?_⟩
            · rw [b3]
              simp only [rewriteFrom]
              rw [if_pos ⟨by omega, h2⟩]
              simp only [hitResult, ho, List.nil_append]
            · simp only [stripKeyEntries, if_true, b4]
          | some w =>
            have hw : windowWalkEntries hit ((k2, x) :: rest) k2 l r c =
                ((k2, w) :: (windowWalkEntries hit rest k2 l r (c + 1)).1,
                  (windowWalkEntries hit rest k2 l r (c + 1)).2) := by
              rw [windowWalkEntries, if_pos rfl, if_neg h1, if_pos h2]
              simp only [ho]
            rw [hw]
            refine ⟨b1, hcnt, ?_, ?_⟩
            · rw [occEntries_cons, occ_matched k2 p w hp, b3]
              simp only [List.singleton_append, rewriteFrom]
              rw [if_pos ⟨by omega, h2⟩]
              simp only [hitResult, ho, List.singleton_append]
            · simp only [stripKeyEntries, if_true, b4]
        · have hw : windowWalkEntries hit ((k2, x) :: rest) k2 l r c =
              ((k2, x) :: rest, c, none) := by
            rw [windowWalkEntries, if_pos rfl, if_neg h1, if_neg h2]
          rw [hw]
          refine ⟨rfl, CounterAfter_stay r c _ (by omega), ?_, rfl⟩
          rw [occEntries_cons, occ_matched k2 p x hp]
          exact (rewriteFrom_out _ l r c _ (by omega)).symm
    · have hp2 : Seg.key k ∉ p ++ [Seg.key k2] := by
        simp only [List.mem_append, List.mem_singleton, Seg.key.injEq, not_or]
        exact ⟨hp, fun h => hk h.symm⟩
      rw [occEntries_cons] at hh ⊢
      rw [HitsOk_append] at hh
      obtain ⟨a1, a2, a3, a4⟩ := windowWalk_spec hit k l r x (p ++ [Seg.key k2]) c hp2
        (fun e he => hn e (by simp [subvaluesEntries, he])) hh.1
      obtain ⟨b1, b2, b3, b4⟩ := windowWalkEntries_spec hit k l r rest p
        (windowWalk hit x k l r c).2.1 hp
        (fun e he => hn e (by simp [subvaluesEntries, he]))
        (HitsOk_sat hit l r c _ _ _ a2 hh.2)
      have hw : windowWalkEntries hit ((k2, x) :: rest) k l r c =
          ((k2, (windowWalk hit x k l r c).1) ::
            (windowWalkEntries hit rest k l r (windowWalk hit x k l r c).2.1).1,
            (windowWalkEntries hit rest k l r (windowWalk hit x k l r c).2.1).2) := by
        rw [windowWalkEntries, if_neg hk]
        simp only [a1]
      rw [hw]
      refine ⟨b1, ?_, ?_, ?_⟩
      · rw [List.length_append]
        exact CounterAfter_trans r c _ _ _ _ a2 b2
      · rw [occEntries_cons, a3, b3, rewriteFrom_append, rewriteFrom_sat _ l r c _ _ _ a2]
      · simp only [stripKeyEntries, if_neg hk, a4, b4]
end

theorem nameDesensitization_valueRule : ValueRule nameDesensitization nameValue := by
  intro m k v hv
  cases v with
  | str s =>
    have h1 := handle_desensitization_star m k s 1 1 hv
    have h2 := handle_desensitization_star m k s 1 ((s.data.length : Int) - 2) hv
    simp only [Nat.cast_one] at h1 h2
    simp only [nameDesensitization, hv, nameValue]
    by_cases hn0 : s.data.length = 0
    · rw [if_neg (by omega), h2, if_pos (by omega), if_pos hn0]
    · by_cases hn2 : s.data.length = 2
      · rw [if_pos (by omega), h1, if_neg (by omega), if_neg hn0, if_pos hn2]
        rfl
      · rw [if_neg (by omega), h2, if_neg (by omega), if_neg hn0, if_neg hn2]
        have : ((s.data.length : Int) - 2).toNat = s.data.length - 2 := by omega
        rw [this]
  | null => simp only [nameDesensitization, hv, nameValue]
  | bool b => simp only [nameDesensitization, hv, nameValue]
  | num n => simp only [nameDesensitization, hv, nameValue]
  | arr xs => simp only [nameDesensitization, hv, nameValue]
  | obj m2 => simp only [nameDesensitization, hv, nameValue]

theorem rewriteFrom_eq_rewriteAt (f : JVal → Option JVal) (i j : Int) :
    ∀ (occs : List (List Seg × JVal)) (c : Nat),
      rewriteFrom f i j (c : Int) occs = rewriteAt f i j c occs
  | [], c => by simp only [rewriteFrom, rewriteAt]
  | e :: rest, c => by
    have ih := rewriteFrom_eq_rewriteAt f i j rest (c + 1)
    simp only [Nat.cast_add, Nat.cast_one] at ih
    simp only [rewriteFrom, rewriteAt, ih]
    by_cases h : i ≤ (c : Int) ∧ (c : Int) ≤ j
    · rw [if_pos h, if_pos ⟨by omega, h.2⟩]
    · rw [if_neg h, if_neg (fun h2 => h ⟨by omega, h2.2⟩)]

theorem windowPositions_length (i j : Int) :
    ∀ total : Nat, ((windowPositions i j total).length : Int) = windowCount i j total
  | 0 => by
    simp only [windowPositions, List.range_zero, List.filter_nil, List.length_nil, windowCount]
    split_ifs <;> omega
  | n + 1 => by
    have ih := windowPositions_length i j n
    simp only [windowPositions, windowCount] at ih ⊢
    rw [List.range_succ, List.filter_append, List.length_append]
    have hf : (List.filter (fun c : Nat => decide (max i 0 ≤ (c : Int) ∧ (c : Int) ≤ j)) [n]).length =
        if max i 0 ≤ (n : Int) ∧ (n : Int) ≤ j then 1 else 0 := by
      rw [List.filter_cons, List.filter_nil]
      by_cases h : max i 0 ≤ (n : Int) ∧ (n : Int) ≤ j
      · rw [if_pos (decide_eq_true h), if_pos h]
        rfl
      · rw [if_neg (fun hd => h (of_decide_eq_true hd)), if_neg h]
        rfl
    rw [hf]
    push_cast
    rw [ih]
    split_ifs <;> omega

theorem rewriteAt_none_length (i j : Int) :
    ∀ (occs : List (List Seg × JVal)) (c : Nat),
      ((rewriteAt (fun _ => none) i j c occs).length : Int) =
        occs.length -
          (if 0 ≤ min j ((c : Int) + occs.length - 1) - max i (c : Int) + 1 then
            min j ((c : Int) + occs.length - 1) - max i (c : Int) + 1 else 0)
  | [], c => by
    simp only [rewriteAt, List.length_nil]
    split_ifs <;> omega
  | e :: rest, c => by
    have ih := rewriteAt_none_length i j rest (c + 1)
    simp only [rewriteAt, List.length_append, List.length_cons]
    by_cases h : max i 0 ≤ (c : Int) ∧ (c : Int) ≤ j
    · rw [if_pos h]
      simp only [List.length_nil]
      push_cast at ih ⊢
      rw [ih]
      split_ifs <;> omega
    · rw [if_neg h]
      simp only [List.length_singleton]
      push_cast at ih ⊢
      rw [ih]
      split_ifs <;> omega

theorem lookupAndOperate_scan_range (lib : GoLib) (reg : Registry) (c : Compiled) (t : JVal)
    (k : String) (i j : Int) (mode : Mode) (rule : String)
    (hc : c.steps = [⟨.scan, k, .range (some i) (some j)⟩]) (ht : t ≠ .null) :
    c.LookupAndOperate lib reg t mode rule =
      ((recursionCall reg t k i j mode rule 0).1, (recursionCall reg t k i j mode rule 0).2.2) := by
  unfold Compiled.LookupAndOperate
  rw [hc]
  cases t with
  | null => exact absurd rfl ht
  | bool b =>
    simp only [lookupAndOperateLoop, operateStep, operateRecursionView, operateRecursionArgs,
      recursionCallView, getAt, setAt, Option.getD_some]
  | num n =>
    simp only [lookupAndOperateLoop, operateStep, operateRecursionView, operateRecursionArgs,
      recursionCallView, getAt, setAt, Option.getD_some]
  | str s =>
    simp only [lookupAndOperateLoop, operateStep, operateRecursionView, operateRecursionArgs,
      recursionCallView, getAt, setAt, Option.getD_some]
  | arr xs =>
    simp only [lookupAndOperateLoop, operateStep, operateRecursionView, operateRecursionArgs,
      recursionCallView, getAt, setAt, Option.getD_some]
  | obj m =>
    simp only [lookupAndOperateLoop, operateStep, operateRecursionView, operateRecursionArgs,
      recursionCallView, getAt, setAt, Option.getD_some]


theorem HitsOk_deleteHit (l r : Int) :
    ∀ (L : List (List Seg × JVal)) (c : Int), HitsOk deleteHit l r c L
  | [], _ => trivial
  | _ :: rest, c => ⟨fun _ => ⟨none, rfl⟩, HitsOk_deleteHit l r rest (c + 1)⟩

theorem hitResult_deleteHit : hitResult deleteHit = fun _ => none := rfl

theorem root_ne_null (t : JVal) (k : String)
    (hnull : ∀ e ∈ subvalues [] t, Seg.key k ∉ e.1 → e.2 ≠ JVal.null) : t ≠ .null := by
  obtain ⟨tl, htl, _⟩ := subvalues_cons [] t
  exact hnull ([], t) (by rw [htl]; exact List.mem_cons_self _ _) (by simp)

theorem recursion_del_window (t : JVal) (k : String) (i j : Int)
    (hnull : ∀ e ∈ subvalues [] t, Seg.key k ∉ e.1 → e.2 ≠ JVal.null) :
    (recursion_del t k i j 0).2.2 = none ∧
      outermostEntries k (recursion_del t k i j 0).1 =
        rewriteAt (fun _ => none) i j 0 (outermostEntries k t) ∧
      stripKey k (recursion_del t k i j 0).1 = stripKey k t := by
  obtain ⟨h1, _, h3, h4⟩ := windowWalk_spec deleteHit k i j t [] 0 (by simp) hnull
    (HitsOk_deleteHit i j _ 0)
  rw [recursion_del_eq_windowWalk]
  refine ⟨h1, ?_, h4⟩
  rw [outermostEntries, h3, hitResult_deleteHit]
  exact rewriteFrom_eq_rewriteAt _ i j _ 0

theorem recursion_desensitization_window (reg : Registry) (rule : String) (f : Handler)
    (g : JVal → Except Err JVal) (t : JVal) (k : String) (i j : Int)
    (hnull : ∀ e ∈ subvalues [] t, Seg.key k ∉ e.1 → e.2 ≠ JVal.null)
    (huniq : uniqueKeys t = true) (hreg : reg rule = some f) (hf : ValueRule f g)
    (hok : HitsOk (ruleHit g) i j 0 (outermostEntries k t)) :
    (recursion_desensitization reg t k i j rule 0).2.2 = none ∧
      outermostEntries k (recursion_desensitization reg t k i j rule 0).1 =
        rewriteAt (hitResult (ruleHit g)) i j 0 (outermostEntries k t) ∧
      stripKey k (recursion_desensitization reg t k i j rule 0).1 = stripKey k t := by
  obtain ⟨h1, _, h3, h4⟩ := windowWalk_spec (ruleHit g) k i j t [] 0 (by simp) hnull hok
  rw [recursion_desensitization_eq_windowWalk reg rule f g hreg hf k i j t 0 huniq]
  refine ⟨h1, ?_, h4⟩
  rw [outermostEntries, h3]
  exact rewriteFrom_eq_rewriteAt _ i j _ 0

/-- C11 (amended): the program made of the scan step `..k[i:j]`, on a tree `t` in which
no `null` lies outside the values of the entries named `k`.  The occurrences of `k`
are the entries named `k` that do not lie inside the value of another entry named `k`,
in preorder, the first having position 0; `n = windowCount i j total` is the number
`min(j, total - 1) - max(i, 0) + 1` when it is not negative and 0 otherwise, and it is
the number of positions `c < total` with `max(i, 0) ≤ c ≤ j`.  In delete mode the call
returns no error, it removes the occurrences at these positions and no other one (so
`n` fewer are left), and it changes nothing else in the tree.  In redact mode, for a
rule `f` registered under `rule` that replaces the value `v` bound to the key by `w`
when `g v = ok w`, on a tree whose mappings have distinct keys and when `g` succeeds on
the values at these positions, the call returns no error, the occurrence at each of
these positions gets the value given by `g`, every other occurrence keeps its value and
nothing else in the tree changes. -/
theorem scan_range_mutates_window (lib : GoLib) (c : Compiled) (t : JVal) (k : String)
    (i j : Int) (hc : c.steps = [⟨.scan, k, .range (some i) (some j)⟩])
    (hnull : ∀ e ∈ subvalues [] t, Seg.key k ∉ e.1 → e.2 ≠ JVal.null) :
    ((windowPositions i j (outermostEntries k t).length).length : Int) =
        windowCount i j (outermostEntries k t).length ∧
      (∀ (reg : Registry) (rule : String),
        (c.LookupAndOperate lib reg t .fieldControl rule).2 = none ∧
          outermostEntries k (c.LookupAndOperate lib reg t .fieldControl rule).1 =
            rewriteAt (fun _ => none) i j 0 (outermostEntries k t) ∧
          stripKey k (c.LookupAndOperate lib reg t .fieldControl rule).1 = stripKey k t ∧
          ((outermostEntries k (c.LookupAndOperate lib reg t .fieldControl rule).1).length : Int)
              + windowCount i j (outermostEntries k t).length =
            (outermostEntries k t).length) ∧
      (∀ (reg : Registry) (rule : String) (f : Handler) (g : JVal → Except Err JVal),
        uniqueKeys t = true → reg rule = some f → ValueRule f g →
        HitsOk (ruleHit g) i j 0 (outermostEntries k t) →
        (c.LookupAndOperate lib reg t .desensitization rule).2 = none ∧
          outermostEntries k (c.LookupAndOperate lib reg t .desensitization rule).1 =
            rewriteAt (hitResult (ruleHit g)) i j 0 (outermostEntries k t) ∧
          stripKey k (c.LookupAndOperate lib reg t .desensitization rule).1 = stripKey k t) := by
  have ht := root_ne_null t k hnull
  refine ⟨windowPositions_length i j _, fun reg rule => ?_, fun reg rule f g hu hreg hf hok => ?_⟩
  · rw [lookupAndOperate_scan_range lib reg c t k i j _ rule hc ht]
    obtain ⟨h1, h2, h3⟩ := recursion_del_window t k i j hnull
    refine ⟨h1, h2, h3, ?_⟩
    simp only [recursionCall]
    rw [h2, rewriteAt_none_length]
    simp only [windowCount, Nat.cast_zero, zero_add]
    split_ifs <;> omega
  · rw [lookupAndOperate_scan_range lib reg c t k i j _ rule hc ht]
    exact recursion_desensitization_window reg rule f g t k i j hnull hu hreg hf hok

/-- Witness for the amended C11: four names, the window `[1:2]`.  The last name is empty,
a value the rule `name` rejects, and it lies behind the window. -/
theorem scan_range_mutates_window_witness :
    Compile "$..name[1:2]" = .ok scanProgram ∧
      windowCount 1 2 (outermostEntries "name" scanDoc).length = 2 ∧
      (scanProgram.LookupAndOperate sampleLib sampleRegistry scanDoc .fieldControl "").2 = none ∧
      outermostEntries "name"
          (scanProgram.LookupAndOperate sampleLib sampleRegistry scanDoc .fieldControl "").1 =
        rewriteAt (fun _ => none) 1 2 0 (outermostEntries "name" scanDoc) ∧
      (scanProgram.LookupAndOperate sampleLib sampleRegistry scanDoc .desensitization
          "name").2 = none ∧
      outermostEntries "name"
          (scanProgram.LookupAndOperate sampleLib sampleRegistry scanDoc .desensitization
            "name").1 =
        rewriteAt (hitResult (ruleHit nameValue)) 1 2 0 (outermostEntries "name" scanDoc) :=
  ⟨by decide, by decide,
    ((scan_range_mutates_window sampleLib scanProgram scanDoc "name" 1 2 rfl
      (by decide)).2.1 sampleRegistry "").1,
    ((scan_range_mutates_window sampleLib scanProgram scanDoc "name" 1 2 rfl
      (by decide)).2.1 sampleRegistry "").2.1,
    ((scan_range_mutates_window sampleLib scanProgram scanDoc "name" 1 2 rfl
      (by decide)).2.2 sampleRegistry "name" nameDesensitization nameValue (by decide) rfl
      nameDesensitization_valueRule
      ⟨fun _ => ⟨_, rfl⟩, fun _ => ⟨_, rfl⟩, fun _ => ⟨_, rfl⟩,
        fun h => absurd h (by decide), trivial⟩).1,
    ((scan_range_mutates_window sampleLib scanProgram scanDoc "name" 1 2 rfl
      (by decide)).2.2 sampleRegistry "name" nameDesensitization nameValue (by decide) rfl
      nameDesensitization_valueRule
      ⟨fun _ => ⟨_, rfl⟩, fun _ => ⟨_, rfl⟩, fun _ => ⟨_, rfl⟩,
        fun h => absurd h (by decide), trivial⟩).2.1⟩

/-- C11 as stated fails in redact mode.  The rule `phone` is registered and the value
bound to `k` is a string, so the formula gives one site for `$..k[0:0]`; the rule
rejects a string of 8 bytes, the call returns its error and no site is changed. -/
theorem scan_redact_rule_rejects :
    windowCount 0 0 (outermostEntries "k" (.obj [("k", .str "12345678")])).length = 1 ∧
      JsonPathLookUpAndDesensitization sampleLib sampleRegistry
          (.obj [("k", .str "12345678")]) "$..k[0:0]" "phone" =
        (.obj [("k", .str "12345678")], some .phoneNumber) := by
  decide


/-! ## Applying the engine twice, and masking at a filter -/

theorem lookupAndOperate_key_single (lib : GoLib) (reg : Registry) (c : Compiled) (t : JVal)
    (k : String) (a : Args) (mode : Mode) (rule : String) (hc : c.steps = [⟨.key, k, a⟩]) :
    c.LookupAndOperate lib reg t mode rule = operate_key reg t k mode rule := by
  unfold Compiled.LookupAndOperate
  rw [hc]
  simp only [lookupAndOperateLoop, operateStep, operate_keyView, operateOn, getAt, setAt,
    Option.getD_some]

mutual
theorem operate_key_delete_again (reg : Registry) (k rule : String) :
    ∀ v : JVal, (operate_key reg v k .fieldControl rule).2 = none →
      (operate_key reg (operate_key reg v k .fieldControl rule).1 k .fieldControl rule).1 =
        (operate_key reg v k .fieldControl rule).1
  | .null, h => by simp [operate_key] at h
  | .bool _, h => by simp [operate_key] at h
  | .num _, h => by simp [operate_key] at h
  | .str _, h => by simp [operate_key] at h
  | .obj m, h => by
    cases hl : lookupKey k m with
    | none => simp [operate_key, hl] at h
    | some x => simp [operate_key, hl, lookupKey_deleteKey_self]
  | .arr xs, h => by
    have h2 : (operate_keyElems reg xs k .fieldControl rule).2 = none := by
      simpa [operate_key] using h
    have ih := operate_keyElems_delete_again reg k rule xs h2
    simp only [operate_key, ih]
theorem operate_keyElems_delete_again (reg : Registry) (k rule : String) :
    ∀ xs : List JVal, (operate_keyElems reg xs k .fieldControl rule).2 = none →
      (operate_keyElems reg (operate_keyElems reg xs k .fieldControl rule).1 k .fieldControl
          rule).1 =
        (operate_keyElems reg xs k .fieldControl rule).1
  | [], _ => by simp [operate_keyElems]
  | tmp :: rest, h => by
    cases ha : (operate_key reg tmp k .fieldControl rule).2 with
    | some e => simp [operate_keyElems, ha] at h
    | none =>
      have hr : (operate_keyElems reg rest k .fieldControl rule).2 = none := by
        simpa [operate_keyElems, ha] using h
      have ih1 := operate_key_delete_again reg k rule tmp ha
      have ih2 := operate_keyElems_delete_again reg k rule rest hr
      simp only [operate_keyElems, ha]
      cases hb : (operate_key reg (operate_key reg tmp k .fieldControl rule).1 k .fieldControl
          rule).2 with
      | some e => simp only [ih1]
      | none => simp only [ih1, ih2]
end

theorem rewriteFrom_none_all :
    ∀ (occs : List (List Seg × JVal)) (c : Int), 0 ≤ c → c + occs.length ≤ INT_MAX + 1 →
      rewriteFrom (fun _ => none) 0 INT_MAX c occs = []
  | [], _, _, _ => rfl
  | e :: rest, c, h0, h1 => by
    simp only [List.length_cons, Nat.cast_add, Nat.cast_one] at h1
    have ih := rewriteFrom_none_all rest (c + 1) (by omega) (by omega)
    simp only [rewriteFrom, ih, List.append_nil]
    rw [if_pos ⟨h0, by omega⟩]

mutual
theorem stripKey_of_no_occ (k : String) :
    ∀ (v : JVal) (p : List Seg), Seg.key k ∉ p → occ k p v = [] → stripKey k v = v
  | .null, _, _, _ => by simp only [stripKey]
  | .bool _, _, _, _ => by simp only [stripKey]
  | .num _, _, _, _ => by simp only [stripKey]
  | .str _, _, _, _ => by simp only [stripKey]
  | .arr xs, p, hp, h => by
    rw [occ_arr k p xs hp] at h
    simp only [stripKey, stripKeyElems_of_no_occ k xs p 0 hp h]
  | .obj m, p, hp, h => by
    rw [occ_obj k p m hp] at h
    simp only [stripKey, stripKeyEntries_of_no_occ k m p hp h]
theorem stripKeyElems_of_no_occ (k : String) :
    ∀ (xs : List JVal) (p : List Seg) (i : Nat), Seg.key k ∉ p → occElems k p i xs = [] →
      stripKeyElems k xs = xs
  | [], _, _, _, _ => by simp only [stripKeyElems]
  | x :: rest, p, i, hp, h => by
    rw [occElems_cons, List.append_eq_nil] at h
    have hp2 : Seg.key k ∉ p ++ [Seg.idx i] := by simp [hp]
    simp only [stripKeyElems, stripKey_of_no_occ k x _ hp2 h.1,
      stripKeyElems_of_no_occ k rest p (i + 1) hp h.2]
theorem stripKeyEntries_of_no_occ (k : String) :
    ∀ (m : List (String × JVal)) (p : List Seg), Seg.key k ∉ p → occEntries k p m = [] →
      stripKeyEntries k m = m
  | [], _, _, _ => by simp only [stripKeyEntries]
  | (k2, x) :: rest, p, hp, h => by
    rw [occEntries_cons, List.append_eq_nil] at h
    by_cases hk : k2 = k
    · subst hk
      rw [occ_matched k2 p x hp] at h
      exact absurd h.1 (by simp)
    · have hp2 : Seg.key k ∉ p ++ [Seg.key k2] := by
        simp only [List.mem_append, List.mem_singleton, Seg.key.injEq, not_or]
        exact ⟨hp, fun h => hk h.symm⟩
      simp only [stripKeyEntries, if_neg hk, stripKey_of_no_occ k x _ hp2 h.1,
        stripKeyEntries_of_no_occ k rest p hp h.2]
end

mutual
theorem nullFree_strip (k : String) :
    ∀ (v : JVal) (p : List Seg), Seg.key k ∉ p →
      ((∀ e ∈ subvalues p v, Seg.key k ∉ e.1 → e.2 ≠ JVal.null) ↔
        (∀ e ∈ subvalues p (stripKey k v), Seg.key k ∉ e.1 → e.2 ≠ JVal.null))
  | .null, _, _ => by simp only [stripKey]
  | .bool _, _, _ => by simp only [stripKey]
  | .num _, _, _ => by simp only [stripKey]
  | .str _, _, _ => by simp only [stripKey]
  | .arr xs, p, hp => by
    have ih := nullFree_stripElems k xs p 0 hp
    simp only [stripKey, subvalues, List.mem_cons, forall_eq_or_imp, ih, ne_eq, reduceCtorEq,
      not_false_eq_true, implies_true, true_and]
  | .obj m, p, hp => by
    have ih := nullFree_stripEntries k m p hp
    simp only [stripKey, subvalues, List.mem_cons, forall_eq_or_imp, ih, ne_eq, reduceCtorEq,
      not_false_eq_true, implies_true, true_and]
theorem nullFree_stripElems (k : String) :
    ∀ (xs : List JVal) (p : List Seg) (i : Nat), Seg.key k ∉ p →
      ((∀ e ∈ subvaluesElems p i xs, Seg.key k ∉ e.1 → e.2 ≠ JVal.null) ↔
        (∀ e ∈ subvaluesElems p i (stripKeyElems k xs), Seg.key k ∉ e.1 → e.2 ≠ JVal.null))
  | [], _, _, _ => by simp only [stripKeyElems]
  | x :: rest, p, i, hp => by
    have hp2 : Seg.key k ∉ p ++ [Seg.idx i] := by simp [hp]
    have ih1 := nullFree_strip k x (p ++ [Seg.idx i]) hp2
    have ih2 := nullFree_stripElems k rest p (i + 1) hp
    simp only [stripKeyElems, subvaluesElems, List.mem_append, or_imp, forall_and, ih1, ih2]
theorem nullFree_stripEntries (k : String) :
    ∀ (m : List (String × JVal)) (p : List Seg), Seg.key k ∉ p →
      ((∀ e ∈ subvaluesEntries p m, Seg.key k ∉ e.1 → e.2 ≠ JVal.null) ↔
        (∀ e ∈ subvaluesEntries p (stripKeyEntries k m), Seg.key k ∉ e.1 → e.2 ≠ JVal.null))
  | [], _, _ => by simp only [stripKeyEntries]
  | (k2, x) :: rest, p, hp => by
    have ih2 := nullFree_stripEntries k rest p hp
    by_cases hk : k2 = k
    · subst hk
      have hvac : ∀ e ∈ subvalues (p ++ [Seg.key k2]) x, Seg.key k2 ∉ e.1 → e.2 ≠ JVal.null := by
        intro e he hne
        obtain ⟨r, hr⟩ := subvalues_extends x _ e he
        exact absurd (by rw [← hr]; simp) hne
      simp only [stripKeyEntries, if_true, subvaluesEntries, List.mem_append, or_imp, forall_and,
        ← ih2]
      exact ⟨fun h => h.2, fun h => ⟨hvac, h⟩⟩
    · have hp2 : Seg.key k ∉ p ++ [Seg.key k2] := by
        simp only [List.mem_append, List.mem_singleton, Seg.key.injEq, not_or]
        exact ⟨hp, fun h => hk h.symm⟩
      have ih1 := nullFree_strip k x (p ++ [Seg.key k2]) hp2
      simp only [stripKeyEntries, if_neg hk, subvaluesEntries, List.mem_append, or_imp,
        forall_and, ih1, ih2]
end

theorem lookupAndOperate_scan_all (lib : GoLib) (reg : Registry) (c : Compiled) (t : JVal)
    (k : String) (mode : Mode) (rule : String)
    (hc : c.steps = [⟨.scan, k, .none⟩]) (ht : t ≠ .null) :
    c.LookupAndOperate lib reg t mode rule =
      ((recursionCall reg t k 0 INT_MAX mode rule 0).1,
        (recursionCall reg t k 0 INT_MAX mode rule 0).2.2) := by
  unfold Compiled.LookupAndOperate
  rw [hc]
  cases t with
  | null => exact absurd rfl ht
  | bool b =>
    simp only [lookupAndOperateLoop, operateStep, operateRecursionView, operateRecursionArgs,
      recursionCallView, getAt, setAt, Option.getD_some]
  | num n =>
    simp only [lookupAndOperateLoop, operateStep, operateRecursionView, operateRecursionArgs,
      recursionCallView, getAt, setAt, Option.getD_some]
  | str s =>
    simp only [lookupAndOperateLoop, operateStep, operateRecursionView, operateRecursionArgs,
      recursionCallView, getAt, setAt, Option.getD_some]
  | arr xs =>
    simp only [lookupAndOperateLoop, operateStep, operateRecursionView, operateRecursionArgs,
      recursionCallView, getAt, setAt, Option.getD_some]
  | obj m =>
    simp only [lookupAndOperateLoop, operateStep, operateRecursionView, operateRecursionArgs,
      recursionCallView, getAt, setAt, Option.getD_some]

theorem recursion_del_all (t : JVal) (k : String)
    (hnull : ∀ e ∈ subvalues [] t, Seg.key k ∉ e.1 → e.2 ≠ JVal.null)
    (hsize : ((outermostEntries k t).length : Int) ≤ INT_MAX) :
    recursion_del t k 0 INT_MAX 0 = (stripKey k t, (recursion_del t k 0 INT_MAX 0).2.1, none) := by
  obtain ⟨h1, _, h3, h4⟩ := windowWalk_spec deleteHit k 0 INT_MAX t [] 0 (by simp) hnull
    (HitsOk_deleteHit 0 INT_MAX _ 0)
  rw [hitResult_deleteHit, rewriteFrom_none_all _ 0 (le_refl 0)
    (by simp only [outermostEntries] at hsize; omega)] at h3
  have h5 := stripKey_of_no_occ k _ [] (by simp) h3
  rw [recursion_del_eq_windowWalk]
  rw [h5] at h4
  rw [Prod.ext_iff, Prod.ext_iff]
  exact ⟨h4, rfl, h1⟩

theorem recursion_del_all_twice (t : JVal) (k : String)
    (hnull : ∀ e ∈ subvalues [] t, Seg.key k ∉ e.1 → e.2 ≠ JVal.null)
    (hsize : ((outermostEntries k t).length : Int) ≤ INT_MAX) :
    (∀ e ∈ subvalues [] (stripKey k t), Seg.key k ∉ e.1 → e.2 ≠ JVal.null) ∧
      ((recursion_del t k 0 INT_MAX 0).1 = stripKey k t ∧
        (recursion_del t k 0 INT_MAX 0).2.2 = none) ∧
      ((recursion_del (stripKey k t) k 0 INT_MAX 0).1 = stripKey k t ∧
        (recursion_del (stripKey k t) k 0 INT_MAX 0).2.2 = none) := by
  obtain ⟨h1, _, h3, h4⟩ := windowWalk_spec deleteHit k 0 INT_MAX t [] 0 (by simp) hnull
    (HitsOk_deleteHit 0 INT_MAX _ 0)
  rw [hitResult_deleteHit, rewriteFrom_none_all _ 0 (le_refl 0)
    (by simp only [outermostEntries] at hsize; omega)] at h3
  have h5 := stripKey_of_no_occ k _ [] (by simp) h3
  rw [h5] at h4
  rw [h4] at h3
  have hnull2 := (nullFree_strip k t [] (by simp)).mp hnull
  have hsize2 : ((outermostEntries k (stripKey k t)).length : Int) ≤ INT_MAX := by
    rw [outermostEntries, h3]
    decide
  have h6 := recursion_del_all (stripKey k t) k hnull2 hsize2
  rw [stripKey_of_no_occ k _ [] (by simp) h3] at h6
  refine ⟨hnull2, ⟨?_, ?_⟩, ⟨?_, ?_⟩⟩
  · rw [recursion_del_eq_windowWalk]
    exact h4
  · rw [recursion_del_eq_windowWalk]
    exact h1
  · rw [h6]
  · rw [h6]

theorem operate_filter_redact_state (lib : GoLib) (obj root : JVal) (key f rule : String) :
    (operate_filter lib obj root key f .desensitization rule).1 = obj := by
  unfold operate_filter
  repeat' (first | rfl | split)

theorem modifyEntry_id (k : String) (f : JVal → JVal) :
    ∀ m : JMap, (∀ w, lookupKey k m = some w → f w = w) → modifyEntry k f m = m
  | [], _ => rfl
  | (k2, v) :: rest, h => by
    by_cases hk : k2 = k
    · have := h v (by simp [lookupKey, hk])
      simp [modifyEntry, hk, this]
    · have ih := modifyEntry_id k f rest (fun w hw => h w (by simpa [lookupKey, hk] using hw))
      simp [modifyEntry, hk, ih]

theorem modifyElem_id (f : JVal → JVal) :
    ∀ (i : Nat) (xs : List JVal), (∀ w, xs[i]? = some w → f w = w) → modifyElem f i xs = xs
  | _, [], _ => by simp [modifyElem]
  | 0, x :: rest, h => by
    have := h x (by simp)
    simp [modifyElem, this]
  | i + 1, x :: rest, h => by
    have ih := modifyElem_id f i rest (fun w hw => h w (by simpa using hw))
    simp [modifyElem, ih]

theorem setAt_same : ∀ (p : List Seg) (root new : JVal),
    (∀ w, getAt p root = some w → w = new) → setAt p new root = root
  | [], root, new, h => by
    have := h root (by simp [getAt])
    simp [setAt, this]
  | .key k :: rest, root, new, h => by
    cases root with
    | obj m =>
      simp only [setAt]
      rw [modifyEntry_id k _ m]
      intro w hw
      exact setAt_same rest w new (fun w2 hw2 => h w2 (by simp [getAt, hw, hw2]))
    | null => simp [setAt]
    | bool b => simp [setAt]
    | num n => simp [setAt]
    | str s => simp [setAt]
    | arr xs => simp [setAt]
  | .idx i :: rest, root, new, h => by
    cases root with
    | arr xs =>
      simp only [setAt]
      rw [modifyElem_id _ i xs]
      intro w hw
      exact setAt_same rest w new (fun w2 hw2 => h w2 (by simp [getAt, hw, hw2]))
    | null => simp [setAt]
    | bool b => simp [setAt]
    | num n => simp [setAt]
    | str s => simp [setAt]
    | obj m => simp [setAt]

theorem operateOn_same (op : JVal → JVal × Option Err) (root : JVal) (temp : View)
    (h : ∀ cur, (op cur).1 = cur) : (operateOn op root temp).1 = root := by
  cases temp with
  | fresh xs => rfl
  | node p v =>
    simp only [operateOn, h]
    apply setAt_same
    intro w hw
    simp [hw]

theorem lookupAndOperateLoop_redact_filter (lib : GoLib) (reg : Registry) (rule : String)
    (root : JVal) (s : Step) (hop : s.op = .filter) :
    ∀ (steps : List Step) (temp : View), steps.getLast? = some s →
      (lookupAndOperateLoop lib reg .desensitization rule root steps temp).1 = root
  | [], _, _ => rfl
  | [s1], temp, h => by
    have hs : s1 = s := by simpa using h
    subst hs
    simp only [lookupAndOperateLoop, operateStep, hop]
    cases s1.args with
    | filter f => exact operateOn_same _ root temp (fun cur =>
        operate_filter_redact_state lib cur root s1.key f rule)
    | none => rfl
    | idx l => rfl
    | range a b => rfl
  | s1 :: s2 :: rest, temp, h => by
    have h2 : (s2 :: rest).getLast? = some s := by
      rw [List.getLast?_cons_cons] at h
      exact h
    simp only [lookupAndOperateLoop]
    cases hsel : selectStep lib root temp s1 with
    | error e => rfl
    | ok temp1 =>
      exact lookupAndOperateLoop_redact_filter lib reg rule root s hop (s2 :: rest) temp1 h2

theorem lookupAndOperate_filter_single (lib : GoLib) (reg : Registry) (c : Compiled) (t : JVal)
    (key f : String) (mode : Mode) (rule : String)
    (hc : c.steps = [⟨.filter, key, .filter f⟩]) :
    c.LookupAndOperate lib reg t mode rule = operate_filter lib t t key f mode rule := by
  unfold Compiled.LookupAndOperate
  rw [hc]
  simp only [lookupAndOperateLoop, operateStep, operateOn, getAt, setAt, Option.getD_some]

/-- Redact mode at a last filter step, on every input: the document is never changed.
For the program made of the filter step `.key[?(f)]` alone, on a mapping that binds `key`
to a target and with a filter `f` that parses: the call returns the error that redaction
is not supported when the target is a sequence, whatever the predicate, and when the
target is a mapping on which the predicate is true; it returns no error when the target
is a mapping on which the predicate is false. -/
theorem redact_at_filter (lib : GoLib) (reg : Registry) (c : Compiled) (v : JVal)
    (rule : String) (s : Step) (hlast : c.steps.getLast? = some s) (hop : s.op = .filter) :
    (c.LookupAndOperate lib reg v .desensitization rule).1 = v ∧
      (∀ (key f : String) (m : JMap) (target : JVal) (lp op rp : String),
        c.steps = [⟨.filter, key, .filter f⟩] → v = .obj m → lookupKey key m = some target →
        parse_filter f = .ok (lp, op, rp) →
        ((∃ xs, target = .arr xs) →
            (c.LookupAndOperate lib reg v .desensitization rule).2 =
              some .notDesensitization) ∧
          (∀ (o : JMap) (b : Bool), target = .obj o →
            eval_filter lib target v lp op rp = .ok b →
            (c.LookupAndOperate lib reg v .desensitization rule).2 =
              if b then some .notDesensitization else none)) := by
  refine ⟨lookupAndOperateLoop_redact_filter lib reg rule v s hop c.steps _ hlast, ?_⟩
  intro key f m target lp op rp hc hv hl hp
  subst hv
  rw [lookupAndOperate_filter_single lib reg c _ key f _ rule hc]
  refine ⟨?_, ?_⟩
  · rintro ⟨xs, rfl⟩
    simp [operate_filter, get_key, hl, hp]
  · intro o b ho he
    subst ho
    cases b <;> simp [operate_filter, get_key, hl, hp, he]

/-- The last filter step `$.a[?(@.y)]` on `{"a":{"x":1}}`, where the predicate is false
on the target. -/
theorem redact_at_filter_witness :
    (Compiled.LookupAndOperate sampleLib sampleRegistry
        ⟨"$.a[?(@.y)]", [⟨.filter, "a", .filter "@.y"⟩]⟩
        (.obj [("a", .obj [("x", .num 1)])]) .desensitization "name").1 =
        .obj [("a", .obj [("x", .num 1)])] ∧
      (Compiled.LookupAndOperate sampleLib sampleRegistry
        ⟨"$.a[?(@.y)]", [⟨.filter, "a", .filter "@.y"⟩]⟩
        (.obj [("a", .obj [("x", .num 1)])]) .desensitization "name").2 =
        if false then some .notDesensitization else none :=
  ⟨(redact_at_filter sampleLib sampleRegistry ⟨"$.a[?(@.y)]", [⟨.filter, "a", .filter "@.y"⟩]⟩
      (.obj [("a", .obj [("x", .num 1)])]) "name" ⟨.filter, "a", .filter "@.y"⟩ rfl rfl).1,
    ((redact_at_filter sampleLib sampleRegistry ⟨"$.a[?(@.y)]", [⟨.filter, "a", .filter "@.y"⟩]⟩
      (.obj [("a", .obj [("x", .num 1)])]) "name" ⟨.filter, "a", .filter "@.y"⟩ rfl rfl).2
      "a" "@.y" [("a", .obj [("x", .num 1)])] (.obj [("x", .num 1)]) "@.y" "exists" "" rfl rfl
      (by decide) (by decide)).2 [("x", .num 1)] false rfl (by decide)⟩

/-- C17 (the code at the failing input): the target of `$.a[?(@.y)]` in `{"a":{"x":1}}`
is a mapping on which the predicate is false, and the call in redact mode returns no
error, where the claim says that it fails.  The call does fail with the error that
redaction is not supported when the predicate is true on the mapping (`$.a[?(@.x)]`),
and on a sequence whether the predicate is false on its elements (`$.a[?(@.y)]` on
`{"a":[{"x":1}]}`) or true on some (`$.store.book[?(@.isbn)]` on the bookshop). -/
theorem redact_at_filter_without_error :
    JsonPathLookUpAndDesensitization sampleLib sampleRegistry
        (.obj [("a", .obj [("x", .num 1)])]) "$.a[?(@.y)]" "name" =
      (.obj [("a", .obj [("x", .num 1)])], none) ∧
      JsonPathLookUpAndDesensitization sampleLib sampleRegistry
        (.obj [("a", .obj [("x", .num 1)])]) "$.a[?(@.x)]" "name" =
      (.obj [("a", .obj [("x", .num 1)])], some .notDesensitization) ∧
      JsonPathLookUpAndDesensitization sampleLib sampleRegistry
        (.obj [("a", .arr [.obj [("x", .num 1)]])]) "$.a[?(@.y)]" "name" =
      (.obj [("a", .arr [.obj [("x", .num 1)]])], some .notDesensitization) ∧
      JsonPathLookUpAndDesensitization sampleLib sampleRegistry bookDoc
        "$.store.book[?(@.isbn)]" "name" = (bookDoc, some .notDesensitization) := by
  decide


/-! ## The same deletion twice -/

theorem lookupAndOperateLoop_split (lib : GoLib) (reg : Registry) (mode : Mode) (rule : String)
    (root : JVal) (last : Step) :
    ∀ (pre : List Step) (temp : View),
      lookupAndOperateLoop lib reg mode rule root (pre ++ [last]) temp =
        match selectLoop lib root pre temp with
        | .error e => (root, some e)
        | .ok t => operateStep lib reg root t last mode rule
  | [], temp => by simp only [List.nil_append, lookupAndOperateLoop, selectLoop]
  | [s], temp => by
    simp only [List.singleton_append, lookupAndOperateLoop, selectLoop]
    cases selectStep lib root temp s with
    | error e => rfl
    | ok t => rfl
  | s :: s2 :: rest, temp => by
    have ih := lookupAndOperateLoop_split lib reg mode rule root last (s2 :: rest)
    simp only [List.cons_append, lookupAndOperateLoop, selectLoop] at ih ⊢
    cases selectStep lib root temp s with
    | error e => rfl
    | ok t => exact ih t

theorem lookupKey_modifyEntry (k : String) (f : JVal → JVal) :
    ∀ (m : JMap) (x : JVal), lookupKey k m = some x →
      lookupKey k (modifyEntry k f m) = some (f x)
  | [], _, h => by simp [lookupKey] at h
  | (k2, v) :: rest, x, h => by
    by_cases hk : k2 = k
    · simp only [lookupKey, if_pos hk, Option.some.injEq] at h
      simp only [modifyEntry, if_pos hk, lookupKey, h]
    · simp only [lookupKey, if_neg hk] at h
      simp only [modifyEntry, if_neg hk, lookupKey, lookupKey_modifyEntry k f rest x h]

theorem getElem_modifyElem (f : JVal → JVal) :
    ∀ (i : Nat) (xs : List JVal) (x : JVal), xs[i]? = some x →
      (modifyElem f i xs)[i]? = some (f x)
  | _, [], _, h => by simp at h
  | 0, y :: rest, x, h => by
    simp only [List.getElem?_cons_zero, Option.some.injEq] at h
    simp [modifyElem, h]
  | i + 1, y :: rest, x, h => by
    simp only [List.getElem?_cons_succ] at h
    simp [modifyElem, getElem_modifyElem f i rest x h]

theorem getAt_setAt_self : ∀ (q : List Seg) (root w new : JVal), getAt q root = some w →
    getAt q (setAt q new root) = some new
  | [], _, _, _, _ => by simp [setAt, getAt]
  | .key k :: rest, root, w, new, h => by
    cases root with
    | obj m =>
      simp only [getAt] at h
      cases hl : lookupKey k m with
      | none => simp [hl] at h
      | some x =>
        simp only [hl] at h
        simp only [setAt, getAt, lookupKey_modifyEntry k _ m x hl]
        exact getAt_setAt_self rest x w new h
    | null => simp [getAt] at h
    | bool b => simp [getAt] at h
    | num n => simp [getAt] at h
    | str s => simp [getAt] at h
    | arr xs => simp [getAt] at h
  | .idx i :: rest, root, w, new, h => by
    cases root with
    | arr xs =>
      simp only [getAt] at h
      cases hl : xs[i]? with
      | none => simp [hl] at h
      | some x =>
        simp only [hl] at h
        simp only [setAt, getAt, getElem_modifyElem _ i xs x hl]
        exact getAt_setAt_self rest x w new h
    | null => simp [getAt] at h
    | bool b => simp [getAt] at h
    | num n => simp [getAt] at h
    | str s => simp [getAt] at h
    | obj m => simp [getAt] at h

theorem modifyEntry_twice (k : String) (f g h : JVal → JVal) (hfg : ∀ x, f (g x) = h x) :
    ∀ m : JMap, modifyEntry k f (modifyEntry k g m) = modifyEntry k h m
  | [] => rfl
  | (k2, v) :: rest => by
    by_cases hk : k2 = k
    · simp [modifyEntry, hk, hfg]
    · simp [modifyEntry, hk, modifyEntry_twice k f g h hfg rest]

theorem modifyElem_twice (f g h : JVal → JVal) (hfg : ∀ x, f (g x) = h x) :
    ∀ (i : Nat) (xs : List JVal), modifyElem f i (modifyElem g i xs) = modifyElem h i xs
  | _, [] => by simp [modifyElem]
  | 0, x :: rest => by simp [modifyElem, hfg]
  | i + 1, x :: rest => by simp [modifyElem, modifyElem_twice f g h hfg i rest]

theorem setAt_setAt : ∀ (q : List Seg) (a b root : JVal),
    setAt q a (setAt q b root) = setAt q a root
  | [], _, _, _ => by simp [setAt]
  | .key k :: rest, a, b, root => by
    cases root with
    | obj m =>
      simp only [setAt]
      rw [modifyEntry_twice k _ _ (setAt rest a) (fun x => setAt_setAt rest a b x)]
    | null => simp [setAt]
    | bool b => simp [setAt]
    | num n => simp [setAt]
    | str s => simp [setAt]
    | arr xs => simp [setAt]
  | .idx i :: rest, a, b, root => by
    cases root with
    | arr xs =>
      simp only [setAt]
      rw [modifyElem_twice _ _ (setAt rest a) (fun x => setAt_setAt rest a b x)]
    | null => simp [setAt]
    | bool b => simp [setAt]
    | num n => simp [setAt]
    | str s => simp [setAt]
    | obj m => simp [setAt]

theorem setAt_self_exists (q : List Seg) (root : JVal) : ∃ new, root = setAt q new root := by
  refine ⟨(getAt q root).getD .null, ?_⟩
  symm
  apply setAt_same
  intro w hw
  simp [hw]

theorem selectLoop_keys (lib : GoLib) (root : JVal) :
    ∀ (pre : List Step) (p : List Seg) (cur w : JVal), (∀ s ∈ pre, s.op = .key) →
      getAt (keyPath pre) cur = some w →
      selectLoop lib root pre (.node p cur) = .ok (.node (p ++ keyPath pre) w)
  | [], p, cur, w, _, h => by
    simp only [keyPath, List.map_nil, getAt, Option.some.injEq] at h
    simp [selectLoop, keyPath, h]
  | s :: rest, p, cur, w, hk, h => by
    have hs : s.op = .key := hk s (List.mem_cons_self _ _)
    have hrest : ∀ t ∈ rest, t.op = .key := fun t ht => hk t (List.mem_cons_of_mem _ ht)
    simp only [keyPath, List.map_cons] at h
    cases cur with
    | obj m =>
      simp only [getAt] at h
      cases hl : lookupKey s.key m with
      | none => simp [hl] at h
      | some x =>
        simp only [hl] at h
        have ih := selectLoop_keys lib root rest (p ++ [Seg.key s.key]) x w hrest h
        simp only [selectLoop, selectStep, hs, get_keyView, get_keyAt, hl, ih, keyPath,
          List.map_cons, List.append_assoc, List.singleton_append]
    | null => simp [getAt] at h
    | bool b => simp [getAt] at h
    | num n => simp [getAt] at h
    | str s => simp [getAt] at h
    | arr xs => simp [getAt] at h

theorem operateRecursionList_node_state (reg : Registry) (q : List Seg) (w : JVal)
    (key : String) (mode : Mode) (rule : String) (root : JVal) :
    ∀ (l : List Int) (st : JVal) (curr : Int) (err : Option Err),
      (∃ new, st = setAt q new root) →
      ∃ new, (operateRecursionList (recursionCallView reg (.node q w) key mode rule) l st curr
        err).1 = setAt q new root
  | [], st, curr, err, h => by simpa [operateRecursionList] using h
  | x :: rest, st, curr, err, h => by
    obtain ⟨new, hnew⟩ := h
    have hst : ∃ n2, (recursionCallView reg (.node q w) key mode rule st x x curr).1 =
        setAt q n2 root := by
      simp only [recursionCallView]
      rw [hnew, setAt_setAt]
      exact ⟨_, rfl⟩
    rw [operateRecursionList]
    split
    · exact hst
    · exact operateRecursionList_node_state reg q w key mode rule root rest _ _ _ hst

theorem operateStep_node_state (lib : GoLib) (reg : Registry) (root : JVal) (q : List Seg)
    (w : JVal) (last : Step) (mode : Mode) (rule : String) :
    ∃ new, (operateStep lib reg root (.node q w) last mode rule).1 = setAt q new root := by
  cases hop : last.op with
  | key =>
    simp only [operateStep, hop, operate_keyView, operateOn]
    exact ⟨_, rfl⟩
  | idx =>
    simp only [operateStep, hop, operateOn]
    exact ⟨_, rfl⟩
  | range =>
    simp only [operateStep, hop, operateOn]
    exact ⟨_, rfl⟩
  | root =>
    simp only [operateStep, hop]
    exact setAt_self_exists q root
  | filter =>
    simp only [operateStep, hop]
    cases last.args with
    | filter f =>
      simp only [operateOn]
      exact ⟨_, rfl⟩
    | none => exact setAt_self_exists q root
    | idx l => exact setAt_self_exists q root
    | range a b => exact setAt_self_exists q root
  | scan =>
    simp only [operateStep, hop]
    have hargs : ∃ new, (operateRecursionArgs
        (recursionCallView reg (.node q w) last.key mode rule) last.args root 0).1 =
        setAt q new root := by
      cases last.args with
      | none =>
        simp only [operateRecursionArgs, recursionCallView]
        exact ⟨_, rfl⟩
      | filter f =>
        simp only [operateRecursionArgs]
        exact setAt_self_exists q root
      | idx l =>
        simp only [operateRecursionArgs]
        exact operateRecursionList_node_state reg q w last.key mode rule root l root 0 none
          (setAt_self_exists q root)
      | range a b =>
        cases a with
        | none =>
          simp only [operateRecursionArgs]
          exact setAt_self_exists q root
        | some a1 =>
          cases b with
          | none =>
            simp only [operateRecursionArgs]
            exact setAt_self_exists q root
          | some b1 =>
            simp only [operateRecursionArgs, recursionCallView]
            exact ⟨_, rfl⟩
    cases w with
    | null =>
      simp only [operateRecursionView]
      exact setAt_self_exists q root
    | bool b => simpa only [operateRecursionView] using hargs
    | num n => simpa only [operateRecursionView] using hargs
    | str s => simpa only [operateRecursionView] using hargs
    | arr xs => simpa only [operateRecursionView] using hargs
    | obj m => simpa only [operateRecursionView] using hargs

theorem operateOn_node (op : JVal → JVal × Option Err) (root : JVal) (q : List Seg) (w : JVal)
    (hq : getAt q root = some w) :
    operateOn op root (.node q w) = (setAt q (op w).1 root, (op w).2) := by
  simp only [operateOn, hq, Option.getD_some]

theorem operateStep_scan_node (lib : GoLib) (reg : Registry) (root : JVal) (q : List Seg)
    (w : JVal) (last : Step) (mode : Mode) (rule : String) (hop : last.op = .scan)
    (ha : last.args = .none) (hw : w ≠ .null) (hq : getAt q root = some w) :
    operateStep lib reg root (.node q w) last mode rule =
      (setAt q (recursionCall reg w last.key 0 INT_MAX mode rule 0).1 root,
        (recursionCall reg w last.key 0 INT_MAX mode rule 0).2.2) := by
  cases w with
  | null => exact absurd rfl hw
  | bool b =>
    simp only [operateStep, hop, ha, operateRecursionView, operateRecursionArgs,
      recursionCallView, hq, Option.getD_some]
  | num n =>
    simp only [operateStep, hop, ha, operateRecursionView, operateRecursionArgs,
      recursionCallView, hq, Option.getD_some]
  | str s =>
    simp only [operateStep, hop, ha, operateRecursionView, operateRecursionArgs,
      recursionCallView, hq, Option.getD_some]
  | arr xs =>
    simp only [operateStep, hop, ha, operateRecursionView, operateRecursionArgs,
      recursionCallView, hq, Option.getD_some]
  | obj m =>
    simp only [operateStep, hop, ha, operateRecursionView, operateRecursionArgs,
      recursionCallView, hq, Option.getD_some]

theorem filterLoop_false_again (test test2 : JVal → Except Err Bool) :
    ∀ (xs res : List JVal), filterLoop test false xs = .ok res →
      (∀ x ∈ xs, test2 x = test x) → filterLoop test2 false res = .ok res
  | [], res, h, _ => by
    simp only [filterLoop, Except.ok.injEq] at h
    subst h
    rfl
  | x :: rest, res, h, heq => by
    rw [filterLoop] at h
    cases hx : test x with
    | error e => simp [hx] at h
    | ok b =>
      cases hr : filterLoop test false rest with
      | error e => simp [hx, hr] at h
      | ok res1 =>
        have ih := filterLoop_false_again test test2 rest res1 hr
          (fun y hy => heq y (List.mem_cons_of_mem _ hy))
        simp only [hx, hr] at h
        cases b with
        | true =>
          simp only [Bool.true_eq_false, if_false, Except.ok.injEq] at h
          subst h
          exact ih
        | false =>
          simp only [if_true, Except.ok.injEq] at h
          subst h
          rw [filterLoop, heq x (List.mem_cons_self _ _), hx, ih]
          simp

theorem operate_filter_delete_sequence (lib : GoLib) (root : JVal) (m : JMap)
    (key f rule lp op rp : String) (xs : List JVal) (hl : lookupKey key m = some (.arr xs))
    (hp : parse_filter f = .ok (lp, op, rp)) :
    operate_filter lib (.obj m) root key f .fieldControl rule =
      match filterLoop (fun tmp => eval_filter lib tmp root lp op rp) false xs with
      | .error e => (.obj m, some e)
      | .ok res => (.obj (setKey key (.arr res) m), none) := by
  simp only [operate_filter, get_key, hl, hp]

theorem lookupKey_modifyEntry_other (a b : String) (f : JVal → JVal) (h : b ≠ a) :
    ∀ m : JMap, lookupKey b (modifyEntry a f m) = lookupKey b m
  | [] => rfl
  | (k2, v) :: rest => by
    by_cases hk : k2 = a
    · have hb : ¬ k2 = b := fun e => h (e.symm.trans hk)
      simp only [modifyEntry, if_pos hk, lookupKey, if_neg hb]
    · simp only [modifyEntry, if_neg hk, lookupKey, lookupKey_modifyEntry_other a b f h rest]

theorem getElem_modifyElem_other (f : JVal → JVal) :
    ∀ (i j : Nat) (xs : List JVal), j ≠ i → (modifyElem f i xs)[j]? = xs[j]?
  | _, _, [], _ => by simp [modifyElem]
  | 0, 0, _ :: _, h => absurd rfl h
  | 0, j + 1, x :: rest, _ => by simp [modifyElem]
  | i + 1, 0, x :: rest, _ => by simp [modifyElem]
  | i + 1, j + 1, x :: rest, h => by
    simp only [modifyElem, List.getElem?_cons_succ]
    exact getElem_modifyElem_other f i j rest (fun e => h (by rw [e]))

mutual
theorem countKey_stripKey (k : String) : ∀ y : JVal, countKey k (stripKey k y) = 0
  | .null => by simp [stripKey, countKey]
  | .bool _ => by simp [stripKey, countKey]
  | .num _ => by simp [stripKey, countKey]
  | .str _ => by simp [stripKey, countKey]
  | .arr xs => by simp only [stripKey, countKey, countKeyElems_stripKey k xs]
  | .obj m => by simp only [stripKey, countKey, countKeyEntries_stripKey k m]
theorem countKeyElems_stripKey (k : String) :
    ∀ xs : List JVal, countKeyElems k (stripKeyElems k xs) = 0
  | [] => by simp [stripKeyElems, countKeyElems]
  | x :: rest => by
    simp only [stripKeyElems, countKeyElems, countKey_stripKey k x,
      countKeyElems_stripKey k rest]
theorem countKeyEntries_stripKey (k : String) :
    ∀ m : List (String × JVal), countKeyEntries k (stripKeyEntries k m) = 0
  | [] => by simp [stripKeyEntries, countKeyEntries]
  | (k2, x) :: rest => by
    by_cases hk : k2 = k
    · simp only [stripKeyEntries, if_pos hk, countKeyEntries_stripKey k rest]
    · simp only [stripKeyEntries, if_neg hk, countKeyEntries, countKey_stripKey k x,
        countKeyEntries_stripKey k rest]
end

mutual
theorem stripKey_of_countKey_zero (k : String) :
    ∀ y : JVal, countKey k y = 0 → stripKey k y = y
  | .null, _ => by simp [stripKey]
  | .bool _, _ => by simp [stripKey]
  | .num _, _ => by simp [stripKey]
  | .str _, _ => by simp [stripKey]
  | .arr xs, h => by
    simp only [countKey] at h
    simp only [stripKey, stripKeyElems_of_countKey_zero k xs h]
  | .obj m, h => by
    simp only [countKey] at h
    simp only [stripKey, stripKeyEntries_of_countKey_zero k m h]
theorem stripKeyElems_of_countKey_zero (k : String) :
    ∀ xs : List JVal, countKeyElems k xs = 0 → stripKeyElems k xs = xs
  | [], _ => by simp [stripKeyElems]
  | x :: rest, h => by
    simp only [countKeyElems, Nat.add_eq_zero] at h
    simp only [stripKeyElems, stripKey_of_countKey_zero k x h.1,
      stripKeyElems_of_countKey_zero k rest h.2]
theorem stripKeyEntries_of_countKey_zero (k : String) :
    ∀ m : List (String × JVal), countKeyEntries k m = 0 → stripKeyEntries k m = m
  | [], _ => by simp [stripKeyEntries]
  | (k2, x) :: rest, h => by
    simp only [countKeyEntries, Nat.add_eq_zero] at h
    have hk : ¬ k2 = k := fun e => by simp [e] at h
    simp only [stripKeyEntries, if_neg hk, stripKey_of_countKey_zero k x h.1.2,
      stripKeyEntries_of_countKey_zero k rest h.2]
end

theorem stripKey_idem (k : String) (y : JVal) : stripKey k (stripKey k y) = stripKey k y :=
  stripKey_of_countKey_zero k _ (countKey_stripKey k y)

mutual
theorem occ_length_le_countKey (k : String) :
    ∀ (y : JVal) (p : List Seg), Seg.key k ∉ p → (occ k p y).length ≤ countKey k y
  | .null, p, hp => by simp [occ_of_leaf k p .null hp (by simp [subvalues])]
  | .bool b, p, hp => by simp [occ_of_leaf k p (.bool b) hp (by simp [subvalues])]
  | .num n, p, hp => by simp [occ_of_leaf k p (.num n) hp (by simp [subvalues])]
  | .str s, p, hp => by simp [occ_of_leaf k p (.str s) hp (by simp [subvalues])]
  | .arr xs, p, hp => by
    rw [occ_arr k p xs hp, countKey]
    exact occElems_length_le_countKey k xs p 0 hp
  | .obj m, p, hp => by
    rw [occ_obj k p m hp, countKey]
    exact occEntries_length_le_countKey k m p hp
theorem occElems_length_le_countKey (k : String) :
    ∀ (xs : List JVal) (p : List Seg) (i : Nat), Seg.key k ∉ p →
      (occElems k p i xs).length ≤ countKeyElems k xs
  | [], p, i, _ => by simp [occElems, subvaluesElems, countKeyElems]
  | x :: rest, p, i, hp => by
    have hp2 : Seg.key k ∉ p ++ [Seg.idx i] := by simp [hp]
    have h1 := occ_length_le_countKey k x _ hp2
    have h2 := occElems_length_le_countKey k rest p (i + 1) hp
    rw [occElems_cons, List.length_append, countKeyElems]
    omega
theorem occEntries_length_le_countKey (k : String) :
    ∀ (m : List (String × JVal)) (p : List Seg), Seg.key k ∉ p →
      (occEntries k p m).length ≤ countKeyEntries k m
  | [], p, _ => by simp [occEntries, subvaluesEntries, countKeyEntries]
  | (k2, x) :: rest, p, hp => by
    have h2 := occEntries_length_le_countKey k rest p hp
    rw [occEntries_cons, List.length_append, countKeyEntries]
    by_cases hk : k2 = k
    · subst hk
      rw [occ_matched k2 p x hp]
      simp only [List.length_singleton, if_true]
      omega
    · have hp2 : Seg.key k ∉ p ++ [Seg.key k2] := by
        simp only [List.mem_append, List.mem_singleton, Seg.key.injEq, not_or]
        exact ⟨hp, fun h => hk h.symm⟩
      have h1 := occ_length_le_countKey k x _ hp2
      simp only [if_neg hk]
      omega
end

theorem lookupKey_stripKeyEntries (k b : String) (h : b ≠ k) :
    ∀ m : List (String × JVal),
      lookupKey b (stripKeyEntries k m) = (lookupKey b m).map (stripKey k)
  | [] => rfl
  | (k2, x) :: rest => by
    by_cases hk : k2 = k
    · have hb : ¬ k2 = b := fun e => h (e.symm.trans hk)
      simp only [stripKeyEntries, if_pos hk, lookupKey, if_neg hb,
        lookupKey_stripKeyEntries k b h rest]
    · by_cases hb : k2 = b
      · simp only [stripKeyEntries, if_neg hk, lookupKey, if_pos hb, Option.map_some']
      · simp only [stripKeyEntries, if_neg hk, lookupKey, if_neg hb,
          lookupKey_stripKeyEntries k b h rest]

theorem lookupKey_stripKeyEntries_self (k : String) :
    ∀ m : List (String × JVal), lookupKey k (stripKeyEntries k m) = none
  | [] => rfl
  | (k2, x) :: rest => by
    by_cases hk : k2 = k
    · simp only [stripKeyEntries, if_pos hk, lookupKey_stripKeyEntries_self k rest]
    · simp only [stripKeyEntries, if_neg hk, lookupKey,
        lookupKey_stripKeyEntries_self k rest]

theorem getElem_stripKeyElems (k : String) :
    ∀ (xs : List JVal) (i : Nat), (stripKeyElems k xs)[i]? = (xs[i]?).map (stripKey k)
  | [], _ => by simp [stripKeyElems]
  | x :: rest, 0 => by simp [stripKeyElems]
  | x :: rest, i + 1 => by
    simp only [stripKeyElems, List.getElem?_cons_succ, getElem_stripKeyElems k rest i]

theorem getAt_stripKey (k : String) :
    ∀ (p : List Seg) (z y2 : JVal), getAt p (stripKey k z) = some y2 →
      ∃ y, getAt p z = some y ∧ y2 = stripKey k y
  | [], z, y2, h => by
    simp only [getAt, Option.some.injEq] at h
    exact ⟨z, rfl, h.symm⟩
  | .key b :: rest, z, y2, h => by
    cases z with
    | obj m =>
      simp only [stripKey, getAt] at h
      by_cases hb : b = k
      · subst hb
        simp [lookupKey_stripKeyEntries_self] at h
      · rw [lookupKey_stripKeyEntries k b hb] at h
        cases hl : lookupKey b m with
        | none => simp [hl] at h
        | some x =>
          simp only [hl, Option.map_some'] at h
          simp only [getAt, hl]
          exact getAt_stripKey k rest x y2 h
    | null => simp [stripKey, getAt] at h
    | bool b => simp [stripKey, getAt] at h
    | num n => simp [stripKey, getAt] at h
    | str s => simp [stripKey, getAt] at h
    | arr xs => simp [stripKey, getAt] at h
  | .idx i :: rest, z, y2, h => by
    cases z with
    | arr xs =>
      simp only [stripKey, getAt] at h
      rw [getElem_stripKeyElems] at h
      cases hl : xs[i]? with
      | none => simp [hl] at h
      | some x =>
        simp only [hl, Option.map_some'] at h
        simp only [getAt, hl]
        exact getAt_stripKey k rest x y2 h
    | null => simp [stripKey, getAt] at h
    | bool b => simp [stripKey, getAt] at h
    | num n => simp [stripKey, getAt] at h
    | str s => simp [stripKey, getAt] at h
    | obj m => simp [stripKey, getAt] at h

theorem stripKeyEntries_modifyEntry (k a : String) (f : JVal → JVal) :
    ∀ m : JMap, (∀ x, lookupKey a m = some x → stripKey k (f x) = stripKey k x) →
      stripKeyEntries k (modifyEntry a f m) = stripKeyEntries k m
  | [], _ => rfl
  | (k2, v) :: rest, h => by
    by_cases ha : k2 = a
    · have hv := h v (by simp [lookupKey, ha])
      by_cases hk : k2 = k
      · simp only [modifyEntry, if_pos ha, stripKeyEntries, if_pos hk]
      · simp only [modifyEntry, if_pos ha, stripKeyEntries, if_neg hk, hv]
    · have ih := stripKeyEntries_modifyEntry k a f rest
        (fun x hx => h x (by simpa [lookupKey, ha] using hx))
      by_cases hk : k2 = k
      · simp only [modifyEntry, if_neg ha, stripKeyEntries, if_pos hk, ih]
      · simp only [modifyEntry, if_neg ha, stripKeyEntries, if_neg hk, ih]

theorem stripKeyElems_modifyElem (k : String) (f : JVal → JVal) :
    ∀ (i : Nat) (xs : List JVal), (∀ x, xs[i]? = some x → stripKey k (f x) = stripKey k x) →
      stripKeyElems k (modifyElem f i xs) = stripKeyElems k xs
  | _, [], _ => by simp [modifyElem]
  | 0, x :: rest, h => by
    have hx := h x (by simp)
    simp only [modifyElem, stripKeyElems, hx]
  | i + 1, x :: rest, h => by
    have ih := stripKeyElems_modifyElem k f i rest (fun y hy => h y (by simpa using hy))
    simp only [modifyElem, stripKeyElems, ih]

theorem stripKey_setAt (k : String) (new z : JVal) (hnew : stripKey k new = stripKey k z) :
    ∀ (q : List Seg) (root : JVal), getAt q root = some z →
      stripKey k (setAt q new root) = stripKey k root
  | [], root, h => by
    simp only [getAt, Option.some.injEq] at h
    simp only [setAt, hnew, h]
  | .key a :: rest, root, h => by
    cases root with
    | obj m =>
      simp only [setAt, stripKey]
      rw [stripKeyEntries_modifyEntry k a _ m]
      intro x hx
      apply stripKey_setAt k new z hnew rest x
      simpa [getAt, hx] using h
    | null => simp [setAt]
    | bool b => simp [setAt]
    | num n => simp [setAt]
    | str s => simp [setAt]
    | arr xs => simp [setAt]
  | .idx i :: rest, root, h => by
    cases root with
    | arr xs =>
      simp only [setAt, stripKey]
      rw [stripKeyElems_modifyElem k _ i xs]
      intro x hx
      apply stripKey_setAt k new z hnew rest x
      simpa [getAt, hx] using h
    | null => simp [setAt]
    | bool b => simp [setAt]
    | num n => simp [setAt]
    | str s => simp [setAt]
    | obj m => simp [setAt]

theorem countKeyEntries_modifyEntry (k a : String) (f : JVal → JVal)
    (hf : ∀ x, countKey k (f x) ≤ countKey k x) :
    ∀ m : JMap, countKeyEntries k (modifyEntry a f m) ≤ countKeyEntries k m
  | [] => le_refl _
  | (k2, v) :: rest => by
    by_cases ha : k2 = a
    · have := hf v
      simp only [modifyEntry, if_pos ha, countKeyEntries]
      omega
    · have := countKeyEntries_modifyEntry k a f hf rest
      simp only [modifyEntry, if_neg ha, countKeyEntries]
      omega

theorem countKeyElems_modifyElem (k : String) (f : JVal → JVal)
    (hf : ∀ x, countKey k (f x) ≤ countKey k x) :
    ∀ (i : Nat) (xs : List JVal), countKeyElems k (modifyElem f i xs) ≤ countKeyElems k xs
  | _, [] => by simp [modifyElem]
  | 0, x :: rest => by
    have := hf x
    simp only [modifyElem, countKeyElems]
    omega
  | i + 1, x :: rest => by
    have := countKeyElems_modifyElem k f hf i rest
    simp only [modifyElem, countKeyElems]
    omega

theorem countKey_setAt_le (k : String) (new : JVal) (hnew : countKey k new = 0) :
    ∀ (q : List Seg) (x : JVal), countKey k (setAt q new x) ≤ countKey k x
  | [], x => by simp [setAt, hnew]
  | .key a :: rest, x => by
    cases x with
    | obj m =>
      simp only [setAt, countKey]
      exact countKeyEntries_modifyEntry k a _ (countKey_setAt_le k new hnew rest) m
    | null => simp [setAt]
    | bool b => simp [setAt]
    | num n => simp [setAt]
    | str s => simp [setAt]
    | arr xs => simp [setAt]
  | .idx i :: rest, x => by
    cases x with
    | arr xs =>
      simp only [setAt, countKey]
      exact countKeyElems_modifyElem k _ (countKey_setAt_le k new hnew rest) i xs
    | null => simp [setAt]
    | bool b => simp [setAt]
    | num n => simp [setAt]
    | str s => simp [setAt]
    | obj m => simp [setAt]

theorem Thinner_refl (k : String) (root : JVal) : Thinner k root root :=
  fun _ y2 h => ⟨y2, h, rfl, le_refl _⟩

theorem Thinner_trans (k : String) (r1 r2 r3 : JVal) (h12 : Thinner k r1 r2)
    (h23 : Thinner k r2 r3) : Thinner k r1 r3 := by
  intro p y3 h
  obtain ⟨y2, hy2, hs2, hc2⟩ := h23 p y3 h
  obtain ⟨y1, hy1, hs1, hc1⟩ := h12 p y2 hy2
  exact ⟨y1, hy1, hs2.trans hs1, le_trans hc2 hc1⟩

theorem Thinner_setAt (k : String) (z : JVal) :
    ∀ (q : List Seg) (root : JVal), getAt q root = some z →
      Thinner k root (setAt q (stripKey k z) root)
  | [], root, h => by
    simp only [getAt, Option.some.injEq] at h
    subst h
    intro p y2 hy2
    simp only [setAt] at hy2
    obtain ⟨y, hy, he⟩ := getAt_stripKey k p root y2 hy2
    refine ⟨y, hy, ?_, ?_⟩
    · rw [he, stripKey_idem]
    · rw [he, countKey_stripKey]
      exact Nat.zero_le _
  | .key a :: rest, root, h => by
    intro p y2 hy2
    cases p with
    | nil =>
      simp only [getAt, Option.some.injEq] at hy2
      subst hy2
      exact ⟨root, rfl, stripKey_setAt k _ z (stripKey_idem k z) _ root h,
        countKey_setAt_le k _ (countKey_stripKey k z) _ root⟩
    | cons s p2 =>
      cases root with
      | obj m =>
        simp only [getAt] at h
        cases hl : lookupKey a m with
        | none => simp [hl] at h
        | some child =>
          simp only [hl] at h
          cases s with
          | idx i => simp [setAt, getAt] at hy2
          | key b =>
            by_cases hb : b = a
            · subst hb
              simp only [setAt, getAt, lookupKey_modifyEntry b _ m child hl] at hy2
              obtain ⟨y, hy, he⟩ := Thinner_setAt k z rest child h p2 y2 hy2
              exact ⟨y, by simp only [getAt, hl, hy], he⟩
            · simp only [setAt, getAt, lookupKey_modifyEntry_other a b _ hb m] at hy2
              exact ⟨y2, by simpa only [getAt] using hy2, rfl, le_refl _⟩
      | null => simp [getAt] at h
      | bool b => simp [getAt] at h
      | num n => simp [getAt] at h
      | str s => simp [getAt] at h
      | arr xs => simp [getAt] at h
  | .idx i :: rest, root, h => by
    intro p y2 hy2
    cases p with
    | nil =>
      simp only [getAt, Option.some.injEq] at hy2
      subst hy2
      exact ⟨root, rfl, stripKey_setAt k _ z (stripKey_idem k z) _ root h,
        countKey_setAt_le k _ (countKey_stripKey k z) _ root⟩
    | cons s p2 =>
      cases root with
      | arr xs =>
        simp only [getAt] at h
        cases hl : xs[i]? with
        | none => simp [hl] at h
        | some child =>
          simp only [hl] at h
          cases s with
          | key b => simp [setAt, getAt] at hy2
          | idx j =>
            by_cases hj : j = i
            · subst hj
              simp only [setAt, getAt, getElem_modifyElem _ j xs child hl] at hy2
              obtain ⟨y, hy, he⟩ := Thinner_setAt k z rest child h p2 y2 hy2
              exact ⟨y, by simp only [getAt, hl, hy], he⟩
            · simp only [setAt, getAt, getElem_modifyElem_other _ i j xs hj] at hy2
              exact ⟨y2, by simpa only [getAt] using hy2, rfl, le_refl _⟩
      | null => simp [getAt] at h
      | bool b => simp [getAt] at h
      | num n => simp [getAt] at h
      | str s => simp [getAt] at h
      | obj m => simp [getAt] at h

theorem recursion_del_from (y : JVal) (k : String) (c : Int)
    (hnull : ∀ e ∈ subvalues [] y, Seg.key k ∉ e.1 → e.2 ≠ JVal.null) (h0 : 0 ≤ c)
    (hsize : c + ((occ k [] y).length : Int) ≤ INT_MAX) :
    recursion_del y k 0 INT_MAX c = (stripKey k y, c + ((occ k [] y).length : Int), none) := by
  obtain ⟨h1, h2, h3, h4⟩ := windowWalk_spec deleteHit k 0 INT_MAX y [] c (by simp) hnull
    (HitsOk_deleteHit 0 INT_MAX _ c)
  rw [hitResult_deleteHit, rewriteFrom_none_all _ c h0 (by omega)] at h3
  have h5 := stripKey_of_no_occ k _ [] (by simp) h3
  rw [h5] at h4
  have h6 : (windowWalk deleteHit y k 0 INT_MAX c).2.1 = c + ((occ k [] y).length : Int) := by
    unfold CounterAfter at h2
    omega
  rw [recursion_del_eq_windowWalk]
  rw [Prod.ext_iff, Prod.ext_iff]
  exact ⟨h4, h6, h1⟩

theorem recursionCallView_node_delete (reg : Registry) (k rule : String) (v : JVal)
    (p : List Seg) (w root : JVal) (c : Int) (hthin : Thinner k v root)
    (hv : getAt p v = some w)
    (hnull : ∀ x ∈ subvalues [] w, Seg.key k ∉ x.1 → x.2 ≠ JVal.null)
    (h0 : 0 ≤ c) (hsize : c + (countKey k w : Int) ≤ INT_MAX) :
    (recursionCallView reg (.node p w) k .fieldControl rule root 0 INT_MAX c).2.2 = none ∧
      Thinner k root
        (recursionCallView reg (.node p w) k .fieldControl rule root 0 INT_MAX c).1 ∧
      c ≤ (recursionCallView reg (.node p w) k .fieldControl rule root 0 INT_MAX c).2.1 ∧
      (recursionCallView reg (.node p w) k .fieldControl rule root 0 INT_MAX c).2.1 ≤
        c + (countKey k w : Int) ∧
      (∀ y, getAt p
          (recursionCallView reg (.node p w) k .fieldControl rule root 0 INT_MAX c).1 = some y →
        countKey k y = 0) := by
  simp only [recursionCallView, recursionCall]
  cases hg : getAt p root with
  | none =>
    have hocc := occ_length_le_countKey k w [] (by simp)
    simp only [Option.getD_none]
    rw [recursion_del_from w k c hnull h0 (by omega)]
    have hsame : setAt p (stripKey k w) root = root :=
      setAt_same p root _ (fun x hx => by rw [hg] at hx; exact absurd hx (by simp))
    rw [hsame]
    refine ⟨rfl, Thinner_refl k root, ?_, ?_, ?_⟩
    · dsimp only
      omega
    · dsimp only
      omega
    · intro y hy
      try dsimp only at hy
      rw [hg] at hy
      exact absurd hy (by simp)
  | some y =>
    obtain ⟨y0, hy0, hs, hc⟩ := hthin p y hg
    rw [hv] at hy0
    have hy0w : y0 = w := (Option.some.inj hy0).symm
    subst hy0w
    have hnully : ∀ x ∈ subvalues [] y, Seg.key k ∉ x.1 → x.2 ≠ JVal.null := by
      rw [nullFree_strip k y [] (by simp), hs, ← nullFree_strip k y0 [] (by simp)]
      exact hnull
    have hocc := occ_length_le_countKey k y [] (by simp)
    simp only [Option.getD_some]
    rw [recursion_del_from y k c hnully h0 (by omega)]
    refine ⟨rfl, Thinner_setAt k y p root hg, ?_, ?_, ?_⟩
    · dsimp only
      omega
    · dsimp only
      omega
    · intro y2 hy2
      try dsimp only at hy2
      rw [getAt_setAt_self p root y _ hg] at hy2
      rw [← Option.some.inj hy2]
      exact countKey_stripKey k y

mutual
theorem recursionCallView_delete (reg : Registry) (k rule : String) (v : JVal) :
    ∀ (T : View) (root : JVal) (c : Int), Thinner k v root →
      (∀ e ∈ T.leaves, getAt e.1 v = some e.2 ∧
        (∀ x ∈ subvalues [] e.2, Seg.key k ∉ x.1 → x.2 ≠ JVal.null)) →
      0 ≤ c → c + (((T.leaves.map fun e => countKey k e.2).sum : Nat) : Int) ≤ INT_MAX →
      (recursionCallView reg T k .fieldControl rule root 0 INT_MAX c).2.2 = none ∧
        Thinner k root (recursionCallView reg T k .fieldControl rule root 0 INT_MAX c).1 ∧
        c ≤ (recursionCallView reg T k .fieldControl rule root 0 INT_MAX c).2.1 ∧
        (recursionCallView reg T k .fieldControl rule root 0 INT_MAX c).2.1 ≤
          c + (((T.leaves.map fun e => countKey k e.2).sum : Nat) : Int) ∧
        (∀ e ∈ T.leaves, ∀ y,
          getAt e.1 (recursionCallView reg T k .fieldControl rule root 0 INT_MAX c).1 = some y →
          countKey k y = 0)
  | .node p w, root, c, hthin, hl, h0, hsize => by
    have hl1 := hl (p, w) (by simp [View.leaves])
    simp only [View.leaves, List.map_cons, List.map_nil, List.sum_cons, List.sum_nil,
      Nat.add_zero] at hsize ⊢
    obtain ⟨a1, a2, a3, a4, a5⟩ :=
      recursionCallView_node_delete reg k rule v p w root c hthin hl1.1 hl1.2 h0 hsize
    refine ⟨a1, a2, a3, a4, ?_⟩
    intro e he
    simp only [List.mem_singleton] at he
    subst he
    exact a5
  | .fresh xs, root, c, hthin, hl, h0, hsize => by
    have hc : ¬ c > INT_MAX := by
      have : (0 : Int) ≤ (((View.leaves (.fresh xs)).map fun e => countKey k e.2).sum : Nat) :=
        Int.natCast_nonneg _
      omega
    have ih := recursionCallViews_delete reg k rule v xs root c hthin
      (by simpa only [View.leaves] using hl) h0 (by simpa only [View.leaves] using hsize)
    simp only [recursionCallView, if_neg hc, View.leaves]
    exact ih
theorem recursionCallViews_delete (reg : Registry) (k rule : String) (v : JVal) :
    ∀ (xs : List View) (root : JVal) (c : Int), Thinner k v root →
      (∀ e ∈ View.leavesList xs, getAt e.1 v = some e.2 ∧
        (∀ x ∈ subvalues [] e.2, Seg.key k ∉ x.1 → x.2 ≠ JVal.null)) →
      0 ≤ c →
      c + ((((View.leavesList xs).map fun e => countKey k e.2).sum : Nat) : Int) ≤ INT_MAX →
      (recursionCallViews reg xs k .fieldControl rule root 0 INT_MAX c).2.2 = none ∧
        Thinner k root (recursionCallViews reg xs k .fieldControl rule root 0 INT_MAX c).1 ∧
        c ≤ (recursionCallViews reg xs k .fieldControl rule root 0 INT_MAX c).2.1 ∧
        (recursionCallViews reg xs k .fieldControl rule root 0 INT_MAX c).2.1 ≤
          c + ((((View.leavesList xs).map fun e => countKey k e.2).sum : Nat) : Int) ∧
        (∀ e ∈ View.leavesList xs, ∀ y,
          getAt e.1 (recursionCallViews reg xs k .fieldControl rule root 0 INT_MAX c).1 =
            some y →
          countKey k y = 0)
  | [], root, c, _, _, _, _ => by
    simp only [recursionCallViews, View.leavesList, List.map_nil, List.sum_nil]
    exact ⟨trivial, Thinner_refl k root, le_refl _, by simp, fun e he => by simp at he⟩
  | x :: rest, root, c, hthin, hl, h0, hsize => by
    simp only [View.leavesList, List.map_append, List.sum_append, Nat.cast_add,
      List.mem_append] at hl hsize ⊢
    obtain ⟨a1, a2, a3, a4, a5⟩ := recursionCallView_delete reg k rule v x root c hthin
      (fun e he => hl e (Or.inl he)) h0 (by omega)
    obtain ⟨b1, b2, b3, b4, b5⟩ := recursionCallViews_delete reg k rule v rest
      (recursionCallView reg x k .fieldControl rule root 0 INT_MAX c).1
      (recursionCallView reg x k .fieldControl rule root 0 INT_MAX c).2.1
      (Thinner_trans k _ _ _ hthin a2) (fun e he => hl e (Or.inr he)) (by omega) (by omega)
    have hstep : recursionCallViews reg (x :: rest) k .fieldControl rule root 0 INT_MAX c =
        recursionCallViews reg rest k .fieldControl rule
          (recursionCallView reg x k .fieldControl rule root 0 INT_MAX c).1 0 INT_MAX
          (recursionCallView reg x k .fieldControl rule root 0 INT_MAX c).2.1 := by
      rw [recursionCallViews]
      simp only [a1]
    rw [hstep]
    refine ⟨b1, Thinner_trans k _ _ _ a2 b2, by omega, by omega, ?_⟩
    intro e he y hy
    rcases he with he | he
    · obtain ⟨y1, hy1, _, hc1⟩ := b2 e.1 y hy
      have := a5 e he y1 hy1
      omega
    · exact b5 e he y hy
end

mutual
theorem recursionCallView_clean (reg : Registry) (k rule : String) (root : JVal) :
    ∀ (T : View) (c : Int),
      (∀ e ∈ T.leaves, getAt e.1 root = some e.2 ∧ countKey k e.2 = 0 ∧
        (∀ x ∈ subvalues [] e.2, Seg.key k ∉ x.1 → x.2 ≠ JVal.null)) →
      0 ≤ c → c ≤ INT_MAX →
      recursionCallView reg T k .fieldControl rule root 0 INT_MAX c = (root, c, none)
  | .node p w, c, hl, h0, h1 => by
    have hl1 := hl (p, w) (by simp [View.leaves])
    have hg : getAt p root = some w := hl1.1
    have hz : countKey k w = 0 := hl1.2.1
    have hnull : ∀ x ∈ subvalues [] w, Seg.key k ∉ x.1 → x.2 ≠ JVal.null := hl1.2.2
    have hocc := occ_length_le_countKey k w [] (by simp)
    have hocc0 : (occ k [] w).length = 0 := by omega
    simp only [recursionCallView, recursionCall, hg, Option.getD_some]
    rw [recursion_del_from w k c hnull h0 (by rw [hocc0]; simpa using h1),
      stripKey_of_countKey_zero k w hz, hocc0,
      setAt_same p root w (fun x hx => by rw [hg] at hx; exact (Option.some.inj hx).symm)]
    simp
  | .fresh xs, c, hl, h0, h1 => by
    have hc : ¬ c > INT_MAX := by omega
    simp only [recursionCallView, if_neg hc]
    exact recursionCallViews_clean reg k rule root xs c
      (by simpa only [View.leaves] using hl) h0 h1
theorem recursionCallViews_clean (reg : Registry) (k rule : String) (root : JVal) :
    ∀ (xs : List View) (c : Int),
      (∀ e ∈ View.leavesList xs, getAt e.1 root = some e.2 ∧ countKey k e.2 = 0 ∧
        (∀ x ∈ subvalues [] e.2, Seg.key k ∉ x.1 → x.2 ≠ JVal.null)) →
      0 ≤ c → c ≤ INT_MAX →
      recursionCallViews reg xs k .fieldControl rule root 0 INT_MAX c = (root, c, none)
  | [], c, _, _, _ => by simp only [recursionCallViews]
  | x :: rest, c, hl, h0, h1 => by
    simp only [View.leavesList, List.mem_append] at hl
    have ih1 := recursionCallView_clean reg k rule root x c (fun e he => hl e (Or.inl he)) h0 h1
    have ih2 := recursionCallViews_clean reg k rule root rest c
      (fun e he => hl e (Or.inr he)) h0 h1
    rw [recursionCallViews]
    simp only [ih1, ih2]
end

theorem operateStep_scan_view (lib : GoLib) (reg : Registry) (root : JVal) (T : View)
    (last : Step) (mode : Mode) (rule : String) (hop : last.op = .scan)
    (ha : last.args = .none) (hT : ∀ p, T ≠ .node p .null) :
    operateStep lib reg root T last mode rule =
      ((recursionCallView reg T last.key mode rule root 0 INT_MAX 0).1,
        (recursionCallView reg T last.key mode rule root 0 INT_MAX 0).2.2) := by
  simp only [operateStep, hop, ha]
  cases T with
  | fresh xs => simp only [operateRecursionView, operateRecursionArgs]
  | node p w =>
    cases w with
    | null => exact absurd rfl (hT p)
    | bool b => simp only [operateRecursionView, operateRecursionArgs]
    | num n => simp only [operateRecursionView, operateRecursionArgs]
    | str s => simp only [operateRecursionView, operateRecursionArgs]
    | arr xs => simp only [operateRecursionView, operateRecursionArgs]
    | obj m => simp only [operateRecursionView, operateRecursionArgs]

theorem view_ne_null_node (k : String) (T : View)
    (h : ∀ e ∈ T.leaves, ∀ x ∈ subvalues [] e.2, Seg.key k ∉ x.1 → x.2 ≠ JVal.null) :
    ∀ p, T ≠ .node p .null := by
  intro p hT
  subst hT
  exact h (p, .null) (by simp [View.leaves]) ([], .null) (by simp [subvalues]) (by simp) rfl

theorem scan_twice_views (lib : GoLib) (reg : Registry) (rule : String) (v v1 : JVal)
    (pre : List Step) (last : Step) (T T2 : View)
    (hrun : lookupAndOperateLoop lib reg .fieldControl rule v (pre ++ [last]) (.node [] v) =
      (v1, none))
    (hop : last.op = .scan) (ha : last.args = .none)
    (hT : selectLoop lib v pre (.node [] v) = .ok T)
    (hT2 : selectLoop lib v1 pre (.node [] v1) = .ok T2)
    (hval : ∀ e ∈ T.leaves, getAt e.1 v = some e.2 ∧
      (∀ x ∈ subvalues [] e.2, Seg.key last.key ∉ x.1 → x.2 ≠ JVal.null))
    (hsize : (((T.leaves.map fun e => countKey last.key e.2).sum : Nat) : Int) ≤ INT_MAX)
    (hval2 : ∀ e ∈ T2.leaves, getAt e.1 v1 = some e.2 ∧ e.1 ∈ T.leaves.map Prod.fst) :
    lookupAndOperateLoop lib reg .fieldControl rule v1 (pre ++ [last]) (.node [] v1) =
      (v1, none) := by
  rw [lookupAndOperateLoop_split, hT] at hrun
  simp only at hrun
  rw [operateStep_scan_view lib reg v T last _ rule hop ha
    (view_ne_null_node last.key T (fun e he => (hval e he).2))] at hrun
  obtain ⟨_, a2, _, _, a5⟩ := recursionCallView_delete reg last.key rule v T v 0
    (Thinner_refl _ v) hval (le_refl 0) (by omega)
  have hv1 : (recursionCallView reg T last.key .fieldControl rule v 0 INT_MAX 0).1 = v1 :=
    congrArg Prod.fst hrun
  rw [hv1] at a2 a5
  have hclean : ∀ e ∈ T2.leaves, getAt e.1 v1 = some e.2 ∧ countKey last.key e.2 = 0 ∧
      (∀ x ∈ subvalues [] e.2, Seg.key last.key ∉ x.1 → x.2 ≠ JVal.null) := by
    intro e he
    obtain ⟨hg, hmem⟩ := hval2 e he
    obtain ⟨e0, he0, hp0⟩ := List.mem_map.mp hmem
    obtain ⟨hg0, hnull0⟩ := hval e0 he0
    refine ⟨hg, a5 e0 he0 e.2 (by rw [hp0]; exact hg), ?_⟩
    obtain ⟨y0, hy0, hs, _⟩ := a2 e.1 e.2 hg
    rw [← hp0, hg0] at hy0
    rw [← Option.some.inj hy0] at hs
    rw [nullFree_strip last.key e.2 [] (by simp), hs,
      ← nullFree_strip last.key e0.2 [] (by simp)]
    exact hnull0
  rw [lookupAndOperateLoop_split, hT2]
  simp only
  rw [operateStep_scan_view lib reg v1 T2 last _ rule hop ha
    (view_ne_null_node last.key T2 (fun e he => (hclean e he).2.2)),
    recursionCallView_clean reg last.key rule v1 T2 0 hclean (le_refl 0) (by decide)]

theorem selection_again (lib : GoLib) (reg : Registry) (rule : String) (v v1 : JVal)
    (pre : List Step) (last : Step) (q : List Seg) (w : JVal)
    (hrun : lookupAndOperateLoop lib reg .fieldControl rule v (pre ++ [last]) (.node [] v) =
      (v1, none))
    (hq : getAt q v = some w)
    (hsel : ((∀ s ∈ pre, s.op = .key) ∧ q = keyPath pre) ∨
      (∃ w1, selectLoop lib v pre (.node [] v) = .ok (.node q w) ∧
        selectLoop lib v1 pre (.node [] v1) = .ok (.node q w1) ∧ getAt q v1 = some w1)) :
    ∃ w1, operateStep lib reg v (.node q w) last .fieldControl rule = (v1, none) ∧
      lookupAndOperateLoop lib reg .fieldControl rule v1 (pre ++ [last]) (.node [] v1) =
        operateStep lib reg v1 (.node q w1) last .fieldControl rule ∧
      getAt q v1 = some w1 := by
  rcases hsel with ⟨hk, hqk⟩ | ⟨w1, h1, h2, h3⟩
  · subst hqk
    have h1 := selectLoop_keys lib v pre [] v w hk hq
    rw [List.nil_append] at h1
    rw [lookupAndOperateLoop_split, h1] at hrun
    simp only at hrun
    obtain ⟨new, hnew⟩ := operateStep_node_state lib reg v (keyPath pre) w last .fieldControl rule
    rw [hrun] at hnew
    simp only at hnew
    have h3 : getAt (keyPath pre) v1 = some new := by
      rw [hnew]
      exact getAt_setAt_self _ v w new hq
    have h2 := selectLoop_keys lib v1 pre [] v1 new hk h3
    rw [List.nil_append] at h2
    refine ⟨new, hrun, ?_, h3⟩
    rw [lookupAndOperateLoop_split, h2]
  · rw [lookupAndOperateLoop_split, h1] at hrun
    simp only at hrun
    refine ⟨w1, hrun, ?_, h3⟩
    rw [lookupAndOperateLoop_split, h2]

/-- C13 (amended): two calls in delete mode with the same program, whose steps are `pre`
followed by the step `last`; the first call succeeds on `v` and leaves `v1`.

When the first call has changed nothing, the second call succeeds and leaves `v1`.

Let the steps before the last select one node `w` of `v`, at the position `q`: they are
key steps that lead through mappings, or they are any steps that select the node at `q`
in `v` and also in `v1`.  When `last` is a key step, the second call leaves `v1` as it
is, and it does not succeed when `w` is a mapping: the key is gone and the call returns
the error that the key is not found.  When `last` is a scan step without a selector and
no `null` lies in `w` outside the values of the entries named by the step (and `w` has
at most `INT_MAX` occurrences of that name), the second call succeeds and leaves `v1`.
When `last` is a filter step whose target is a sequence of the mapping `w` and the
predicate gives on every element of the sequence the same result with `v1` as the root
as with `v` (as it does when it does not read the root), the second call succeeds and
leaves `v1`.

Let the steps before the last select any number of nodes, the view `T` in `v` and the
view `T2` in `v1`, every node lying in its document at its position.  When `last` is a
scan step without a selector, no `null` lies in a node of `T` outside the values of the
entries named by the step, the nodes of `T` hold together at most `INT_MAX` entries of
that name, and the positions selected in `v1` are among those selected in `v`, the
second call succeeds and leaves `v1`. -/
theorem delete_twice_spec (lib : GoLib) (reg : Registry) (c : Compiled) (rule : String)
    (v v1 : JVal) (pre : List Step) (last : Step) (q : List Seg) (w : JVal)
    (hc : c.steps = pre ++ [last])
    (hrun : c.LookupAndOperate lib reg v .fieldControl rule = (v1, none)) :
    (v1 = v → c.LookupAndOperate lib reg v1 .fieldControl rule = (v1, none)) ∧
      ((((∀ s ∈ pre, s.op = .key) ∧ q = keyPath pre) ∨
          (∃ w1, selectLoop lib v pre (.node [] v) = .ok (.node q w) ∧
            selectLoop lib v1 pre (.node [] v1) = .ok (.node q w1) ∧ getAt q v1 = some w1)) →
        getAt q v = some w →
        (last.op = .key →
          (c.LookupAndOperate lib reg v1 .fieldControl rule).1 = v1 ∧
            (∀ m, w = .obj m →
              (c.LookupAndOperate lib reg v1 .fieldControl rule).2 =
                some (.keyNotFound last.key))) ∧
          (last.op = .scan → last.args = .none →
            (∀ e ∈ subvalues [] w, Seg.key last.key ∉ e.1 → e.2 ≠ JVal.null) →
            ((outermostEntries last.key w).length : Int) ≤ INT_MAX →
            c.LookupAndOperate lib reg v1 .fieldControl rule = (v1, none)) ∧
          (∀ (f lp op rp : String) (m : JMap) (xs : List JVal),
            last.op = .filter → last.args = .filter f → parse_filter f = .ok (lp, op, rp) →
            w = .obj m → lookupKey last.key m = some (.arr xs) →
            (∀ tmp ∈ xs, eval_filter lib tmp v1 lp op rp = eval_filter lib tmp v lp op rp) →
            c.LookupAndOperate lib reg v1 .fieldControl rule = (v1, none))) ∧
      (∀ T T2 : View, last.op = .scan → last.args = .none →
        selectLoop lib v pre (.node [] v) = .ok T →
        selectLoop lib v1 pre (.node [] v1) = .ok T2 →
        (∀ e ∈ T.leaves, getAt e.1 v = some e.2 ∧
          (∀ x ∈ subvalues [] e.2, Seg.key last.key ∉ x.1 → x.2 ≠ JVal.null)) →
        (((T.leaves.map fun e => countKey last.key e.2).sum : Nat) : Int) ≤ INT_MAX →
        (∀ e ∈ T2.leaves, getAt e.1 v1 = some e.2 ∧ e.1 ∈ T.leaves.map Prod.fst) →
        c.LookupAndOperate lib reg v1 .fieldControl rule = (v1, none)) := by
  refine ⟨fun h => by rw [h] at hrun ⊢; exact hrun, ?_, ?_⟩
  rotate_left
  · intro T T2 hop ha hT hT2 hval hsize hval2
    unfold Compiled.LookupAndOperate at hrun ⊢
    rw [hc] at hrun ⊢
    exact scan_twice_views lib reg rule v v1 pre last T T2 hrun hop ha hT hT2 hval hsize hval2
  intro hsel hq
  unfold Compiled.LookupAndOperate at hrun ⊢
  rw [hc] at hrun ⊢
  obtain ⟨w1, h1, h2, hq1⟩ := selection_again lib reg rule v v1 pre last q w hrun hq hsel
  rw [h2]
  have hsame : setAt q w1 v1 = v1 :=
    setAt_same q v1 w1 (fun x hx => by rw [hq1] at hx; exact (Option.some.inj hx).symm)
  refine ⟨?_, ?_, ?_⟩
  · intro hop
    simp only [operateStep, hop, operate_keyView] at h1 ⊢
    rw [operateOn_node _ v q w hq] at h1
    rw [operateOn_node _ v1 q w1 hq1]
    have hs : (operate_key reg w last.key .fieldControl rule).2 = none :=
      congrArg Prod.snd h1
    have hv : setAt q (operate_key reg w last.key .fieldControl rule).1 v = v1 :=
      congrArg Prod.fst h1
    have hw1 : w1 = (operate_key reg w last.key .fieldControl rule).1 := by
      have := getAt_setAt_self q v w (operate_key reg w last.key .fieldControl rule).1 hq
      rw [hv, hq1] at this
      exact Option.some.inj this
    have hagain := operate_key_delete_again reg last.key rule w hs
    rw [← hw1] at hagain
    refine ⟨by simp only [hagain, hsame], ?_⟩
    intro m hm
    subst hm
    cases hl : lookupKey last.key m with
    | none => simp [operate_key, hl] at hs
    | some x =>
      have hw2 : w1 = .obj (deleteKey last.key m) := by
        rw [hw1]
        simp [operate_key, hl]
      rw [hw2]
      simp [operate_key, lookupKey_deleteKey_self]
  · intro hop ha hnull hsize
    obtain ⟨hnull2, ⟨a1, a2⟩, ⟨b1, b2⟩⟩ := recursion_del_all_twice w last.key hnull hsize
    rw [operateStep_scan_node lib reg v q w last _ rule hop ha (root_ne_null w _ hnull) hq] at h1
    simp only [recursionCall, a1, a2] at h1
    have hv : setAt q (stripKey last.key w) v = v1 := congrArg Prod.fst h1
    have hw1 : w1 = stripKey last.key w := by
      have := getAt_setAt_self q v w (stripKey last.key w) hq
      rw [hv, hq1] at this
      exact Option.some.inj this
    subst hw1
    rw [operateStep_scan_node lib reg v1 q _ last _ rule hop ha (root_ne_null _ _ hnull2) hq1]
    simp only [recursionCall, b1, b2, hsame]
  · intro f lp op rp m xs hop ha hp hm hl heq
    subst hm
    simp only [operateStep, hop, ha] at h1 ⊢
    rw [operateOn_node _ v q _ hq, operate_filter_delete_sequence lib v m last.key f rule lp op
      rp xs hl hp] at h1
    rw [operateOn_node _ v1 q w1 hq1]
    cases hf : filterLoop (fun tmp => eval_filter lib tmp v lp op rp) false xs with
    | error e =>
      rw [hf] at h1
      simp at h1
    | ok res =>
      rw [hf] at h1
      simp only [Prod.mk.injEq, and_true] at h1
      have hw1 : w1 = .obj (setKey last.key (.arr res) m) := by
        have := getAt_setAt_self q v _ (.obj (setKey last.key (.arr res) m)) hq
        rw [h1, hq1] at this
        exact Option.some.inj this
      have hf2 := filterLoop_false_again (fun tmp => eval_filter lib tmp v lp op rp)
        (fun tmp => eval_filter lib tmp v1 lp op rp) xs res hf heq
      rw [hw1, operate_filter_delete_sequence lib v1 (setKey last.key (.arr res) m) last.key f
        rule lp op rp res (lookupKey_setKey_self _ _ _) hp, hf2]
      simp only
      rw [setKey_same _ _ _ (lookupKey_setKey_self _ _ _), ← hw1, hsame]

/-- Witness for the amended C13, the second of two calls: `$.store.book[?(@.price < 10)]`
on what the first call leaves of the bookshop, `$.store..price` on the bookshop without
its prices, `$.a` on `{"b":2}` (unchanged, with the error that the key is not found),
`$.a[0]..x` on `{"a":[{},{"x":2}]}`, `$.a[?(@.y)]` on `{"a":{"x":1}}`, which the first
call did not change, and `$.store.book[*]..price`, whose steps before the last select the
three books, on the bookshop without its prices. -/
theorem delete_twice_spec_witness :
    Compiled.LookupAndOperate sampleLib emptyRegistry
        ⟨"$.store.book[?(@.price < 10)]",
          [⟨.key, "store", .none⟩, ⟨.filter, "book", .filter "@.price < 10"⟩]⟩
        (.obj [("store", .obj [("book", .arr [.obj [("price", .num 12)]])])]) .fieldControl "" =
        (.obj [("store", .obj [("book", .arr [.obj [("price", .num 12)]])])], none) ∧
      Compiled.LookupAndOperate sampleLib emptyRegistry
        ⟨"$.store..price", [⟨.key, "store", .none⟩, ⟨.scan, "price", .none⟩]⟩
        (.obj [("store", .obj [("book", .arr [.obj [], .obj [], .obj []])])]) .fieldControl "" =
        (.obj [("store", .obj [("book", .arr [.obj [], .obj [], .obj []])])], none) ∧
      ((Compiled.LookupAndOperate sampleLib emptyRegistry ⟨"$.a", [⟨.key, "a", .none⟩]⟩
          (.obj [("b", .num 2)]) .fieldControl "").1 = .obj [("b", .num 2)] ∧
        (Compiled.LookupAndOperate sampleLib emptyRegistry ⟨"$.a", [⟨.key, "a", .none⟩]⟩
          (.obj [("b", .num 2)]) .fieldControl "").2 = some (.keyNotFound "a")) ∧
      Compiled.LookupAndOperate sampleLib emptyRegistry
        ⟨"$.a[0]..x", [⟨.idx, "a", .idx [0]⟩, ⟨.scan, "x", .none⟩]⟩
        (.obj [("a", .arr [.obj [], .obj [("x", .num 2)]])]) .fieldControl "" =
        (.obj [("a", .arr [.obj [], .obj [("x", .num 2)]])], none) ∧
      Compiled.LookupAndOperate sampleLib emptyRegistry
        ⟨"$.a[?(@.y)]", [⟨.filter, "a", .filter "@.y"⟩]⟩
        (.obj [("a", .obj [("x", .num 1)])]) .fieldControl "" =
        (.obj [("a", .obj [("x", .num 1)])], none) ∧
      Compiled.LookupAndOperate sampleLib emptyRegistry
        ⟨"$.store.book[*]..price",
          [⟨.key, "store", .none⟩, ⟨.range, "book", .range none none⟩,
            ⟨.scan, "price", .none⟩]⟩
        (.obj [("store", .obj [("book", .arr [.obj [], .obj [], .obj []])])]) .fieldControl "" =
        (.obj [("store", .obj [("book", .arr [.obj [], .obj [], .obj []])])], none) :=
  ⟨((delete_twice_spec sampleLib emptyRegistry
        ⟨"$.store.book[?(@.price < 10)]",
          [⟨.key, "store", .none⟩, ⟨.filter, "book", .filter "@.price < 10"⟩]⟩ "" bookDoc
        (.obj [("store", .obj [("book", .arr [.obj [("price", .num 12)]])])])
        [⟨.key, "store", .none⟩] ⟨.filter, "book", .filter "@.price < 10"⟩ [.key "store"]
        (.obj [("book", .arr [.obj [("price", .num 8)], .obj [("price", .num 12)],
          .obj [("price", .num 5)]])]) rfl (by decide)).2.1
      (Or.inl ⟨by decide, rfl⟩) (by decide)).2.2 "@.price < 10" "@.price" "<" "10"
      [("book", .arr [.obj [("price", .num 8)], .obj [("price", .num 12)],
        .obj [("price", .num 5)]])]
      [.obj [("price", .num 8)], .obj [("price", .num 12)], .obj [("price", .num 5)]]
      rfl rfl (by decide) rfl (by decide) (by decide),
    ((delete_twice_spec sampleLib emptyRegistry
        ⟨"$.store..price", [⟨.key, "store", .none⟩, ⟨.scan, "price", .none⟩]⟩ "" bookDoc
        (.obj [("store", .obj [("book", .arr [.obj [], .obj [], .obj []])])])
        [⟨.key, "store", .none⟩] ⟨.scan, "price", .none⟩ [.key "store"]
        (.obj [("book", .arr [.obj [("price", .num 8)], .obj [("price", .num 12)],
          .obj [("price", .num 5)]])]) rfl (by decide)).2.1
      (Or.inl ⟨by decide, rfl⟩) (by decide)).2.1 rfl rfl (by decide) (by decide),
    ((delete_twice_spec sampleLib emptyRegistry ⟨"$.a", [⟨.key, "a", .none⟩]⟩ ""
        (.obj [("a", .num 1), ("b", .num 2)]) (.obj [("b", .num 2)]) [] ⟨.key, "a", .none⟩ []
        (.obj [("a", .num 1), ("b", .num 2)]) rfl (by decide)).2.1
      (Or.inl ⟨by decide, rfl⟩) rfl).1 rfl |>.imp id (fun h => h [("a", .num 1), ("b", .num 2)] rfl),
    ((delete_twice_spec sampleLib emptyRegistry
        ⟨"$.a[0]..x", [⟨.idx, "a", .idx [0]⟩, ⟨.scan, "x", .none⟩]⟩ ""
        (.obj [("a", .arr [.obj [("x", .num 1)], .obj [("x", .num 2)]])])
        (.obj [("a", .arr [.obj [], .obj [("x", .num 2)]])])
        [⟨.idx, "a", .idx [0]⟩] ⟨.scan, "x", .none⟩ [.key "a", .idx 0]
        (.obj [("x", .num 1)]) rfl (by decide)).2.1
      (Or.inr ⟨.obj [], rfl, rfl, rfl⟩) rfl).2.1 rfl rfl (by decide) (by decide),
    (delete_twice_spec sampleLib emptyRegistry
        ⟨"$.a[?(@.y)]", [⟨.filter, "a", .filter "@.y"⟩]⟩ ""
        (.obj [("a", .obj [("x", .num 1)])]) (.obj [("a", .obj [("x", .num 1)])])
        [] ⟨.filter, "a", .filter "@.y"⟩ [] .null rfl (by decide)).1 rfl,
    (delete_twice_spec sampleLib emptyRegistry
        ⟨"$.store.book[*]..price",
          [⟨.key, "store", .none⟩, ⟨.range, "book", .range none none⟩,
            ⟨.scan, "price", .none⟩]⟩ "" bookDoc
        (.obj [("store", .obj [("book", .arr [.obj [], .obj [], .obj []])])])
        [⟨.key, "store", .none⟩, ⟨.range, "book", .range none none⟩] ⟨.scan, "price", .none⟩
        [] .null rfl (by decide)).2.2
      (.fresh [.node [.key "store", .key "book", .idx 0] (.obj [("price", .num 8)]),
        .node [.key "store", .key "book", .idx 1] (.obj [("price", .num 12)]),
        .node [.key "store", .key "book", .idx 2] (.obj [("price", .num 5)])])
      (.fresh [.node [.key "store", .key "book", .idx 0] (.obj []),
        .node [.key "store", .key "book", .idx 1] (.obj []),
        .node [.key "store", .key "book", .idx 2] (.obj [])])
      rfl rfl rfl rfl (by decide) (by decide) (by decide)⟩

/-- C13 as stated fails.  `$.a` deletes the key of `{"a":1,"b":2}`, and the second call
on the result returns the error that the key is not found.  `$.a[0]` deletes the first
element of `{"a":[1,2,3]}`, and the second call deletes the first element of what is
left; so does the range step `$.a[0:0]` with the positions it selects.  The scan step
with a selector `$..k[0]` deletes the first occurrence of `k`, and the second call
deletes the first of the occurrences that are left.  The filter step `$.a[?(@.x)]` on a
target that is a mapping deletes the key `a`, and the second call returns the error that
the key is not found. -/
theorem delete_twice_differs :
    JsonPathLookUpAndDel sampleLib emptyRegistry (.obj [("a", .num 1), ("b", .num 2)]) "$.a" =
        (.obj [("b", .num 2)], none) ∧
      JsonPathLookUpAndDel sampleLib emptyRegistry (.obj [("b", .num 2)]) "$.a" =
        (.obj [("b", .num 2)], some (.keyNotFound "a")) ∧
      JsonPathLookUpAndDel sampleLib emptyRegistry
          (.obj [("a", .arr [.num 1, .num 2, .num 3])]) "$.a[0]" =
        (.obj [("a", .arr [.num 2, .num 3])], none) ∧
      JsonPathLookUpAndDel sampleLib emptyRegistry (.obj [("a", .arr [.num 2, .num 3])])
          "$.a[0]" =
        (.obj [("a", .arr [.num 3])], none) ∧
      JsonPathLookUpAndDel sampleLib emptyRegistry
          (.obj [("a", .arr [.num 1, .num 2, .num 3])]) "$.a[0:0]" =
        (.obj [("a", .arr [.num 3])], none) ∧
      JsonPathLookUpAndDel sampleLib emptyRegistry (.obj [("a", .arr [.num 3])]) "$.a[0:0]" =
        (.obj [("a", .arr [])], none) ∧
      JsonPathLookUpAndDel sampleLib emptyRegistry
          (.obj [("k", .num 1), ("b", .obj [("k", .num 2)])]) "$..k[0]" =
        (.obj [("b", .obj [("k", .num 2)])], none) ∧
      JsonPathLookUpAndDel sampleLib emptyRegistry (.obj [("b", .obj [("k", .num 2)])])
          "$..k[0]" =
        (.obj [("b", .obj [])], none) ∧
      JsonPathLookUpAndDel sampleLib emptyRegistry (.obj [("a", .obj [("x", .num 1)])])
          "$.a[?(@.x)]" =
        (.obj [], none) ∧
      JsonPathLookUpAndDel sampleLib emptyRegistry (.obj []) "$.a[?(@.x)]" =
        (.obj [], some (.keyNotFound "a")) := by
  decide


/-! ## Compiling paths -/

/-- C21: a path whose first character is neither `$` nor `@` is rejected by the
tokenizer, so `Compile` returns an error and no program. -/
theorem Compile_bad_start (p : String) (c : Char) (rest : List Char) (hp : p.data = c :: rest)
    (h1 : c ≠ '$') (h2 : c ≠ '@') : Compile p = .error .shouldStart := by
  have hl : tokenizeLoop (c :: rest) true [] [] = .error .shouldStart := by
    rw [tokenizeLoop]
    simp [h1, h2]
  simp only [Compile, tokenize, hp, hl]

/-- Witness for C21: `foo.bar` starts with `f`. -/
theorem Compile_bad_start_witness : Compile "foo.bar" = .error .shouldStart :=
  Compile_bad_start "foo.bar" 'f' "oo.bar".data rfl (by decide) (by decide)

/-! ## Selections of `Lookup` -/

/-- C29 (the code at the failing input): for a sequence of length 3 the bounds
`from = 2`, `to = 0` pass both range checks and `transforRange` returns `(2, 1)`, a
start beyond the end; `get_range` then asks `reflect` for the slice `[2:1]`, which
panics, and so does the path `$.a[2:0]`. -/
theorem transforRange_start_beyond_end :
    transforRange 3 (some 2) (some 0) = .ok (2, 1) ∧
      get_range (.arr [.num 1, .num 2, .num 3]) (some 2) (some 0) = .error .panic ∧
      JsonPathLookUp sampleLib (.obj [("a", .arr [.num 1, .num 2, .num 3])]) "$.a[2:0]" =
        .error .panic := by
  decide

/-- C25 (the code at the failing input): the filter step of `Lookup` calls `get_key`
with the empty key, which on a sequence keeps the values its elements bind to the empty
name.  On `[{"a":1},{"a":12}]` the path `$[?(@.a > 5)]` returns the empty sequence,
while `$.k[?(@.a > 5)]` on the same sequence under `k` returns `[{"a":12}]`. -/
theorem filter_without_key_selects_nothing :
    JsonPathLookUp sampleLib (.arr [.obj [("a", .num 1)], .obj [("a", .num 12)]])
        "$[?(@.a > 5)]" = .ok (.arr []) ∧
      JsonPathLookUp sampleLib
        (.obj [("k", .arr [.obj [("a", .num 1)], .obj [("a", .num 12)]])]) "$.k[?(@.a > 5)]" =
        .ok (.arr [.obj [("a", .num 12)]]) ∧
      get_key (.arr [.obj [("a", .num 1)], .obj [("a", .num 12)]]) "" = .ok (.arr []) := by
  decide

/-- C26 (amended): a scan step with a selector and the plain scan followed by the
keyless step with the same selector.  With a range, and with an index list of at least
two indices, the two give the same outcome.  With one index the scan step returns the
sequence made of the element that the keyless index step returns.  With an empty index
list the scan step returns the empty sequence. -/
theorem scan_with_selector (lib : GoLib) (root t : JVal) (k : String) :
    (∀ a b : Option Int,
        lookupStep lib root t ⟨.scan, k, .range a b⟩ =
          (lookupStep lib root t ⟨.scan, k, .none⟩).bind fun g =>
            lookupStep lib root g ⟨.range, "", .range a b⟩) ∧
      (∀ l : List Int, l.length > 1 →
        lookupStep lib root t ⟨.scan, k, .idx l⟩ =
          (lookupStep lib root t ⟨.scan, k, .none⟩).bind fun g =>
            lookupStep lib root g ⟨.idx, "", .idx l⟩) ∧
      (∀ i : Int,
        lookupStep lib root t ⟨.scan, k, .idx [i]⟩ =
          ((lookupStep lib root t ⟨.scan, k, .none⟩).bind fun g =>
            lookupStep lib root g ⟨.idx, "", .idx [i]⟩).map fun x => .arr [x]) ∧
      lookupStep lib root t ⟨.scan, k, .idx []⟩ =
        (lookupStep lib root t ⟨.scan, k, .none⟩).map fun _ => .arr [] := by
  have hb : byteLen "".data = 0 := rfl
  refine ⟨fun a b => ?_, fun l hl => ?_, fun i => ?_, ?_⟩
  · cases t <;> simp only [lookupStep, get_recursion, Except.bind] <;>
      cases recursion_search _ k [] <;> simp [hb]
  · cases t <;> simp only [lookupStep, get_recursion, Except.bind] <;>
      cases recursion_search _ k [] <;> simp [hb, hl]
  · cases t <;> simp only [lookupStep, get_recursion, Except.bind, Except.map] <;>
      cases recursion_search _ k [] <;> simp [hb, get_idxList] <;>
      cases get_idx _ i <;> simp
  · cases t <;> simp only [lookupStep, get_recursion, Except.map] <;>
      cases recursion_search _ k [] <;> simp [get_idxList]

/-- Witness for the amended C26: the list `[0, 1]` on the two prices of a document. -/
theorem scan_with_selector_witness :
    lookupStep sampleLib (.arr [.obj [("p", .num 8)], .obj [("p", .num 12)]])
        (.arr [.obj [("p", .num 8)], .obj [("p", .num 12)]]) ⟨.scan, "p", .idx [0, 1]⟩ =
      (lookupStep sampleLib (.arr [.obj [("p", .num 8)], .obj [("p", .num 12)]])
        (.arr [.obj [("p", .num 8)], .obj [("p", .num 12)]]) ⟨.scan, "p", .none⟩).bind fun g =>
          lookupStep sampleLib (.arr [.obj [("p", .num 8)], .obj [("p", .num 12)]]) g
            ⟨.idx, "", .idx [0, 1]⟩ :=
  (scan_with_selector sampleLib (.arr [.obj [("p", .num 8)], .obj [("p", .num 12)]])
    (.arr [.obj [("p", .num 8)], .obj [("p", .num 12)]]) "p").2.1 [0, 1] (by decide)

/-- C26 as stated fails for one index: `$..k[0]` on `{"k":5}` returns the sequence `[5]`,
and the plain scan followed by the keyless step `[0]` returns the element `5`. -/
theorem scan_single_index_returns_sequence :
    JsonPathLookUp sampleLib (.obj [("k", .num 5)]) "$..k[0]" = .ok (.arr [.num 5]) ∧
      ((lookupStep sampleLib (.obj [("k", .num 5)]) (.obj [("k", .num 5)])
        ⟨.scan, "k", .none⟩).bind fun g =>
          lookupStep sampleLib (.obj [("k", .num 5)]) g ⟨.idx, "", .idx [0]⟩) =
        .ok (.num 5) := by
  decide

/-! ## Quoting in filters -/

theorem parse_filterLoop_embraced (cs rest : List Char) (st : FilterState)
    (he : st.str_embrace = true) (hcs : ∀ c ∈ cs, c ≠ Char.ofNat 39) :
    parse_filterLoop (cs ++ rest) st =
      parse_filterLoop rest { st with tmp := ⟨st.tmp.data ++ cs⟩ } := by
  induction cs generalizing st with
  | nil => simp
  | cons c cs ih =>
    have hc := hcs c (List.mem_cons_self _ _)
    have ih2 := ih { st with tmp := st.tmp.push c } he
      (fun x hx => hcs x (List.mem_cons_of_mem _ hx))
    simp only [String.data_push, List.append_assoc, List.singleton_append] at ih2
    rw [List.cons_append, parse_filterLoop, if_neg hc]
    by_cases hs : c = ' '
    · rw [if_pos hs, if_pos he]
      exact ih2
    · rw [if_neg hs]
      exact ih2

theorem parse_filterLoop_embraced_end (cs : List Char) (st : FilterState)
    (he : st.str_embrace = true) (hcs : ∀ c ∈ cs, c ≠ Char.ofNat 39) :
    parse_filterLoop cs st = .ok { st with tmp := ⟨st.tmp.data ++ cs⟩ } := by
  have h := parse_filterLoop_embraced cs [] st he hcs
  rw [List.append_nil] at h
  rw [h, parse_filterLoop]

theorem parse_filterLoop_plain (cs rest : List Char) (st : FilterState)
    (hcs : ∀ c ∈ cs, c ≠ Char.ofNat 39 ∧ c ≠ ' ') :
    parse_filterLoop (cs ++ rest) st =
      parse_filterLoop rest { st with tmp := ⟨st.tmp.data ++ cs⟩ } := by
  induction cs generalizing st with
  | nil => simp
  | cons c cs ih =>
    have hc := hcs c (List.mem_cons_self _ _)
    have ih2 := ih { st with tmp := st.tmp.push c }
      (fun x hx => hcs x (List.mem_cons_of_mem _ hx))
    simp only [String.data_push, List.append_assoc, List.singleton_append] at ih2
    rw [List.cons_append, parse_filterLoop, if_neg hc.1, if_neg hc.2]
    exact ih2

/-- C28 (the code on the inputs of the claim): `str_embrace` is set at the first quote
and never cleared.  For `q`, `o`, `r` without quotes, the filter `'q' o r` does not
parse to `(q, o, r)`: after the closing quote the blanks are still taken as text, and
the result is the left operand ` o r` with the operator `exists`.  The filter `r o 'q'`,
with `o` and `r` free of blanks, parses to `(r, o, q)`. -/
theorem parse_filter_quotes (q o r : String) (hq : ∀ c ∈ q.data, c ≠ Char.ofNat 39)
    (ho : ∀ c ∈ o.data, c ≠ Char.ofNat 39) (hr : ∀ c ∈ r.data, c ≠ Char.ofNat 39) :
    parse_filter ("'" ++ q ++ "' " ++ o ++ " " ++ r) =
        .ok (" " ++ o ++ " " ++ r, "exists", "") ∧
      ((∀ c ∈ o.data, c ≠ ' ') → (∀ c ∈ r.data, c ≠ ' ') →
        parse_filter (r ++ " " ++ o ++ " '" ++ q ++ "'") = .ok (r, o, q)) := by
  constructor
  · have hd : ("'" ++ q ++ "' " ++ o ++ " " ++ r).data =
        Char.ofNat 39 :: (q.data ++ Char.ofNat 39 :: ' ' :: (o.data ++ ' ' :: r.data)) := by
      simp only [String.data_append, List.append_assoc, List.cons_append, List.nil_append]
    have h2 : ∀ c ∈ ' ' :: (o.data ++ ' ' :: r.data), c ≠ Char.ofNat 39 := by
      intro c hc
      simp only [List.mem_cons, List.mem_append] at hc
      rcases hc with rfl | hc | rfl | hc
      · decide
      · exact ho c hc
      · decide
      · exact hr c hc
    have hne : (⟨' ' :: (o.data ++ ' ' :: r.data)⟩ : String) ≠ "" := by
      intro h
      have := congrArg String.data h
      simp at this
    have he : ("" : String).data = [] := rfl
    have hres : (" " ++ o ++ " " ++ r : String) = ⟨' ' :: (o.data ++ ' ' :: r.data)⟩ := by
      apply String.ext
      simp only [String.data_append, List.append_assoc, List.cons_append, List.nil_append]
    rw [parse_filter, hd, parse_filterLoop]
    simp only [if_true]
    rw [parse_filterLoop_embraced q.data _ _ rfl hq, parse_filterLoop]
    simp only [if_true, Bool.true_eq_false, if_false]
    rw [parse_filterLoop_embraced_end _ _ rfl h2]
    simp only [FilterState.store, he, List.nil_append]
    rw [if_pos hne, hres]
  · intro ho2 hr2
    have hd : (r ++ " " ++ o ++ " '" ++ q ++ "'").data =
        r.data ++ ' ' :: (o.data ++ ' ' :: Char.ofNat 39 :: (q.data ++ [Char.ofNat 39])) := by
      simp only [String.data_append, List.append_assoc, List.cons_append, List.nil_append]
    have he : ("" : String).data = [] := rfl
    have hsp : ¬ (' ' = Char.ofNat 39) := by decide
    rw [parse_filter, hd]
    rw [parse_filterLoop_plain r.data _ _ (fun c hc => ⟨hr c hc, hr2 c hc⟩), parse_filterLoop]
    simp only [if_neg hsp, if_true, Bool.false_eq_true, if_false, FilterState.store,
      he, List.nil_append]
    rw [if_neg (by decide)]
    rw [parse_filterLoop_plain o.data _ _ (fun c hc => ⟨ho c hc, ho2 c hc⟩), parse_filterLoop]
    simp only [if_neg hsp, if_true, Bool.false_eq_true, if_false, FilterState.store,
      he, List.nil_append]
    rw [if_neg (by decide), parse_filterLoop]
    simp only [if_true]
    rw [parse_filterLoop_embraced q.data _ _ rfl hq]
    simp only [parse_filterLoop, if_true, Bool.true_eq_false, if_false, FilterState.store,
      he, List.nil_append]
    simp

/-- Witness for C28: the filters `'a b' == c` and `c == 'a b'`. -/
theorem parse_filter_quotes_witness :
    parse_filter ("'" ++ "a b" ++ "' " ++ "==" ++ " " ++ "c") =
        .ok (" " ++ "==" ++ " " ++ "c", "exists", "") ∧
      parse_filter ("c" ++ " " ++ "==" ++ " '" ++ "a b" ++ "'") = .ok ("c", "==", "a b") :=
  ⟨(parse_filter_quotes "a b" "==" "c" (by decide) (by decide) (by decide)).1,
    (parse_filter_quotes "a b" "==" "c" (by decide) (by decide) (by decide)).2 (by decide)
      (by decide)⟩

/-! ## The tokenizer on names and brackets -/

theorem tokenizeLoop_name (cs pre rest : List Char) (tokens : List (List Char))
    (hcs : ∀ c ∈ cs, c ≠ '.' ∧ c ≠ '[') (hpre : '[' ∉ pre) :
    tokenizeLoop (cs ++ rest) false tokens ('.' :: pre) =
      tokenizeLoop rest false tokens ('.' :: pre ++ cs) := by
  induction cs generalizing pre with
  | nil => simp
  | cons x cs ih =>
    have hx := hcs x (List.mem_cons_self _ _)
    have h1 : ¬ ('.' :: pre ++ [x] = ['.']) := by
      cases pre <;> simp
    have h2 : ¬ ('.' :: pre ++ [x] = ['.', '.']) := by
      cases pre with
      | nil => simp [hx.1]
      | cons a as => cases as <;> simp
    have h3m : '[' ∉ '.' :: pre ++ [x] := by
      intro h
      simp only [List.cons_append, List.mem_cons, List.mem_append, List.mem_singleton,
        List.not_mem_nil, or_false] at h
      rcases h with h | h | h
      · exact absurd h (by decide)
      · exact hpre h
      · exact hx.2 h.symm
    have h3 : ('.' :: pre ++ [x]).contains '[' = false := by
      simpa using h3m
    have hpre2 : '[' ∉ pre ++ [x] := by
      simp only [List.mem_append, List.mem_singleton, not_or]
      exact ⟨hpre, fun h => hx.2 h.symm⟩
    have ih2 := ih (pre ++ [x]) (fun c hc => hcs c (List.mem_cons_of_mem _ hc)) hpre2
    rw [List.cons_append, tokenizeLoop]
    simp only [Bool.false_eq_true, if_false, h1, h2, h3, hx.1]
    simpa using ih2

theorem tokenizeLoop_open (rest tok : List Char) (tokens : List (List Char)) :
    tokenizeLoop ('[' :: rest) false tokens tok = tokenizeLoop rest false tokens (tok ++ ['[']) := by
  have h1 : ¬ (tok ++ ['['] = ['.']) := by
    cases tok with
    | nil => simp
    | cons a as => cases as <;> simp
  have h2 : ¬ (tok ++ ['['] = ['.', '.']) := by
    cases tok with
    | nil => simp
    | cons a as =>
      cases as with
      | nil => simp
      | cons b bs => cases bs <;> simp
  have h3 : (tok ++ ['[']).contains '[' = true := by simp
  rw [tokenizeLoop]
  simp only [Bool.false_eq_true, if_false, h1, h2, h3, if_true]
  rw [if_neg (by simp)]

theorem endsWith_backslash (t : List Char) :
    endsWith (t ++ [']']) [Char.ofNat 92, ']'] = decide (t.getLast? = some (Char.ofNat 92)) := by
  rcases List.eq_nil_or_concat t with h | ⟨t2, c, h⟩
  · subst h
    rfl
  · subst h
    simp [endsWith, startsWith]

theorem tokenizeLoop_bracket (cs rest tok : List Char) (tokens : List (List Char))
    (htok : '[' ∈ tok) (hcs : ∀ c ∈ cs, c ≠ ']')
    (hlast : (tok ++ cs).getLast? ≠ some (Char.ofNat 92)) :
    tokenizeLoop (cs ++ ']' :: rest) false tokens tok =
      tokenizeLoop rest false
        (tokens ++ [if (tok ++ cs ++ [']']).head? = some '.' then (tok ++ cs ++ [']']).tail
          else tok ++ cs ++ [']']]) [] := by
  induction cs generalizing tok with
  | nil =>
    have h1 : ¬ (tok ++ [']'] = ['.']) := by
      cases tok with
      | nil => simp
      | cons a as => cases as <;> simp
    have h2 : ¬ (tok ++ [']'] = ['.', '.']) := by
      cases tok with
      | nil => simp
      | cons a as =>
        cases as with
        | nil => simp
        | cons b bs => cases bs <;> simp
    have h3 : (tok ++ [']']).contains '[' = true := by simp [htok]
    have h4 : endsWith (tok ++ [']']) [Char.ofNat 92, ']'] = false := by
      rw [endsWith_backslash]
      simpa using hlast
    rw [List.nil_append, tokenizeLoop]
    simp only [Bool.false_eq_true, if_false, h1, h2, h3, h4, if_true, and_self, List.append_nil]
  | cons x cs ih =>
    have hx := hcs x (List.mem_cons_self _ _)
    have hmem : '[' ∈ tok ++ [x] := List.mem_append_left _ htok
    have h1 : ¬ (tok ++ [x] = ['.']) := by
      intro h
      rw [h] at hmem
      simp at hmem
    have h2 : ¬ (tok ++ [x] = ['.', '.']) := by
      intro h
      rw [h] at hmem
      simp at hmem
    have h3 : (tok ++ [x]).contains '[' = true := by simpa using hmem
    have ih2 := ih (tok ++ [x]) hmem (fun c hc => hcs c (List.mem_cons_of_mem _ hc))
      (by simpa using hlast)
    rw [List.cons_append, tokenizeLoop]
    simp only [Bool.false_eq_true, if_false, h1, h2, h3, if_true]
    rw [if_neg (fun h => hx h.1), ih2]
    simp

theorem getLast?_after_open (tok body : List Char)
    (hlast : body.getLast? ≠ some (Char.ofNat 92)) :
    ((tok ++ ['[']) ++ body).getLast? ≠ some (Char.ofNat 92) := by
  rcases List.eq_nil_or_concat body with h | ⟨b2, c, h⟩
  · subst h
    rw [List.append_nil, List.getLast?_concat]
    decide
  · subst h
    rw [List.concat_eq_append] at hlast ⊢
    rw [← List.append_assoc, List.getLast?_concat]
    rw [List.getLast?_concat] at hlast
    exact hlast

theorem tokenize_bracketed (m : Char) (n body : List Char) (hm : m = '$' ∨ m = '@')
    (hn : ∀ c ∈ n, c ≠ '.' ∧ c ≠ '[') (hbody : ∀ c ∈ body, c ≠ ']')
    (hlast : body.getLast? ≠ some (Char.ofNat 92)) :
    tokenize ⟨m :: '.' :: (n ++ '[' :: (body ++ [']']))⟩ =
      .ok [[m], n ++ '[' :: (body ++ [']'])] := by
  have hfirst : tokenizeLoop (m :: '.' :: (n ++ '[' :: (body ++ [']']))) true [] [] =
      tokenizeLoop (n ++ '[' :: (body ++ [']'])) false [[m]] ['.'] := by
    rw [tokenizeLoop]
    simp only [List.nil_append, if_true]
    rw [if_pos (by rcases hm with h | h <;> simp [h]), tokenizeLoop]
    simp
  have h := tokenizeLoop_name n [] ('[' :: (body ++ [']'])) [[m]] hn (by simp)
  have h2 := tokenizeLoop_bracket body [] ((['.'] ++ n) ++ ['[']) [[m]] (by simp) hbody
    (getLast?_after_open (['.'] ++ n) body hlast)
  simp only [List.append_nil] at h
  simp only [tokenize]
  rw [hfirst, h, tokenizeLoop_open, h2]
  simp [tokenizeLoop]

theorem tokenize_bracketed_root (m : Char) (body : List Char) (hm : m = '$' ∨ m = '@')
    (hbody : ∀ c ∈ body, c ≠ ']') (hlast : body.getLast? ≠ some (Char.ofNat 92)) :
    tokenize ⟨m :: '[' :: (body ++ [']'])⟩ = .ok [[m], '[' :: (body ++ [']'])] := by
  have hfirst : tokenizeLoop (m :: '[' :: (body ++ [']'])) true [] [] =
      tokenizeLoop ('[' :: (body ++ [']'])) false [[m]] [] := by
    rw [tokenizeLoop]
    simp only [List.nil_append, if_true]
    rw [if_pos (by rcases hm with h | h <;> simp [h])]
  have h2 := tokenizeLoop_bracket body [] ([] ++ ['[']) [[m]] (by simp) hbody
    (getLast?_after_open [] body hlast)
  simp only [tokenize]
  rw [hfirst, tokenizeLoop_open, h2]
  simp [tokenizeLoop]

/-! ## Bracket bodies -/

theorem takeWhile_until_open (n rest : List Char) (hn : '[' ∉ n) :
    (n ++ '[' :: rest).takeWhile (fun c => c ≠ '[') = n := by
  induction n with
  | nil => simp [List.takeWhile]
  | cons x xs ih =>
    have hx : x ≠ '[' := fun h => hn (by simp [h])
    have ih2 := ih (fun h => hn (List.mem_cons_of_mem _ h))
    simpa [List.takeWhile, hx] using ih2

theorem dropWhile_until_open (n rest : List Char) (hn : '[' ∉ n) :
    (n ++ '[' :: rest).dropWhile (fun c => c ≠ '[') = '[' :: rest := by
  induction n with
  | nil => simp [List.dropWhile]
  | cons x xs ih =>
    have hx : x ≠ '[' := fun h => hn (by simp [h])
    have ih2 := ih (fun h => hn (List.mem_cons_of_mem _ h))
    simpa [List.dropWhile, hx] using ih2

theorem byteLen_pos_of_ne_nil (s : List Char) (h : s ≠ []) : 0 < byteLen s := by
  cases s with
  | nil => exact absurd rfl h
  | cons c cs =>
    have := Char.utf8Size_pos c
    simp only [byteLen, List.map_cons, List.sum_cons]
    omega

theorem byteLen_append (s t : List Char) : byteLen (s ++ t) = byteLen s + byteLen t := by
  simp [byteLen]

theorem dropLastByte_close (body : List Char) : dropLastByte (body ++ [']']) = body := by
  have h : (']' : Char).utf8Size = 1 := by decide
  simp [dropLastByte, h]

theorem parse_token_bracket (n body : List Char) (hn : '[' ∉ n) (hb : body ≠ []) :
    parse_token (n ++ '[' :: (body ++ [']'])) =
      if body.contains '?' then
        if startsWith body ['?', '('] && endsWith body [')'] then
          .ok (.filter, String.mk n, .filter (String.mk (trimSpaces (body.drop 2).dropLast)))
        else .ok (.filter, String.mk n, .none)
      else if body.contains ':' then
        match splitOnChar ':' body with
        | [t0, t1] =>
          match atoi (trimSpaces t1) with
          | some tov => .ok (.range, String.mk n, .range (atoi (trimSpaces t0)) (some tov))
          | none =>
            if trimSpaces t1 = [] then .ok (.range, String.mk n, .range (atoi (trimSpaces t0)) none)
            else .error (.atoi (String.mk (trimSpaces t1)))
        | _ => .error .oneRange
      else if body = ['*'] then .ok (.range, String.mk n, .range none none)
      else
        match parseIdxList (splitOnChar ',' body) with
        | .error e => .error e
        | .ok res => .ok (.idx, String.mk n, .idx res) := by
  have h1 : ¬ (n ++ '[' :: (body ++ [']']) = ['$']) := by
    intro h
    have : '[' ∈ n ++ '[' :: (body ++ [']']) := by simp
    rw [h] at this
    simp at this
  have h2 : ¬ ((n ++ '[' :: (body ++ [']'])).contains '[' = false) := by simp
  have h3 : ¬ (byteLen ('[' :: (body ++ [']'])) < 3) := by
    have hp := byteLen_pos_of_ne_nil body hb
    have e : byteLen ('[' :: (body ++ [']'])) = 1 + (byteLen body + 1) := by
      rw [show '[' :: (body ++ [']']) = ['['] ++ (body ++ [']']) from rfl, byteLen_append,
        byteLen_append]
      rfl
    omega
  unfold parse_token
  simp only [if_neg h1, if_neg h2, takeWhile_until_open n _ hn, dropWhile_until_open n _ hn,
    if_neg h3, List.tail_cons, dropLastByte_close]

/-! ## Integers in paths -/

theorem digitChar_digit (m : Nat) (h : m < 10) :
    ('0' ≤ Nat.digitChar m ∧ Nat.digitChar m ≤ '9') ∧ (Nat.digitChar m).toNat - 48 = m := by
  interval_cases m <;> decide

theorem digitsValue_concat (pre : List Char) (d : Char) :
    digitsValue (pre ++ [d]) = digitsValue pre * 10 + (d.toNat - 48) := by
  simp [digitsValue, List.foldl_append]

theorem allDigits_concat (pre : List Char) (d : Char) :
    allDigits (pre ++ [d]) = (allDigits pre && decide ('0' ≤ d ∧ d ≤ '9')) := by
  simp [allDigits, List.all_append]

theorem toDigitsCore_spec : ∀ (fuel n : Nat) (ds : List Char), n < fuel →
    ∃ pre, Nat.toDigitsCore 10 fuel n ds = pre ++ ds ∧ pre ≠ [] ∧ allDigits pre = true ∧
      digitsValue pre = n
  | 0, _, _, h => absurd h (Nat.not_lt_zero _)
  | fuel + 1, n, ds, h => by
    have hd := digitChar_digit (n % 10) (Nat.mod_lt _ (by decide))
    by_cases h0 : n / 10 = 0
    · refine ⟨[Nat.digitChar (n % 10)], ?_, by simp, ?_, ?_⟩
      · simp [Nat.toDigitsCore, h0]
      · simp [allDigits, hd.1]
      · have : n % 10 = n := Nat.mod_eq_of_lt (by omega)
        simp only [digitsValue, List.foldl, Nat.zero_mul, Nat.zero_add]
        rw [hd.2]
        exact this
    · obtain ⟨pre, h1, _, h3, h4⟩ := toDigitsCore_spec fuel (n / 10)
        (Nat.digitChar (n % 10) :: ds) (by omega)
      refine ⟨pre ++ [Nat.digitChar (n % 10)], ?_, by simp, ?_, ?_⟩
      · simp [Nat.toDigitsCore, h0, h1]
      · rw [allDigits_concat, h3]
        simp [hd.1]
      · rw [digitsValue_concat, h4, hd.2]
        omega

theorem toDigits_spec (n : Nat) :
    Nat.toDigits 10 n ≠ [] ∧ allDigits (Nat.toDigits 10 n) = true ∧
      digitsValue (Nat.toDigits 10 n) = n := by
  obtain ⟨pre, h1, h2, h3, h4⟩ := toDigitsCore_spec (n + 1) n [] (Nat.lt_succ_self n)
  rw [List.append_nil] at h1
  rw [Nat.toDigits, h1]
  exact ⟨h2, h3, h4⟩

theorem allDigits_head (s : List Char) (h1 : s ≠ []) (h2 : allDigits s = true) :
    s.head? ≠ some '-' ∧ s.head? ≠ some '+' := by
  cases s with
  | nil => exact absurd rfl h1
  | cons c cs =>
    simp only [allDigits, List.all_cons, Bool.and_eq_true, decide_eq_true_eq] at h2
    simp only [List.head?_cons, ne_eq, Option.some.injEq]
    constructor
    · intro h
      subst h
      exact absurd h2.1.1 (by decide)
    · intro h
      subst h
      exact absurd h2.1.1 (by decide)

theorem atoi_renderInt (a : Int) (h : IsInt64 a) : atoi (renderInt a) = some a := by
  unfold IsInt64 at h
  by_cases ha : a < 0
  · obtain ⟨h1, h2, h3⟩ := toDigits_spec a.natAbs
    have hv : -((a.natAbs : Nat) : Int) = a := by omega
    simp only [renderInt, if_pos ha, atoi, List.head?_cons, true_or, if_true, List.tail_cons,
      h1, h2, h3, false_or, Bool.true_eq_false, if_false, hv]
    rw [if_pos h]
  · obtain ⟨h1, h2, h3⟩ := toDigits_spec a.toNat
    obtain ⟨g1, g2⟩ := allDigits_head _ h1 h2
    have hv : ((a.toNat : Nat) : Int) = a := by omega
    simp only [renderInt, if_neg ha, atoi, g1, g2, or_self, if_false, h1, h2, h3, false_or,
      Bool.true_eq_false, hv]
    rw [if_pos h]

theorem renderInt_chars (a : Int) : ∀ c ∈ renderInt a, c = '-' ∨ ('0' ≤ c ∧ c ≤ '9') := by
  have key : ∀ s : List Char, allDigits s = true → ∀ c ∈ s, '0' ≤ c ∧ c ≤ '9' := by
    intro s hs c hc
    simp only [allDigits, List.all_eq_true, decide_eq_true_eq] at hs
    exact hs c hc
  intro c hc
  by_cases ha : a < 0
  · simp only [renderInt, if_pos ha, List.mem_cons] at hc
    rcases hc with hc | hc
    · exact Or.inl hc
    · exact Or.inr (key _ (toDigits_spec _).2.1 c hc)
  · simp only [renderInt, if_neg ha] at hc
    exact Or.inr (key _ (toDigits_spec _).2.1 c hc)

theorem renderBound_chars (a : Option Int) :
    ∀ c ∈ renderBound a, c = '-' ∨ ('0' ≤ c ∧ c ≤ '9') := by
  cases a with
  | none => simp [renderBound]
  | some x => exact renderInt_chars x

theorem signOrDigit_ne (c x : Char) (hc : c = '-' ∨ ('0' ≤ c ∧ c ≤ '9'))
    (hx : x ≠ '-' ∧ ¬ ('0' ≤ x ∧ x ≤ '9')) : c ≠ x := by
  intro h
  subst h
  rcases hc with hc | hc
  · exact hx.1 hc
  · exact hx.2 hc

theorem trimLeft_id (s : List Char) (h : ∀ c ∈ s, c ≠ ' ') : trimLeft s = s := by
  cases s with
  | nil => rfl
  | cons c cs => simp [trimLeft, h c (List.mem_cons_self _ _)]

theorem trimSpaces_id (s : List Char) (h : ∀ c ∈ s, c ≠ ' ') : trimSpaces s = s := by
  rw [trimSpaces, trimLeft_id s h, trimLeft_id s.reverse (fun c hc => h c (List.mem_reverse.mp hc)),
    List.reverse_reverse]

theorem splitAux_no_sep (sep : Char) (A rest cur : List Char) (h : sep ∉ A) :
    splitAux sep (A ++ rest) cur = splitAux sep rest (cur ++ A) := by
  induction A generalizing cur with
  | nil => simp
  | cons x xs ih =>
    have hx : x ≠ sep := fun e => h (by simp [e])
    rw [List.cons_append, splitAux, if_neg hx, ih _ (fun e => h (List.mem_cons_of_mem _ e))]
    simp

theorem splitOnChar_none (sep : Char) (A : List Char) (h : sep ∉ A) :
    splitOnChar sep A = [A] := by
  have := splitAux_no_sep sep A [] [] h
  simp only [List.append_nil, List.nil_append] at this
  rw [splitOnChar, this, splitAux]

theorem splitOnChar_once (sep : Char) (A B : List Char) (hA : sep ∉ A) (hB : sep ∉ B) :
    splitOnChar sep (A ++ sep :: B) = [A, B] := by
  have h1 := splitAux_no_sep sep A (sep :: B) [] hA
  have h2 := splitOnChar_none sep B hB
  rw [splitOnChar] at h2
  rw [splitOnChar, h1, splitAux, if_pos rfl, h2]
  simp

theorem isAlpha_ne (c : Char) (h : c.isAlpha = true) :
    c ≠ '.' ∧ c ≠ '[' ∧ c ≠ '*' ∧ c ≠ '$' ∧ c ≠ ',' ∧ c ≠ '?' ∧ c ≠ ':' ∧ c ≠ ']' ∧ c ≠ ' ' := by
  refine ⟨?_, ?_, ?_, ?_, ?_, ?_, ?_, ?_, ?_⟩ <;>
    · intro e
      subst e
      exact absurd h (by decide)

theorem renderBound_ne (a : Option Int) (x : Char)
    (hx : x ≠ '-' ∧ ¬ ('0' ≤ x ∧ x ≤ '9')) : x ∉ renderBound a := fun h =>
  signOrDigit_ne x x (renderBound_chars a x h) hx rfl

theorem atoi_renderBound (a : Option Int) (ha : ∀ x, a = some x → IsInt64 x) :
    atoi (trimSpaces (renderBound a)) = a ∧ trimSpaces (renderBound a) = renderBound a := by
  have ht : trimSpaces (renderBound a) = renderBound a :=
    trimSpaces_id _ (fun c hc e => renderBound_ne a ' ' (by decide) (e ▸ hc))
  rw [ht]
  cases a with
  | none => exact ⟨rfl, rfl⟩
  | some x => exact ⟨atoi_renderInt x (ha x rfl), rfl⟩

theorem bracket_ne_star (n rest : List Char) : n ++ '[' :: rest ≠ ['*'] := by
  intro h
  have hm : '[' ∈ n ++ '[' :: rest := by simp
  rw [h] at hm
  simp at hm

theorem Compile_one_token (p : String) (m : Char) (tok : List Char) (op : Op) (key : String)
    (args : Args) (hm : m = '$' ∨ m = '@') (ht : tokenize p = .ok [[m], tok])
    (hstar : tok ≠ ['*']) (hp : parse_token tok = .ok (op, key, args)) :
    Compile p = .ok ⟨p, [⟨op, key, args⟩]⟩ := by
  have h0 : ¬ ([m] ≠ ['@'] ∧ [m] ≠ ['$']) := by
    rcases hm with h | h <;> simp [h]
  simp only [Compile, ht, if_neg h0, compileLoop, if_neg hstar, hp, List.nil_append]

/-- C27: for a field name `n` made of letters and bounds `a`, `b` that are Go integers or
absent, the path `$.n[A:B]`, with `A` and `B` the decimal renderings of the bounds (empty
for an absent bound), compiles to the single step `range` with key `n` and arguments
`(a, b)`; the path `$.n[*]` compiles to the range step with both bounds absent. -/
theorem Compile_range (n : String) (a b : Option Int) (hn : ∀ c ∈ n.data, c.isAlpha = true)
    (ha : ∀ x, a = some x → IsInt64 x) (hb : ∀ x, b = some x → IsInt64 x) :
    Compile ("$." ++ n ++ "[" ++ ⟨renderBound a⟩ ++ ":" ++ ⟨renderBound b⟩ ++ "]") =
        .ok ⟨"$." ++ n ++ "[" ++ ⟨renderBound a⟩ ++ ":" ++ ⟨renderBound b⟩ ++ "]",
          [⟨.range, n, .range a b⟩]⟩ ∧
      Compile ("$." ++ n ++ "[*]") = .ok ⟨"$." ++ n ++ "[*]", [⟨.range, n, .range none none⟩]⟩ := by
  have hn1 : ∀ c ∈ n.data, c ≠ '.' ∧ c ≠ '[' := fun c hc =>
    ⟨(isAlpha_ne c (hn c hc)).1, (isAlpha_ne c (hn c hc)).2.1⟩
  have hn2 : '[' ∉ n.data := fun h => (hn1 _ h).2 rfl
  constructor
  · have hp : ("$." ++ n ++ "[" ++ ⟨renderBound a⟩ ++ ":" ++ ⟨renderBound b⟩ ++ "]" : String) =
        ⟨'$' :: '.' :: (n.data ++ '[' :: ((renderBound a ++ ':' :: renderBound b) ++ [']']))⟩ := by
      apply String.ext
      simp [String.data_append]
    have hbody : ∀ c ∈ renderBound a ++ ':' :: renderBound b, c ≠ ']' := by
      intro c hc e
      subst e
      simp only [List.mem_append, List.mem_cons] at hc
      rcases hc with hc | hc | hc
      · exact renderBound_ne a ']' (by decide) hc
      · exact absurd hc (by decide)
      · exact renderBound_ne b ']' (by decide) hc
    have hlast : (renderBound a ++ ':' :: renderBound b).getLast? ≠ some (Char.ofNat 92) := by
      intro h
      have hm := List.mem_of_getLast?_eq_some h
      simp only [List.mem_append, List.mem_cons] at hm
      rcases hm with hc | hc | hc
      · exact renderBound_ne a (Char.ofNat 92) (by decide) hc
      · exact absurd hc (by decide)
      · exact renderBound_ne b (Char.ofNat 92) (by decide) hc
    have hq : (renderBound a ++ ':' :: renderBound b).contains '?' = false := by
      simp only [List.contains_eq_any_beq, List.any_eq_false, beq_iff_eq, List.mem_append,
        List.mem_cons]
      intro c hc e
      subst e
      rcases hc with hc | hc | hc
      · exact renderBound_ne a '?' (by decide) hc
      · exact absurd hc (by decide)
      · exact renderBound_ne b '?' (by decide) hc
    have hc : (renderBound a ++ ':' :: renderBound b).contains ':' = true := by simp
    have hs := splitOnChar_once ':' (renderBound a) (renderBound b)
      (renderBound_ne a ':' (by decide)) (renderBound_ne b ':' (by decide))
    have hpt : parse_token (n.data ++ '[' :: ((renderBound a ++ ':' :: renderBound b) ++ [']'])) =
        .ok (.range, n, .range a b) := by
      rw [parse_token_bracket _ _ hn2 (by simp)]
      simp only [hq, hc, hs, (atoi_renderBound a ha).1, Bool.false_eq_true, if_false, if_true]
      cases b with
      | none => simp [renderBound, trimSpaces, trimLeft, atoi]
      | some y => simp only [(atoi_renderBound (some y) hb).1]
    rw [hp]
    exact Compile_one_token _ '$' _ _ _ _ (Or.inl rfl)
      (tokenize_bracketed '$' n.data _ (Or.inl rfl) hn1 hbody hlast) (bracket_ne_star _ _) hpt
  · have hp : ("$." ++ n ++ "[*]" : String) = ⟨'$' :: '.' :: (n.data ++ '[' :: (['*'] ++ [']']))⟩ := by
      apply String.ext
      simp [String.data_append]
    have hpt : parse_token (n.data ++ '[' :: (['*'] ++ [']'])) = .ok (.range, n, .range none none) := by
      rw [parse_token_bracket _ _ hn2 (by simp)]
      simp
    rw [hp]
    exact Compile_one_token _ '$' _ _ _ _ (Or.inl rfl)
      (tokenize_bracketed '$' n.data _ (Or.inl rfl) hn1 (by decide) (by decide))
      (bracket_ne_star _ _) hpt

/-- Witness for C27: `$.book[-3:5]`, and `$.book[:]` with both bounds absent. -/
theorem Compile_range_witness :
    (Compile ("$." ++ "book" ++ "[" ++ ⟨renderBound (some (-3))⟩ ++ ":" ++
        ⟨renderBound (some 5)⟩ ++ "]") =
        .ok ⟨"$." ++ "book" ++ "[" ++ ⟨renderBound (some (-3))⟩ ++ ":" ++
          ⟨renderBound (some 5)⟩ ++ "]", [⟨.range, "book", .range (some (-3)) (some 5)⟩]⟩ ∧
      Compile ("$." ++ "book" ++ "[*]") =
        .ok ⟨"$." ++ "book" ++ "[*]", [⟨.range, "book", .range none none⟩]⟩) ∧
      ("$." ++ "book" ++ "[" ++ ⟨renderBound (some (-3))⟩ ++ ":" ++ ⟨renderBound (some 5)⟩ ++ "]" :
        String) = "$.book[-3:5]" :=
  ⟨Compile_range "book" (some (-3)) (some 5) (by decide)
    (fun x h => by cases h; decide) (fun x h => by cases h; decide), by decide⟩

theorem tokenize_child (n : List Char) (hn : ∀ c ∈ n, c ≠ '.' ∧ c ≠ '[') (hstar : n ≠ ['*']) :
    tokenize ⟨'$' :: '.' :: n⟩ = .ok [['$'], n] := by
  have hfirst : tokenizeLoop ('$' :: '.' :: n) true [] [] =
      tokenizeLoop (n ++ []) false [['$']] ['.'] := by
    rw [tokenizeLoop]
    simp only [List.nil_append, if_true]
    rw [if_pos (by simp), tokenizeLoop]
    simp
  have h := tokenizeLoop_name n [] [] [['$']] hn (by simp)
  simp only [tokenize]
  rw [hfirst, h]
  simp [tokenizeLoop, hstar]

theorem atoi_quoted (s : List Char) : atoi (Char.ofNat 39 :: s) = none := by
  have h1 : ¬ ((Char.ofNat 39 :: s).head? = some '-' ∨ (Char.ofNat 39 :: s).head? = some '+') := by
    simp only [List.head?_cons, Option.some.injEq]
    decide
  have h2 : allDigits (Char.ofNat 39 :: s) = false := by
    simp only [allDigits, List.all_cons]
    have : decide ('0' ≤ Char.ofNat 39 ∧ Char.ofNat 39 ≤ '9') = false := by decide
    rw [this]
    rfl
  simp only [atoi, if_neg h1, h2, or_true, if_true]

/-- C24 (amended): for a field name `n` made of letters, `Compile` rejects the path
`$['n']`: the text between the brackets is read as an index list, and `'n'` is not an
integer.  The child path `$.n` compiles to the single key step `n`, and `Lookup` of it on
a mapping that binds `n` returns the value bound to `n`. -/
theorem bracketed_child_rejected (lib : GoLib) (n : String)
    (hn : ∀ c ∈ n.data, c.isAlpha = true) :
    Compile ("$['" ++ n ++ "']") = .error (.atoi ("'" ++ n ++ "'")) ∧
      Compile ("$." ++ n) = .ok ⟨"$." ++ n, [⟨.key, n, .none⟩]⟩ ∧
      (∀ (m : JMap) (v : JVal), lookupKey n m = some v →
        JsonPathLookUp lib (.obj m) ("$." ++ n) = .ok v) := by
  have hn1 : ∀ c ∈ n.data, c ≠ '.' ∧ c ≠ '[' := fun c hc =>
    ⟨(isAlpha_ne c (hn c hc)).1, (isAlpha_ne c (hn c hc)).2.1⟩
  have hstar : n.data ≠ ['*'] := by
    intro h
    have := hn '*' (by rw [h]; simp)
    exact absurd this (by decide)
  have hdollar : ¬ (n.data = ['$']) := by
    intro h
    have := hn '$' (by rw [h]; simp)
    exact absurd this (by decide)
  have hchild : Compile ("$." ++ n) = .ok ⟨"$." ++ n, [⟨.key, n, .none⟩]⟩ := by
    have hp : ("$." ++ n : String) = ⟨'$' :: '.' :: n.data⟩ := by
      apply String.ext
      simp [String.data_append]
    have hpt : parse_token n.data = .ok (.key, n, .none) := by
      have hmem : '[' ∉ n.data := fun h => (hn1 _ h).2 rfl
      simp [parse_token, hdollar, hmem]
    rw [hp]
    exact Compile_one_token _ '$' _ _ _ _ (Or.inl rfl) (tokenize_child n.data hn1 hstar) hstar hpt
  refine ⟨?_, hchild, ?_⟩
  · have hp : ("$['" ++ n ++ "']" : String) =
        ⟨'$' :: '[' :: ((Char.ofNat 39 :: (n.data ++ [Char.ofNat 39])) ++ [']'])⟩ := by
      apply String.ext
      simp [String.data_append]
    have hres : ("'" ++ n ++ "'" : String) = ⟨Char.ofNat 39 :: (n.data ++ [Char.ofNat 39])⟩ := by
      apply String.ext
      simp [String.data_append]
    have hmem : ∀ x : Char, x ≠ Char.ofNat 39 → x.isAlpha = false →
        x ∉ Char.ofNat 39 :: (n.data ++ [Char.ofNat 39]) := by
      intro x h1 h2 h
      simp only [List.mem_cons, List.mem_append, List.not_mem_nil, or_false] at h
      rcases h with h | h | h
      · exact h1 h
      · rw [hn x h] at h2
        exact absurd h2 (by decide)
      · exact h1 h
    have hbody : ∀ c ∈ Char.ofNat 39 :: (n.data ++ [Char.ofNat 39]), c ≠ ']' := by
      intro c hc e
      subst e
      exact hmem ']' (by decide) (by decide) hc
    have hlast : (Char.ofNat 39 :: (n.data ++ [Char.ofNat 39])).getLast? ≠
        some (Char.ofNat 92) := by
      intro h
      exact hmem (Char.ofNat 92) (by decide) (by decide) (List.mem_of_getLast?_eq_some h)
    have hq : (Char.ofNat 39 :: (n.data ++ [Char.ofNat 39])).contains '?' = false := by
      rw [List.contains_eq_any_beq, List.any_eq_false]
      intro c hc e
      have : c = '?' := (by simpa using e : '?' = c).symm
      subst this
      exact hmem '?' (by decide) (by decide) hc
    have hcol : (Char.ofNat 39 :: (n.data ++ [Char.ofNat 39])).contains ':' = false := by
      rw [List.contains_eq_any_beq, List.any_eq_false]
      intro c hc e
      have : c = ':' := (by simpa using e : ':' = c).symm
      subst this
      exact hmem ':' (by decide) (by decide) hc
    have hne : ¬ (Char.ofNat 39 :: (n.data ++ [Char.ofNat 39]) = ['*']) := by
      intro h
      have := congrArg List.head? h
      simp at this
    have hsplit := splitOnChar_none ',' (Char.ofNat 39 :: (n.data ++ [Char.ofNat 39]))
      (hmem ',' (by decide) (by decide))
    have htrim := trimSpaces_id (Char.ofNat 39 :: (n.data ++ [Char.ofNat 39]))
      (fun c hc e => hmem ' ' (by decide) (by decide) (e ▸ hc))
    have hpt : parse_token ([] ++ '[' :: ((Char.ofNat 39 :: (n.data ++ [Char.ofNat 39])) ++ [']'])) =
        .error (.atoi ⟨Char.ofNat 39 :: (n.data ++ [Char.ofNat 39])⟩) := by
      rw [parse_token_bracket _ _ (by simp) (by simp)]
      simp only [hq, hcol, if_neg hne, hsplit, parseIdxList, htrim, atoi_quoted,
        Bool.false_eq_true, if_false]
    rw [List.nil_append] at hpt
    have ht := tokenize_bracketed_root '$' (Char.ofNat 39 :: (n.data ++ [Char.ofNat 39]))
      (Or.inl rfl) hbody hlast
    have hst := bracket_ne_star [] ((Char.ofNat 39 :: (n.data ++ [Char.ofNat 39])) ++ [']'])
    rw [List.nil_append] at hst
    rw [hp, hres]
    simp only [Compile, ht, compileLoop, if_neg hst, hpt]
    simp
  · intro m v hv
    simp only [JsonPathLookUp, hchild, Compiled.Lookup, lookupLoop, lookupStep, get_key, hv]

/-- Witness for the amended C24: the name `store`. -/
theorem bracketed_child_rejected_witness :
    Compile ("$['" ++ "store" ++ "']") = .error (.atoi ("'" ++ "store" ++ "'")) ∧
      Compile ("$." ++ "store") = .ok ⟨"$." ++ "store", [⟨.key, "store", .none⟩]⟩ ∧
      (∀ (m : JMap) (v : JVal), lookupKey "store" m = some v →
        JsonPathLookUp sampleLib (.obj m) ("$." ++ "store") = .ok v) :=
  bracketed_child_rejected sampleLib "store" (by decide)

/-- C24 as stated fails: `Compile` does not accept `$['store']`, and the lookup returns
the error of the integer parser where `$.store` returns the value. -/
theorem bracketed_child_does_not_compile :
    Compile "$['store']" = .error (.atoi "'store'") ∧
      JsonPathLookUp sampleLib (.obj [("store", .num 1)]) "$['store']" =
        .error (.atoi "'store'") ∧
      JsonPathLookUp sampleLib (.obj [("store", .num 1)]) "$.store" = .ok (.num 1) := by
  decide

/-! ## What `Compile` makes of the tokens -/

theorem parse_token_cases (t : List Char) (op : Op) (key : String) (args : Args)
    (h : parse_token t = .ok (op, key, args)) :
    (t = ['$'] ∧ op = .root ∧ key = "$") ∨
      (t ≠ ['$'] ∧ t.contains '[' = false ∧ op = .key ∧ key = ⟨t⟩) ∨
      (t ≠ ['$'] ∧ t.contains '[' = true ∧ key = ⟨t.takeWhile (fun c => c ≠ '[')⟩ ∧
        (op = .filter ∨ op = .range ∨ op = .idx)) := by
  by_cases h1 : t = ['$']
  · subst h1
    simp only [parse_token, if_true, Except.ok.injEq, Prod.mk.injEq] at h
    exact Or.inl ⟨rfl, h.1.symm, h.2.1.symm⟩
  · by_cases h2 : t.contains '[' = false
    · simp only [parse_token, if_neg h1, h2, if_true, Except.ok.injEq, Prod.mk.injEq] at h
      exact Or.inr (Or.inl ⟨h1, h2, h.1.symm, h.2.1.symm⟩)
    · refine Or.inr (Or.inr ⟨h1, by simpa using h2, ?_⟩)
      simp only [parse_token, if_neg h1, if_neg h2] at h
      split_ifs at h
      · simp only [Except.ok.injEq, Prod.mk.injEq] at h
        exact ⟨h.2.1.symm, Or.inl h.1.symm⟩
      · simp only [Except.ok.injEq, Prod.mk.injEq] at h
        exact ⟨h.2.1.symm, Or.inl h.1.symm⟩
      · split at h
        · split at h
          · simp only [Except.ok.injEq, Prod.mk.injEq] at h
            exact ⟨h.2.1.symm, Or.inr (Or.inl h.1.symm)⟩
          · split_ifs at h
            simp only [Except.ok.injEq, Prod.mk.injEq] at h
            exact ⟨h.2.1.symm, Or.inr (Or.inl h.1.symm)⟩
        · simp at h
      · simp only [Except.ok.injEq, Prod.mk.injEq] at h
        exact ⟨h.2.1.symm, Or.inr (Or.inl h.1.symm)⟩
      · split at h
        · simp at h
        · simp only [Except.ok.injEq, Prod.mk.injEq] at h
          exact ⟨h.2.1.symm, Or.inr (Or.inr h.1.symm)⟩

theorem compileLoop_steps : ∀ (n : Nat) (ts : List (List Char)) (steps0 res : List Step),
    ts.length ≤ n → compileLoop ts steps0 = .ok res →
    ∃ more, res = steps0 ++ more ∧ (ts ≠ [] → more ≠ []) ∧
      ∀ s ∈ more,
        (s.op = .scan ∧ ∃ l1 t2 l2 op args, ts = l1 ++ ['*'] :: t2 :: l2 ∧
          parse_token t2 = .ok (op, s.key, args)) ∨
        (∃ t ∈ ts, t ≠ ['*'] ∧ parse_token t = .ok (s.op, s.key, s.args))
  | _, [], steps0, res, _, h => by
    simp only [compileLoop, Except.ok.injEq] at h
    exact ⟨[], by simp [h], by simp, by simp⟩
  | 0, _ :: _, _, _, hlen, _ => by simp at hlen
  | n + 1, t :: rest, steps0, res, hlen, h => by
    by_cases ht : t = ['*']
    · subst ht
      cases rest with
      | nil => simp [compileLoop] at h
      | cons t2 rest2 =>
        cases hp : parse_token t2 with
        | error e => simp [compileLoop, hp] at h
        | ok r =>
          obtain ⟨op, key, args⟩ := r
          have hrec : ∃ a, compileLoop rest2 (steps0 ++ [⟨.scan, key, a⟩]) = .ok res := by
            simp only [compileLoop, if_true, hp] at h
            split_ifs at h
            · exact ⟨_, h⟩
            · exact ⟨_, h⟩
          obtain ⟨a, hrec⟩ := hrec
          have hl2 : rest2.length ≤ n := by
            simp only [List.length_cons] at hlen
            omega
          obtain ⟨more, h1, _, h3⟩ := compileLoop_steps n rest2 _ res hl2 hrec
          refine ⟨⟨.scan, key, a⟩ :: more, by simp [h1], by simp, ?_⟩
          intro s hs
          rcases List.mem_cons.mp hs with hs | hs
          · subst hs
            exact Or.inl ⟨rfl, [], t2, rest2, op, args, rfl, hp⟩
          · rcases h3 s hs with ⟨g1, l1, u, l2, op2, args2, g2, g3⟩ | ⟨u, g1, g2, g3⟩
            · exact Or.inl ⟨g1, ['*'] :: t2 :: l1, u, l2, op2, args2, by simp [g2], g3⟩
            · exact Or.inr ⟨u, by simp [g1], g2, g3⟩
    · rw [compileLoop.eq_def] at h
      simp only [if_neg ht] at h
      cases hp : parse_token t with
      | error e => simp [hp] at h
      | ok r =>
        obtain ⟨op, key, args⟩ := r
        have hrec : compileLoop rest (steps0 ++ [⟨op, key, args⟩]) = .ok res := by
          simpa [hp] using h
        have hl2 : rest.length ≤ n := by
          simp only [List.length_cons] at hlen
          omega
        obtain ⟨more, h1, _, h3⟩ := compileLoop_steps n rest _ res hl2 hrec
        refine ⟨⟨op, key, args⟩ :: more, by simp [h1], by simp, ?_⟩
        intro s hs
        rcases List.mem_cons.mp hs with hs | hs
        · subst hs
          exact Or.inr ⟨t, by simp, ht, hp⟩
        · rcases h3 s hs with ⟨g1, l1, u, l2, op2, args2, g2, g3⟩ | ⟨u, g1, g2, g3⟩
          · exact Or.inl ⟨g1, t :: l1, u, l2, op2, args2, by simp [g2], g3⟩
          · exact Or.inr ⟨u, by simp [g1], g2, g3⟩

/-! ## One character of the tokenizer -/

theorem tokenizeLoop_step (x : Char) (rest : List Char) (tokens : List (List Char))
    (token : List Char) :
    ∃ emitted token1,
      tokenizeLoop (x :: rest) false tokens token =
        tokenizeLoop rest false (tokens ++ emitted) token1 ∧
      ((token ++ [x] = ['.'] ∧ emitted = [] ∧ token1 = ['.']) ∨
        (token ++ [x] = ['.', '.'] ∧
          emitted = (if tokens.getLast? ≠ some ['*'] then [['*']] else []) ∧ token1 = ['.']) ∨
        (token ++ [x] ≠ ['.'] ∧ token ++ [x] ≠ ['.', '.'] ∧ '[' ∈ token ++ [x] ∧ x = ']' ∧
          emitted = [if (token ++ [x]).head? = some '.' then (token ++ [x]).tail
            else token ++ [x]] ∧ token1 = []) ∨
        ('[' ∈ token ++ [x] ∧ emitted = [] ∧ token1 = token ++ [x]) ∨
        (token ++ [x] ≠ ['.'] ∧ token ++ [x] ≠ ['.', '.'] ∧ '[' ∉ token ++ [x] ∧ x = '.' ∧
          emitted = [if (token ++ [x]).head? = some '.' then (token ++ [x]).tail.dropLast
            else (token ++ [x]).dropLast] ∧ token1 = ['.']) ∨
        (token ++ [x] ≠ ['.'] ∧ token ++ [x] ≠ ['.', '.'] ∧ '[' ∉ token ++ [x] ∧ x ≠ '.' ∧
          emitted = [] ∧ token1 = token ++ [x])) := by
  rw [tokenizeLoop]
  simp only [Bool.false_eq_true, if_false]
  by_cases c1 : token ++ [x] = ['.']
  · exact ⟨[], ['.'], by simp [c1], Or.inl ⟨c1, rfl, rfl⟩⟩
  · by_cases c2 : token ++ [x] = ['.', '.']
    · refine ⟨if tokens.getLast? ≠ some ['*'] then [['*']] else [], ['.'], ?_,
        Or.inr (Or.inl ⟨c2, rfl, rfl⟩)⟩
      rw [if_neg c1, if_pos c2]
      by_cases c : tokens.getLast? ≠ some ['*']
      · rw [if_pos c, if_pos c]
      · rw [if_neg c, if_neg c, List.append_nil]
    · rw [if_neg c1, if_neg c2]
      by_cases c3 : (token ++ [x]).contains '[' = true
      · have hm : '[' ∈ token ++ [x] := by simpa using c3
        rw [if_pos c3]
        by_cases c4 : x = ']' ∧ endsWith (token ++ [x]) [Char.ofNat 92, ']'] = false
        · rw [if_pos c4]
          exact ⟨_, [], rfl, Or.inr (Or.inr (Or.inl ⟨c1, c2, hm, c4.1, rfl, rfl⟩))⟩
        · rw [if_neg c4]
          exact ⟨[], _, by rw [List.append_nil], Or.inr (Or.inr (Or.inr (Or.inl ⟨hm, rfl, rfl⟩)))⟩
      · have hm : '[' ∉ token ++ [x] := by simpa using c3
        rw [if_neg c3]
        by_cases c5 : x = '.'
        · rw [if_pos c5]
          exact ⟨_, ['.'], rfl,
            Or.inr (Or.inr (Or.inr (Or.inr (Or.inl ⟨c1, c2, hm, c5, rfl, rfl⟩))))⟩
        · rw [if_neg c5]
          exact ⟨[], _, by rw [List.append_nil],
            Or.inr (Or.inr (Or.inr (Or.inr (Or.inr ⟨c1, c2, hm, c5, rfl, rfl⟩))))⟩

theorem tokenizeLoop_total : ∀ (rest : List Char) (tokens : List (List Char)) (token : List Char),
    ∃ tokens1 token1, tokenizeLoop rest false tokens token = .ok (tokens1, token1)
  | [], tokens, token => ⟨tokens, token, by rw [tokenizeLoop]⟩
  | x :: rest, tokens, token => by
    obtain ⟨emitted, token1, h, _⟩ := tokenizeLoop_step x rest tokens token
    rw [h]
    exact tokenizeLoop_total rest _ _

/-! ## Programs without a leading root step -/

theorem tokenizeLoop_no_dollar : ∀ (rest : List Char) (tokens : List (List Char))
    (token : List Char) (tokens1 : List (List Char)) (token1 : List Char),
    '$' ∉ rest → '$' ∉ token → tokenizeLoop rest false tokens token = .ok (tokens1, token1) →
    ∃ extra, tokens1 = tokens ++ extra ∧ (∀ t ∈ extra, '$' ∉ t) ∧ '$' ∉ token1 ∧
      ((token ≠ [] ∨ rest ≠ []) → extra ≠ [] ∨ token1 ≠ [])
  | [], tokens, token, tokens1, token1, _, htok, h => by
    rw [tokenizeLoop] at h
    simp only [Except.ok.injEq, Prod.mk.injEq] at h
    obtain ⟨rfl, rfl⟩ := h
    exact ⟨[], by simp, by simp, htok, fun hh => Or.inr (by simpa using hh)⟩
  | x :: rest, tokens, token, tokens1, token1, hrest, htok, h => by
    obtain ⟨emitted, tk, hstep, hcase⟩ := tokenizeLoop_step x rest tokens token
    rw [hstep] at h
    have hx : x ≠ '$' := fun e => hrest (by simp [e])
    have hr : '$' ∉ rest := fun e => hrest (List.mem_cons_of_mem _ e)
    have hA : '$' ∉ token ++ [x] := by
      simp only [List.mem_append, List.mem_singleton, not_or]
      exact ⟨htok, fun e => hx e.symm⟩
    have hAne : token ++ [x] ≠ [] := by simp
    have hdot : '$' ∉ ['.'] := by decide
    have facts : '$' ∉ tk ∧ (∀ t ∈ emitted, '$' ∉ t) ∧ (emitted ≠ [] ∨ tk ≠ []) := by
      rcases hcase with ⟨_, he, ht⟩ | ⟨_, he, ht⟩ | ⟨_, _, _, _, he, ht⟩ | ⟨_, he, ht⟩ |
        ⟨_, _, _, _, he, ht⟩ | ⟨_, _, _, _, he, ht⟩
      · subst he ht
        exact ⟨hdot, by simp, Or.inr (by simp)⟩
      · subst he ht
        refine ⟨hdot, ?_, Or.inr (by simp)⟩
        intro t ht
        split_ifs at ht
        · simp only [List.mem_singleton] at ht
          subst ht
          decide
        · simp at ht
      · subst he ht
        refine ⟨by simp, ?_, Or.inl (by simp)⟩
        intro t ht
        simp only [List.mem_singleton] at ht
        subst ht
        split_ifs
        · exact fun e => hA (List.mem_of_mem_tail e)
        · exact hA
      · subst he ht
        exact ⟨hA, by simp, Or.inr hAne⟩
      · subst he ht
        refine ⟨hdot, ?_, Or.inl (by simp)⟩
        intro t ht
        simp only [List.mem_singleton] at ht
        subst ht
        split_ifs
        · exact fun e => hA (List.mem_of_mem_tail (List.mem_of_mem_dropLast e))
        · exact fun e => hA (List.mem_of_mem_dropLast e)
      · subst he ht
        exact ⟨hA, by simp, Or.inr hAne⟩
    obtain ⟨f1, f2, f3⟩ := facts
    obtain ⟨extra, g1, g2, g3, g4⟩ :=
      tokenizeLoop_no_dollar rest (tokens ++ emitted) tk tokens1 token1 hr f1 h
    refine ⟨emitted ++ extra, by rw [g1, List.append_assoc], ?_, g3, fun _ => ?_⟩
    · intro t ht
      rcases List.mem_append.mp ht with ht | ht
      · exact f2 t ht
      · exact g2 t ht
    · rcases f3 with f3 | f3
      · exact Or.inl (by simp [f3])
      · rcases g4 (Or.inl f3) with g | g
        · exact Or.inl (by simp [g])
        · exact Or.inr g

theorem tokenize_no_dollar (p : String) (m : Char) (cs : List Char) (toks : List (List Char))
    (hp : p.data = m :: cs) (hcs : cs ≠ []) (hd : '$' ∉ cs) (h : tokenize p = .ok toks) :
    (m = '$' ∨ m = '@') ∧ ∃ ts, toks = [m] :: ts ∧ ts ≠ [] ∧ ∀ t ∈ ts, '$' ∉ t := by
  have hm : m = '$' ∨ m = '@' := by
    by_contra hne
    simp only [not_or] at hne
    have hl : tokenizeLoop (m :: cs) true [] [] = .error .shouldStart := by
      rw [tokenizeLoop]
      simp [hne.1, hne.2]
    simp [tokenize, hp, hl] at h
  refine ⟨hm, ?_⟩
  have hfirst : tokenizeLoop (m :: cs) true [] [] = tokenizeLoop cs false [[m]] [] := by
    rw [tokenizeLoop]
    simp only [List.nil_append, if_true]
    rw [if_pos (by rcases hm with e | e <;> simp [e])]
  obtain ⟨tokens1, token1, hl⟩ := tokenizeLoop_total cs [[m]] []
  obtain ⟨extra, g1, g2, g3, g4⟩ :=
    tokenizeLoop_no_dollar cs [[m]] [] tokens1 token1 hd (by simp) hl
  have g5 := g4 (Or.inr hcs)
  have hlead : '$' ∉ (if token1.head? = some '.' then token1.tail else token1) := by
    split_ifs
    · exact fun e => g3 (List.mem_of_mem_tail e)
    · exact g3
  have hstar : tokens1.getLast? = some ['*'] → extra ≠ [] := by
    intro hl2 he
    rw [g1, he, List.append_nil] at hl2
    simp only [List.getLast?_singleton, Option.some.injEq, List.cons.injEq, and_true] at hl2
    rcases hm with e | e <;> · rw [e] at hl2; exact absurd hl2 (by decide)
  simp only [tokenize, hp, hfirst, hl] at h
  subst g1
  generalize hL : (if token1.head? = some '.' then token1.tail else token1) = L at h hlead
  by_cases c1 : token1.length > 0
  · rw [if_pos c1] at h
    by_cases c2 : L ≠ ['*']
    · rw [if_pos c2] at h
      simp only [Except.ok.injEq] at h
      refine ⟨extra ++ [L], by rw [← h]; simp, by simp, ?_⟩
      intro t ht
      rcases List.mem_append.mp ht with ht | ht
      · exact g2 t ht
      · rw [List.mem_singleton.mp ht]
        exact hlead
    · rw [if_neg c2] at h
      by_cases c3 : ([[m]] ++ extra).getLast? ≠ some ['*']
      · rw [if_pos c3] at h
        simp only [Except.ok.injEq] at h
        refine ⟨extra ++ [L], by rw [← h]; simp, by simp, ?_⟩
        intro t ht
        rcases List.mem_append.mp ht with ht | ht
        · exact g2 t ht
        · rw [List.mem_singleton.mp ht]
          exact hlead
      · rw [if_neg c3] at h
        simp only [Except.ok.injEq] at h
        exact ⟨extra, by rw [← h]; rfl, hstar (not_not.mp c3), g2⟩
  · rw [if_neg c1] at h
    simp only [Except.ok.injEq] at h
    have ht0 : token1 = [] := by
      cases token1 with
      | nil => rfl
      | cons a b => simp at c1
    rcases g5 with g | g
    · exact ⟨extra, by rw [← h]; rfl, g, g2⟩
    · exact absurd ht0 g

theorem Compile_no_dollar_steps (p : String) (c : Compiled) (m : Char) (cs : List Char)
    (hp : p.data = m :: cs) (hcs : cs ≠ []) (hd : '$' ∉ cs) (hc : Compile p = .ok c) :
    c.steps ≠ [] ∧ ∀ s ∈ c.steps, s.op ≠ .root := by
  cases ht : tokenize p with
  | error e => simp [Compile, ht] at hc
  | ok toks =>
    obtain ⟨hm, ts, h1, h2, h3⟩ := tokenize_no_dollar p m cs toks hp hcs hd ht
    subst h1
    have h0 : ¬ ([m] ≠ ['@'] ∧ [m] ≠ ['$']) := by
      rcases hm with e | e <;> simp [e]
    simp only [Compile, ht, if_neg h0] at hc
    cases hl : compileLoop ts [] with
    | error e => simp [hl] at hc
    | ok steps =>
      simp only [hl, Except.ok.injEq] at hc
      subst hc
      obtain ⟨more, g1, g2, g3⟩ := compileLoop_steps ts.length ts [] steps (le_refl _) hl
      rw [List.nil_append] at g1
      subst g1
      refine ⟨g2 h2, ?_⟩
      intro s hs hroot
      rcases g3 s hs with ⟨g, _⟩ | ⟨t, gt, _, gp⟩
      · rw [hroot] at g
        exact absurd g (by decide)
      · rw [hroot] at gp
        rcases parse_token_cases t _ _ _ gp with ⟨e, _⟩ | ⟨_, _, e, _⟩ | ⟨_, _, _, e⟩
        · exact h3 t gt (by rw [e]; simp)
        · exact absurd e (by decide)
        · rcases e with e | e | e <;> exact absurd e (by decide)


theorem tokenizeLoop_extends : ∀ (rest : List Char) (tokens : List (List Char))
    (token : List Char) (tokens1 : List (List Char)) (token1 : List Char),
    tokenizeLoop rest false tokens token = .ok (tokens1, token1) →
    ∃ extra, tokens1 = tokens ++ extra ∧ ((token ≠ [] ∨ rest ≠ []) → extra ≠ [] ∨ token1 ≠ [])
  | [], tokens, token, tokens1, token1, h => by
    rw [tokenizeLoop] at h
    simp only [Except.ok.injEq, Prod.mk.injEq] at h
    obtain ⟨rfl, rfl⟩ := h
    exact ⟨[], by simp, fun hh => Or.inr (by simpa using hh)⟩
  | x :: rest, tokens, token, tokens1, token1, h => by
    obtain ⟨emitted, tk, hstep, hcase⟩ := tokenizeLoop_step x rest tokens token
    rw [hstep] at h
    have hAne : token ++ [x] ≠ [] := by simp
    have f3 : emitted ≠ [] ∨ tk ≠ [] := by
      rcases hcase with ⟨_, _, ht⟩ | ⟨_, _, ht⟩ | ⟨_, _, _, _, he, _⟩ | ⟨_, _, ht⟩ |
        ⟨_, _, _, _, _, ht⟩ | ⟨_, _, _, _, _, ht⟩
      · exact Or.inr (by rw [ht]; simp)
      · exact Or.inr (by rw [ht]; simp)
      · exact Or.inl (by rw [he]; simp)
      · exact Or.inr (by rw [ht]; exact hAne)
      · exact Or.inr (by rw [ht]; simp)
      · exact Or.inr (by rw [ht]; exact hAne)
    obtain ⟨extra, g1, g4⟩ := tokenizeLoop_extends rest (tokens ++ emitted) tk tokens1 token1 h
    refine ⟨emitted ++ extra, by rw [g1, List.append_assoc], fun _ => ?_⟩
    rcases f3 with f3 | f3
    · exact Or.inl (by simp [f3])
    · rcases g4 (Or.inl f3) with g | g
      · exact Or.inl (by simp [g])
      · exact Or.inr g

theorem lead_concat (token : List Char) (x : Char) (rest : List Char)
    (hI : (if token.head? = some '.' then token.tail else token).head? ≠ some '$')
    (h0 : token = [] → (x :: rest).head? ≠ some '$')
    (h1 : token = ['.'] → (x :: rest).head? ≠ some '$') :
    (if (token ++ [x]).head? = some '.' then (token ++ [x]).tail else token ++ [x]).head? ≠
      some '$' := by
  cases token with
  | nil =>
    have hx : x ≠ '$' := by simpa using h0 rfl
    by_cases c : x = '.'
    · simp [c]
    · simp [c, hx]
  | cons a w =>
    by_cases c : a = '.'
    · subst c
      cases w with
      | nil =>
        have hx : x ≠ '$' := by simpa using h1 rfl
        simp [hx]
      | cons b v => simpa using hI
    · simpa [c] using hI

theorem tokenizeLoop_first_token (m : Char) (hm : m ≠ '*') : ∀ (rest : List Char)
    (token : List Char) (tokens1 : List (List Char)) (token1 : List Char),
    (if token.head? = some '.' then token.tail else token).head? ≠ some '$' →
    (token = [] → rest.head? ≠ some '$' ∧ ¬ (['.', '$'] <+: rest)) →
    (token = ['.'] → rest.head? ≠ some '$') →
    tokenizeLoop rest false [[m]] token = .ok (tokens1, token1) →
    (tokens1 = [[m]] ∧
        (if token1.head? = some '.' then token1.tail else token1).head? ≠ some '$') ∨
      ∃ t1 more, tokens1 = [m] :: t1 :: more ∧ t1 ≠ ['$']
  | [], token, tokens1, token1, hI, _, _, h => by
    rw [tokenizeLoop] at h
    simp only [Except.ok.injEq, Prod.mk.injEq] at h
    obtain ⟨rfl, rfl⟩ := h
    exact Or.inl ⟨rfl, hI⟩
  | x :: rest, token, tokens1, token1, hI, h0, h1, h => by
    obtain ⟨emitted, tk, hstep, hcase⟩ := tokenizeLoop_step x rest [[m]] token
    rw [hstep] at h
    have hF := lead_concat token x rest hI (fun e => (h0 e).1) h1
    have emit : ∀ e : List Char, emitted = [e] → e ≠ ['$'] →
        ∃ t1 more, tokens1 = [m] :: t1 :: more ∧ t1 ≠ ['$'] := by
      intro e he hne
      rw [he] at h
      obtain ⟨extra, g1, _⟩ := tokenizeLoop_extends rest _ tk tokens1 token1 h
      exact ⟨e, extra, by rw [g1]; rfl, hne⟩
    have stay : emitted = [] → tk = token ++ [x] ∨ (tk = ['.'] ∧ token = [] ∧ x = '.') →
        (tk = ['.'] → token = [] ∧ x = '.') → tk ≠ [] →
        (tokens1 = [[m]] ∧
          (if token1.head? = some '.' then token1.tail else token1).head? ≠ some '$') ∨
        ∃ t1 more, tokens1 = [m] :: t1 :: more ∧ t1 ≠ ['$'] := by
      intro he htk hdot hne
      rw [he, List.append_nil] at h
      refine tokenizeLoop_first_token m hm rest tk tokens1 token1 ?_ (fun e => absurd e hne) ?_ h
      · rcases htk with e | ⟨e, _, _⟩
        · rw [e]
          exact hF
        · rw [e]
          simp
      · intro e
        obtain ⟨e1, e2⟩ := hdot e
        have := (h0 e1).2
        intro e3
        apply this
        subst e2
        cases rest with
        | nil => simp at e3
        | cons y ys =>
          simp only [List.head?_cons, Option.some.injEq] at e3
          subst e3
          exact ⟨ys, rfl⟩
    rcases hcase with ⟨hA1, he, ht⟩ | ⟨_, he, _⟩ | ⟨_, _, hmem, _, he, _⟩ | ⟨hmem, he, ht⟩ |
      ⟨hA1, _, _, hx, he, _⟩ | ⟨hA1, _, _, _, he, ht⟩
    · have e1 : token = [] ∧ x = '.' := by
        cases token with
        | nil => exact ⟨rfl, by simpa using hA1⟩
        | cons a w => cases w <;> simp at hA1
      exact stay he (Or.inr ⟨ht, e1⟩) (fun _ => e1) (by rw [ht]; simp)
    · have hl : ¬ ([[m]].getLast? ≠ some ['*']) → False := by
        intro c
        simp only [List.getLast?_singleton, ne_eq, Option.some.injEq, List.cons.injEq, and_true,
          not_not] at c
        exact hm c
      rw [if_pos (fun c => hl (fun c2 => c2 c))] at he
      exact Or.inr (emit _ he (by decide))
    · refine Or.inr (emit _ he ?_)
      intro e
      split_ifs at e with c
      · cases hA0 : token ++ [x] with
        | nil => rw [hA0] at hmem; simp at hmem
        | cons a as =>
          rw [hA0] at hmem c e
          simp only [List.head?_cons, Option.some.injEq] at c
          simp only [List.tail_cons] at e
          rw [c, e] at hmem
          simp at hmem
      · rw [e] at hmem
        simp at hmem
    · refine stay he (Or.inl ht) ?_ (by rw [ht]; simp)
      intro e
      rw [ht] at e
      rw [e] at hmem
      simp at hmem
    · refine Or.inr (emit _ he ?_)
      subst hx
      cases token with
      | nil => exact absurd rfl hA1
      | cons a w =>
        by_cases c : a = '.'
        · subst c
          simp only [List.cons_append, List.head?_cons, if_true, List.tail_cons,
            List.dropLast_concat]
          intro e
          rw [e] at hI
          simp at hI
        · have hd : ((a :: w) ++ ['.']).dropLast = a :: w := List.dropLast_concat
          simp only [List.cons_append, List.head?_cons, Option.some.injEq, c, if_false]
          rw [← List.cons_append, hd]
          intro e
          rw [e] at hI
          simp at hI
    · refine stay he (Or.inl ht) ?_ (by rw [ht]; simp)
      intro e
      rw [ht] at e
      exact absurd e hA1

theorem tokenize_first_token (p : String) (m : Char) (cs : List Char) (toks : List (List Char))
    (hp : p.data = m :: cs) (hcs : cs ≠ []) (h1 : cs.head? ≠ some '$')
    (h2 : ¬ (['.', '$'] <+: cs)) (h : tokenize p = .ok toks) :
    (m = '$' ∨ m = '@') ∧ ∃ t1 more, toks = [m] :: t1 :: more ∧ t1 ≠ ['$'] := by
  have hm : m = '$' ∨ m = '@' := by
    by_contra hne
    simp only [not_or] at hne
    have hl : tokenizeLoop (m :: cs) true [] [] = .error .shouldStart := by
      rw [tokenizeLoop]
      simp [hne.1, hne.2]
    simp [tokenize, hp, hl] at h
  refine ⟨hm, ?_⟩
  have hmstar : m ≠ '*' := by
    rcases hm with e | e <;> · rw [e]; decide
  have hfirst : tokenizeLoop (m :: cs) true [] [] = tokenizeLoop cs false [[m]] [] := by
    rw [tokenizeLoop]
    simp only [List.nil_append, if_true]
    rw [if_pos (by rcases hm with e | e <;> simp [e])]
  obtain ⟨tokens1, token1, hl⟩ := tokenizeLoop_total cs [[m]] []
  obtain ⟨extra, g1, g4⟩ := tokenizeLoop_extends cs [[m]] [] tokens1 token1 hl
  have g5 := g4 (Or.inr hcs)
  have key := tokenizeLoop_first_token m hmstar cs [] tokens1 token1 (by simp)
    (fun _ => ⟨h1, h2⟩) (by simp) hl
  simp only [tokenize, hp, hfirst, hl] at h
  generalize hL : (if token1.head? = some '.' then token1.tail else token1) = L at h key
  have hLne : L.head? ≠ some '$' → L ≠ ['$'] := by
    intro hh e
    rw [e] at hh
    simp at hh
  have hm1 : ¬ ([[m]].getLast? = some ['*']) := by
    simp only [List.getLast?_singleton, Option.some.injEq, List.cons.injEq, and_true]
    exact hmstar
  rcases key with ⟨e1, e2⟩ | ⟨t1, more, e1, e2⟩
  · subst e1
    have hne : token1 ≠ [] := by
      rcases g5 with g | g
      · have : extra = [] := by simpa using g1.symm
        exact absurd this g
      · exact g
    have c1 : token1.length > 0 := List.length_pos.mpr hne
    rw [if_pos c1] at h
    by_cases c2 : L ≠ ['*']
    · rw [if_pos c2] at h
      simp only [Except.ok.injEq] at h
      exact ⟨L, [], by rw [← h]; rfl, hLne e2⟩
    · rw [if_neg c2, if_pos hm1] at h
      simp only [Except.ok.injEq] at h
      exact ⟨L, [], by rw [← h]; rfl, hLne e2⟩
  · subst e1
    by_cases c1 : token1.length > 0
    · rw [if_pos c1] at h
      by_cases c2 : L ≠ ['*']
      · rw [if_pos c2] at h
        simp only [Except.ok.injEq] at h
        exact ⟨t1, more ++ [L], by rw [← h]; rfl, e2⟩
      · rw [if_neg c2] at h
        by_cases c3 : ([m] :: t1 :: more).getLast? ≠ some ['*']
        · rw [if_pos c3] at h
          simp only [Except.ok.injEq] at h
          exact ⟨t1, more ++ [L], by rw [← h]; rfl, e2⟩
        · rw [if_neg c3] at h
          simp only [Except.ok.injEq] at h
          exact ⟨t1, more, by rw [← h], e2⟩
    · rw [if_neg c1] at h
      simp only [Except.ok.injEq] at h
      exact ⟨t1, more, by rw [← h], e2⟩

theorem compileLoop_first_step (t1 : List Char) (more : List (List Char)) (steps : List Step)
    (h1 : t1 ≠ ['$']) (h : compileLoop (t1 :: more) [] = .ok steps) :
    ∃ s rest, steps = s :: rest ∧ s.op ≠ .root := by
  by_cases ht : t1 = ['*']
  · subst ht
    cases more with
    | nil => simp [compileLoop] at h
    | cons t2 rest2 =>
      cases hp : parse_token t2 with
      | error e => simp [compileLoop, hp] at h
      | ok r =>
        obtain ⟨op, key, args⟩ := r
        have hrec : ∃ a, compileLoop rest2 ([] ++ [⟨.scan, key, a⟩]) = .ok steps := by
          simp only [compileLoop, if_true, hp] at h
          split_ifs at h
          · exact ⟨_, h⟩
          · exact ⟨_, h⟩
        obtain ⟨a, hrec⟩ := hrec
        obtain ⟨rest, g1, _, _⟩ := compileLoop_steps rest2.length rest2 _ steps (le_refl _) hrec
        exact ⟨⟨.scan, key, a⟩, rest, by rw [g1]; rfl, fun e => Op.noConfusion e⟩
  · rw [compileLoop.eq_def] at h
    simp only [if_neg ht] at h
    cases hp : parse_token t1 with
    | error e => simp [hp] at h
    | ok r =>
      obtain ⟨op, key, args⟩ := r
      have hrec : compileLoop more ([] ++ [⟨op, key, args⟩]) = .ok steps := by
        simpa [hp] using h
      obtain ⟨rest, g1, _, _⟩ := compileLoop_steps more.length more _ steps (le_refl _) hrec
      refine ⟨⟨op, key, args⟩, rest, by rw [g1]; rfl, ?_⟩
      intro e
      simp only at e
      subst e
      rcases parse_token_cases t1 _ _ _ hp with ⟨e, _⟩ | ⟨_, _, e, _⟩ | ⟨_, _, _, e⟩
      · exact h1 e
      · exact absurd e (by decide)
      · rcases e with e | e | e <;> exact absurd e (by decide)

/-- C22 (amended): for a path of at least two characters whose text after the first
character starts neither with `$` nor with `.$`, a program that `Compile` returns has at
least one step, and its first step does not have the operator `root`; when `$` does not
occur after the first character at all, no step has the operator `root`. -/
theorem Compile_steps_no_root (p : String) (c : Compiled) (m : Char) (cs : List Char)
    (hp : p.data = m :: cs) (hcs : cs ≠ []) (h1 : cs.head? ≠ some '$')
    (h2 : ¬ (['.', '$'] <+: cs)) (hc : Compile p = .ok c) :
    c.steps ≠ [] ∧ (∀ s, c.steps.head? = some s → s.op ≠ .root) ∧
      ('$' ∉ cs → ∀ s ∈ c.steps, s.op ≠ .root) := by
  have hall : '$' ∉ cs → ∀ s ∈ c.steps, s.op ≠ .root := fun hd =>
    (Compile_no_dollar_steps p c m cs hp hcs hd hc).2
  cases ht : tokenize p with
  | error e => simp [Compile, ht] at hc
  | ok toks =>
    obtain ⟨hm, t1, more, e1, e2⟩ := tokenize_first_token p m cs toks hp hcs h1 h2 ht
    subst e1
    have h0 : ¬ ([m] ≠ ['@'] ∧ [m] ≠ ['$']) := by
      rcases hm with e | e <;> simp [e]
    simp only [Compile, ht, if_neg h0] at hc
    cases hl : compileLoop (t1 :: more) [] with
    | error e => simp [hl] at hc
    | ok steps =>
      simp only [hl, Except.ok.injEq] at hc
      subst hc
      obtain ⟨s, rest, g1, g2⟩ := compileLoop_first_step t1 more steps e2 hl
      refine ⟨by simp [g1], ?_, hall⟩
      intro s2 hs2
      simp only [g1, List.head?_cons, Option.some.injEq] at hs2
      subst hs2
      exact g2

/-- Witness for the amended C22: the path `$.store.book[?(@.price < $.limit)]`, with a
`$` inside the filter. -/
theorem Compile_steps_no_root_witness :
    Compile "$.store.book[?(@.price < $.limit)]" =
        .ok ⟨"$.store.book[?(@.price < $.limit)]",
          [⟨.key, "store", .none⟩, ⟨.filter, "book", .filter "@.price < $.limit"⟩]⟩ ∧
      ([⟨.key, "store", .none⟩, ⟨.filter, "book", .filter "@.price < $.limit"⟩] : List Step) ≠
        [] ∧
      (∀ s, ([⟨.key, "store", .none⟩,
          ⟨.filter, "book", .filter "@.price < $.limit"⟩] : List Step).head? = some s →
        s.op ≠ .root) :=
  ⟨by decide,
    (Compile_steps_no_root "$.store.book[?(@.price < $.limit)]"
      ⟨"$.store.book[?(@.price < $.limit)]",
        [⟨.key, "store", .none⟩, ⟨.filter, "book", .filter "@.price < $.limit"⟩]⟩ '$'
      ".store.book[?(@.price < $.limit)]".data rfl (by decide) (by decide) (by decide)
      (by decide)).1,
    (Compile_steps_no_root "$.store.book[?(@.price < $.limit)]"
      ⟨"$.store.book[?(@.price < $.limit)]",
        [⟨.key, "store", .none⟩, ⟨.filter, "book", .filter "@.price < $.limit"⟩]⟩ '$'
      ".store.book[?(@.price < $.limit)]".data rfl (by decide) (by decide) (by decide)
      (by decide)).2.1⟩

/-- C22 as stated fails: `Compile` accepts `$` and returns a program without a step, and
it accepts `$.$` and returns a program whose first step has the operator `root`. -/
theorem Compile_root_programs :
    Compile "$" = .ok ⟨"$", []⟩ ∧ Compile "$.$" = .ok ⟨"$.$", [⟨.root, "$", .none⟩]⟩ := by
  decide

/-! ## Keys of the scan steps -/

theorem tokenizeLoop_scan_inv : ∀ (rest : List Char) (tokens : List (List Char))
    (token : List Char) (tokens1 : List (List Char)) (token1 : List Char),
    List.Chain' afterStar tokens → (tokens.getLast? = some ['*'] → pendingName token) →
    ¬ (['.', '['] <:+: rest) → rest.getLast? ≠ some '.' →
    (token = ['.'] → rest ≠ [] ∧ rest.head? ≠ some '[') →
    tokenizeLoop rest false tokens token = .ok (tokens1, token1) →
    List.Chain' afterStar tokens1 ∧ (tokens1.getLast? = some ['*'] → pendingName token1) ∧
      token1 ≠ ['.']
  | [], tokens, token, tokens1, token1, hch, hpend, _, _, hdot, h => by
    rw [tokenizeLoop] at h
    simp only [Except.ok.injEq, Prod.mk.injEq] at h
    obtain ⟨rfl, rfl⟩ := h
    exact ⟨hch, hpend, fun e => (hdot e).1 rfl⟩
  | x :: rest, tokens, token, tokens1, token1, hch, hpend, hinf, hlast, hdot, h => by
    obtain ⟨emitted, tk, hstep, hcase⟩ := tokenizeLoop_step x rest tokens token
    rw [hstep] at h
    have hinf2 : ¬ (['.', '['] <:+: rest) := fun e => hinf (List.infix_cons e)
    have hlast2 : rest.getLast? ≠ some '.' := by
      cases rest with
      | nil => simp
      | cons y ys =>
        rw [List.getLast?_cons_cons] at hlast
        exact hlast
    have hxdot : x = '.' → rest ≠ [] ∧ rest.head? ≠ some '[' := by
      intro e
      subst e
      constructor
      · intro e2
        subst e2
        exact hlast rfl
      · intro e2
        cases rest with
        | nil => simp at e2
        | cons y ys =>
          simp only [List.head?_cons, Option.some.injEq] at e2
          subst e2
          exact hinf (List.IsPrefix.isInfix ⟨ys, rfl⟩)
    -- the token that is read, after a marker
    have hA : tokens.getLast? = some ['*'] →
        (token = ['.'] ∧ x ≠ '[') ∨
          ∃ y w, token ++ [x] = '.' :: y :: w ∧ y ≠ '.' ∧ y ≠ '[' := by
      intro hl
      rcases hpend hl with e | ⟨y, w, e, h1, h2⟩
      · refine Or.inl ⟨e, ?_⟩
        intro ex
        have := (hdot e).2
        rw [ex] at this
        exact this rfl
      · exact Or.inr ⟨y, w ++ [x], by rw [e]; rfl, h1, h2⟩
    have key : List.Chain' afterStar (tokens ++ emitted) ∧
        ((tokens ++ emitted).getLast? = some ['*'] → pendingName tk) ∧
        (tk = ['.'] → x = '.') := by
      rcases hcase with ⟨hA1, he, ht⟩ | ⟨hA1, he, ht⟩ | ⟨_, _, hm, hx, he, ht⟩ | ⟨hm, he, ht⟩ |
        ⟨_, hA2, hm, hx, he, ht⟩ | ⟨hA1, _, hm, hx, he, ht⟩
      · subst he ht
        have hx : x = '.' := by
          have := congrArg List.getLast? hA1
          simpa using this
        rw [List.append_nil]
        exact ⟨hch, fun _ => Or.inl rfl, fun _ => hx⟩
      · subst he ht
        have hx : x = '.' := by
          have := congrArg List.getLast? hA1
          simpa using this
        refine ⟨?_, fun _ => Or.inl rfl, fun _ => hx⟩
        by_cases c : tokens.getLast? ≠ some ['*']
        · rw [if_pos c]
          refine List.Chain'.append hch (List.chain'_singleton _) ?_
          intro a ha b _ hstar
          rw [Option.mem_def] at ha
          rw [hstar] at ha
          exact absurd ha c
        · rw [if_neg c, List.append_nil]
          exact hch
      · subst he ht
        have hne : (if (token ++ [x]).head? = some '.' then (token ++ [x]).tail
            else token ++ [x]) ≠ ['*'] := by
          intro e
          split_ifs at e with c
          · have hm2 : '[' ∈ (token ++ [x]).tail := by
              cases hA0 : token ++ [x] with
              | nil => rw [hA0] at hm; simp at hm
              | cons a as =>
                rw [hA0] at hm c
                simp only [List.head?_cons, Option.some.injEq] at c
                subst c
                simpa using hm
            rw [e] at hm2
            simp at hm2
          · rw [e] at hm
            simp at hm
        refine ⟨?_, ?_, by simp⟩
        · refine List.Chain'.append hch (List.chain'_singleton _) ?_
          intro a ha b hb hstar
          rw [Option.mem_def] at ha
          rw [hstar] at ha
          simp only [List.head?_cons, Option.mem_def, Option.some.injEq] at hb
          subst hb
          rcases hA ha with ⟨e, _⟩ | ⟨y, w, e, h1, h2⟩
          · rw [e, hx] at hm
            simp at hm
          · rw [e]
            simp only [List.head?_cons, if_true, List.tail_cons]
            exact ⟨by simp, by simpa using h2⟩
        · intro hl
          rw [List.getLast?_concat] at hl
          simp only [Option.some.injEq] at hl
          exact absurd hl hne
      · subst he ht
        rw [List.append_nil]
        refine ⟨hch, ?_, ?_⟩
        · intro hl
          rcases hA hl with ⟨e, hx⟩ | ⟨y, w, e, h1, h2⟩
          · rw [e] at hm
            simp only [List.cons_append, List.nil_append, List.mem_cons, List.mem_singleton,
              List.not_mem_nil, or_false] at hm
            rcases hm with hm | hm
            · exact absurd hm (by decide)
            · exact absurd hm.symm hx
          · exact Or.inr ⟨y, w, e, h1, h2⟩
        · intro e
          rw [e] at hm
          simp at hm
      · subst he ht
        refine ⟨?_, fun _ => Or.inl rfl, fun _ => hx⟩
        refine List.Chain'.append hch (List.chain'_singleton _) ?_
        intro a ha b hb hstar
        rw [Option.mem_def] at ha
        rw [hstar] at ha
        simp only [List.head?_cons, Option.mem_def, Option.some.injEq] at hb
        subst hb
        rcases hA ha with ⟨e, _⟩ | ⟨y, w, e, h1, h2⟩
        · rw [e, hx] at hA2
          exact absurd rfl hA2
        · have hw : w ≠ [] := by
            intro e2
            rw [e2] at e
            have := congrArg List.getLast? e
            simp only [List.getLast?_concat, List.getLast?_cons_cons, List.getLast?_singleton,
              Option.some.injEq] at this
            exact h1 (this.symm.trans hx)
          rw [e]
          simp only [List.head?_cons, if_true, List.tail_cons]
          rw [List.dropLast_cons_of_ne_nil hw]
          exact ⟨by simp, by simpa using h2⟩
      · subst he ht
        rw [List.append_nil]
        refine ⟨hch, ?_, fun e => absurd e hA1⟩
        intro hl
        rcases hA hl with ⟨e, _⟩ | ⟨y, w, e, h1, h2⟩
        · refine Or.inr ⟨x, [], by rw [e]; rfl, hx, ?_⟩
          intro ex
          exact hm (by simp [ex])
        · exact Or.inr ⟨y, w, e, h1, h2⟩
    obtain ⟨k1, k2, k3⟩ := key
    exact tokenizeLoop_scan_inv rest (tokens ++ emitted) tk tokens1 token1 k1 k2 hinf2 hlast2
      (fun e => hxdot (k3 e)) h

theorem tokenize_scan_chain (p : String) (toks : List (List Char))
    (h1 : p.data.getLast? ≠ some '.') (h2 : ¬ (['.', '['] <:+: p.data))
    (h : tokenize p = .ok toks) : List.Chain' afterStar toks := by
  cases hp : p.data with
  | nil =>
    simp only [tokenize, hp, tokenizeLoop] at h
    simp only [List.length_nil, gt_iff_lt, lt_self_iff_false, if_false, Except.ok.injEq] at h
    rw [← h]
    exact List.chain'_nil
  | cons m cs =>
    rw [hp] at h1 h2
    by_cases hm : m = '$' ∨ m = '@'
    · have hfirst : tokenizeLoop (m :: cs) true [] [] = tokenizeLoop cs false [[m]] [] := by
        rw [tokenizeLoop]
        simp only [List.nil_append, if_true]
        rw [if_pos (by rcases hm with e | e <;> simp [e])]
      obtain ⟨tokens1, token1, hl⟩ := tokenizeLoop_total cs [[m]] []
      have hlast : cs.getLast? ≠ some '.' := by
        cases cs with
        | nil => simp
        | cons y ys =>
          rw [List.getLast?_cons_cons] at h1
          exact h1
      have hstart : [[m]].getLast? = some ['*'] → pendingName [] := by
        intro e
        simp only [List.getLast?_singleton, Option.some.injEq, List.cons.injEq, and_true] at e
        rcases hm with e2 | e2 <;> · rw [e2] at e; exact absurd e (by decide)
      obtain ⟨k1, k2, k3⟩ := tokenizeLoop_scan_inv cs [[m]] [] tokens1 token1
        (List.chain'_singleton _) hstart (fun e => h2 (List.infix_cons e)) hlast (by simp) hl
      have happ : List.Chain' afterStar
          (tokens1 ++ [if token1.head? = some '.' then token1.tail else token1]) := by
        refine List.Chain'.append k1 (List.chain'_singleton _) ?_
        intro a ha b hb hstar
        rw [Option.mem_def] at ha
        rw [hstar] at ha
        simp only [List.head?_cons, Option.mem_def, Option.some.injEq] at hb
        subst hb
        rcases k2 ha with e | ⟨y, w, e, _, g2⟩
        · exact absurd e k3
        · rw [e]
          simp only [List.head?_cons, if_true, List.tail_cons]
          exact ⟨by simp, by simpa using g2⟩
      simp only [tokenize, hp, hfirst, hl] at h
      generalize (if token1.head? = some '.' then token1.tail else token1) = L at h happ
      by_cases c1 : token1.length > 0
      · rw [if_pos c1] at h
        by_cases c2 : L ≠ ['*']
        · rw [if_pos c2] at h
          simp only [Except.ok.injEq] at h
          rw [← h]
          exact happ
        · rw [if_neg c2] at h
          by_cases c3 : tokens1.getLast? ≠ some ['*']
          · rw [if_pos c3] at h
            simp only [Except.ok.injEq] at h
            rw [← h]
            exact happ
          · rw [if_neg c3] at h
            simp only [Except.ok.injEq] at h
            rw [← h]
            exact k1
      · rw [if_neg c1] at h
        simp only [Except.ok.injEq] at h
        rw [← h]
        exact k1
    · simp only [not_or] at hm
      have hl : tokenizeLoop (m :: cs) true [] [] = .error .shouldStart := by
        rw [tokenizeLoop]
        simp [hm.1, hm.2]
      simp [tokenize, hp, hl] at h

theorem namedToken_key (t : List Char) (op : Op) (key : String) (args : Args)
    (ht : namedToken t) (h : parse_token t = .ok (op, key, args)) : key ≠ "" := by
  obtain ⟨t1, t2⟩ := ht
  rcases parse_token_cases t op key args h with ⟨_, _, e⟩ | ⟨_, _, _, e⟩ | ⟨_, _, e, _⟩
  · rw [e]
    decide
  · rw [e]
    intro e2
    exact t1 (congrArg String.data e2)
  · rw [e]
    intro e2
    have e3 := congrArg String.data e2
    cases t with
    | nil => exact t1 rfl
    | cons a as =>
      have ha : a ≠ '[' := by simpa using t2
      simp [List.takeWhile, ha] at e3

/-- C23 (amended): for a path that does not end with `.` and in which no `.` is followed
by `[`, every scan step of a program that `Compile` returns has a non-empty key. -/
theorem scan_keys_nonempty (p : String) (c : Compiled) (h1 : p.data.getLast? ≠ some '.')
    (h2 : ¬ (['.', '['] <:+: p.data)) (hc : Compile p = .ok c) :
    ∀ s ∈ c.steps, s.op = .scan → s.key ≠ "" := by
  cases ht : tokenize p with
  | error e => simp [Compile, ht] at hc
  | ok toks =>
    have hch := tokenize_scan_chain p toks h1 h2 ht
    cases toks with
    | nil => simp [Compile, ht] at hc
    | cons t0 ts =>
      simp only [Compile, ht] at hc
      split_ifs at hc
      cases hl : compileLoop ts [] with
      | error e => simp [hl] at hc
      | ok steps =>
        simp only [hl, Except.ok.injEq] at hc
        subst hc
        obtain ⟨more, g1, _, g3⟩ := compileLoop_steps ts.length ts [] steps (le_refl _) hl
        rw [List.nil_append] at g1
        subst g1
        intro s hs hscan
        rcases g3 s hs with ⟨_, l1, t2, l2, op, args, e, gp⟩ | ⟨t, _, _, gp⟩
        · have hch2 : List.Chain' afterStar (l1 ++ ['*'] :: t2 :: l2) := by
            rw [← e]
            exact hch.tail
          rw [List.chain'_append_cons_cons] at hch2
          exact namedToken_key t2 op s.key args (hch2.2.1 rfl) gp
        · rw [hscan] at gp
          rcases parse_token_cases t _ _ _ gp with ⟨_, e, _⟩ | ⟨_, _, e, _⟩ | ⟨_, _, _, e⟩
          · exact absurd e (by decide)
          · exact absurd e (by decide)
          · rcases e with e | e | e <;> exact absurd e (by decide)

/-- Witness for the amended C23: the path `$.store..price[0]`. -/
theorem scan_keys_nonempty_witness :
    Compile "$.store..price[0]" =
        .ok ⟨"$.store..price[0]", [⟨.key, "store", .none⟩, ⟨.scan, "price", .idx [0]⟩]⟩ ∧
      ∀ s ∈ ([⟨.key, "store", .none⟩, ⟨.scan, "price", .idx [0]⟩] : List Step),
        s.op = .scan → s.key ≠ "" :=
  ⟨by decide,
    scan_keys_nonempty "$.store..price[0]"
      ⟨"$.store..price[0]", [⟨.key, "store", .none⟩, ⟨.scan, "price", .idx [0]⟩]⟩
      (by decide) (by decide) (by decide)⟩

/-- C23 as stated fails: `Compile` accepts `$..` and `$..[0]` and returns a scan step
with the empty key. -/
theorem scan_step_with_empty_key :
    Compile "$.." = .ok ⟨"$..", [⟨.scan, "", .none⟩]⟩ ∧
      Compile "$..[0]" = .ok ⟨"$..[0]", [⟨.scan, "", .idx [0]⟩]⟩ := by
  decide

end JsonPath
